import Mathlib

/-!
Verification of the TACL configuration-language parser (`src/tacl/parser.py`).

The development shallowly embeds the parser's data model and operations:

* Python strings are `List Char`; Python ints are `Int`; Python floats are
  modelled as exact rationals (`Rat`); Python dicts are insertion-ordered
  association lists with first-match lookup and update-in-place.
* Fallible Python code (functions that raise) returns `Except`, with the
  raised exception's message as the error payload.
* Unbounded loops and non-structural recursion are modelled with an explicit
  fuel parameter (`Nat`); `none` means the fuel ran out, which never happens
  for the fuel budgets used by the wrappers on real inputs.  All definitions
  are structurally recursive and therefore computable by the kernel.
-/

namespace TACL

/-- Python strings are modelled as lists of characters. -/
abbrev Str := List Char

/-- Whitespace recognised by Python's `str.strip()` (ASCII subset). -/
def pyIsSpace (c : Char) : Bool :=
  c = ' ' || c = '\t' || c = '\n' || c = '\r' || c = '\x0b' || c = '\x0c'

/-- Python `str.strip()`: remove leading and trailing whitespace. -/
def pyStrip (s : Str) : Str :=
  ((s.dropWhile pyIsSpace).reverse.dropWhile pyIsSpace).reverse

/-- Python `str.startswith(p)`. -/
def pyStartsWith : Str → Str → Bool
  | [], _ => true
  | _ :: _, [] => false
  | p :: ps, c :: cs => p = c && pyStartsWith ps cs

/-- Python `str.endswith(p)`, by comparing against the reversed strings. -/
def pyEndsWith (p s : Str) : Bool :=
  pyStartsWith p.reverse s.reverse

/-- Python `sep in s` for a single character. -/
def pyContains (s : Str) (c : Char) : Bool :=
  s.contains c

/-- Python `s.split(sep)` for a one-character separator: splits at every
occurrence, keeping empty pieces. -/
def splitChar (sep : Char) : Str → List Str
  | [] => [[]]
  | c :: rest =>
    if c = sep then [] :: splitChar sep rest
    else
      match splitChar sep rest with
      | [] => [[c]]
      | p :: ps => (c :: p) :: ps

/-- Python `s.split(sep, 1)` for a one-character separator, when the
separator occurs: the pieces before and after its first occurrence. -/
def splitFirst (sep : Char) : Str → Option (Str × Str)
  | [] => none
  | c :: rest =>
    if c = sep then some ([], rest)
    else
      match splitFirst sep rest with
      | none => none
      | some (a, b) => some (c :: a, b)

/-- ASCII decimal digit test. -/
def isDigitCh (c : Char) : Bool :=
  '0' ≤ c && c ≤ '9'

/-- ASCII letter test. -/
def isAlphaCh (c : Char) : Bool :=
  ('a' ≤ c && c ≤ 'z') || ('A' ≤ c && c ≤ 'Z')

/-- First character of a Python identifier (ASCII model). -/
def isIdentStart (c : Char) : Bool :=
  isAlphaCh c || c = '_'

/-- Non-first character of a Python identifier, the `\w` class (ASCII model). -/
def isWordCh (c : Char) : Bool :=
  isIdentStart c || isDigitCh c

/-- Python `str.isidentifier()` (ASCII model: Python also admits some
non-ASCII letters, which never occur in this development). -/
def pyIsIdentifier (s : Str) : Bool :=
  match s with
  | [] => false
  | c :: rest => isIdentStart c && rest.all isWordCh

/-- Numeric value of a list of ASCII digits. -/
def digitsToNat : Str → Nat → Nat
  | [], acc => acc
  | c :: rest, acc => digitsToNat rest (acc * 10 + (c.toNat - '0'.toNat))

/-- Python `int(s)`: optional surrounding whitespace, optional sign, then a
non-empty run of decimal digits.  (The model omits Python's digit-group
underscores, which never occur in this repository's inputs.)  Returns `none`
where Python raises `ValueError`. -/
def pyParseInt (s0 : Str) : Option Int :=
  let s := pyStrip s0
  match s with
  | '+' :: ds => if ds ≠ [] && ds.all isDigitCh then some (digitsToNat ds 0) else none
  | '-' :: ds => if ds ≠ [] && ds.all isDigitCh then some (-(digitsToNat ds 0 : Int)) else none
  | ds => if ds ≠ [] && ds.all isDigitCh then some (digitsToNat ds 0) else none

/-- Mantissa and scale parsing for `pyParseFloat`: returns the numerator and
power-of-ten denominator of the unsigned mantissa, plus the unconsumed rest.
All arithmetic stays in `Nat` so the kernel can evaluate it. -/
def floatMantissa (t : Str) : Option ((Nat × Nat) × Str) :=
  let intDigits := t.takeWhile isDigitCh
  let rest1 := t.dropWhile isDigitCh
  match rest1 with
  | '.' :: after =>
    let fracDigits := after.takeWhile isDigitCh
    let rest2 := after.dropWhile isDigitCh
    if intDigits.length + fracDigits.length = 0 then none
    else some ((digitsToNat (intDigits ++ fracDigits) 0, 10 ^ fracDigits.length), rest2)
  | _ =>
    if intDigits.length = 0 then none
    else some ((digitsToNat intDigits 0, 1), rest1)

/-- Exponent suffix parsing for `pyParseFloat`: applies `e±ddd` to a
numerator/denominator pair. -/
def floatExponent (num den : Nat) : Str → Option (Nat × Nat)
  | [] => some (num, den)
  | e :: exps =>
    if e = 'e' || e = 'E' then
      match exps with
      | '+' :: ds =>
        if ds ≠ [] && ds.all isDigitCh then some (num * 10 ^ digitsToNat ds 0, den) else none
      | '-' :: ds =>
        if ds ≠ [] && ds.all isDigitCh then some (num, den * 10 ^ digitsToNat ds 0) else none
      | ds =>
        if ds ≠ [] && ds.all isDigitCh then some (num * 10 ^ digitsToNat ds 0, den) else none
    else none

/-- Python `float(s)` on the inputs this parser feeds it: optional
whitespace and sign, digits with an optional decimal point (at least one
digit overall) and an optional decimal exponent.  Modelled as an exact
rational; the parser only ever compares these values against ints and other
parsed floats, where exact-rational and IEEE semantics agree on the inputs
exercised here.  Returns `none` where Python raises `ValueError`. -/
def pyParseFloat (s0 : Str) : Option Rat :=
  let s := pyStrip s0
  let core := fun (t : Str) (sign : Int) =>
    match floatMantissa t with
    | none => none
    | some ((num, den), rest2) =>
      match floatExponent num den rest2 with
      | none => none
      | some (n2, d2) => some (mkRat (sign * (n2 : Int)) d2)
  match s with
  | '+' :: t => core t 1
  | '-' :: t => core t (-1)
  | t => core t 1

/-- Decimal rendering of a natural number, as Python prints it. -/
def natToStr (n : Nat) : Str :=
  Nat.toDigits 10 n

/-- Decimal rendering of an integer, as Python prints it. -/
def intToStr (n : Int) : Str :=
  if n < 0 then '-' :: natToStr n.natAbs else natToStr n.natAbs

/-- First-match lookup in an association list, the semantics of indexing a
Python dict (whose keys are unique, making first-match exact). -/
def lookupA {α : Type} : List (Str × α) → Str → Option α
  | [], _ => none
  | (k, v) :: rest, key => if k = key then some v else lookupA rest key

/-- Python dict assignment `d[k] = v`: overwrite in place if the key exists
(keeping its position), otherwise append. -/
def setKey {α : Type} : List (Str × α) → Str → α → List (Str × α)
  | [], key, v => [(key, v)]
  | (k, w) :: rest, key, v =>
    if k = key then (k, v) :: rest else (k, w) :: setKey rest key v

/-- Python `", ".join`-style interleaving. -/
def joinSep (sep : Str) : List Str → Str
  | [] => []
  | [s] => s
  | s :: rest => s ++ sep ++ joinSep sep rest

/-! ### The type model (`TypeKind`, `TACLType`) -/

/-- The `TypeKind` enumeration from the source. -/
inductive TypeKind where
  | string | int | bool | float | null
  | list | dict | optional | union | literal | custom | object
  deriving DecidableEq, Repr

/-- The `value` string of each `TypeKind` member. -/
def kindValue : TypeKind → Str
  | .string => "string".toList
  | .int => "int".toList
  | .bool => "bool".toList
  | .float => "float".toList
  | .null => "null".toList
  | .list => "list".toList
  | .dict => "dict".toList
  | .optional => "optional".toList
  | .union => "union".toList
  | .literal => "literal".toList
  | .custom => "custom".toList
  | .object => "object".toList

/-- A constructed `TACLType`: the immutable type-term tree.  The dataclass
invariant enforced by `__post_init__` (each kind carries exactly its required
payload) is built into the constructors; `RawTACLType` below models the
unchecked constructor arguments for the invariant claim itself.
Field names follow the source: `dict` stores `key_type` then `inner_type`. -/
inductive TACLType where
  | string
  | int
  | bool
  | float
  | null
  | object
  | list (inner : TACLType)
  | dict (key inner : TACLType)
  | optional (inner : TACLType)
  | union (members : List TACLType)
  | literal (values : List Str)
  | custom (name : Str)

/-- The `kind` discriminant of a constructed type term. -/
def tyKind : TACLType → TypeKind
  | .string => .string
  | .int => .int
  | .bool => .bool
  | .float => .float
  | .null => .null
  | .object => .object
  | .list _ => .list
  | .dict _ _ => .dict
  | .optional _ => .optional
  | .union _ => .union
  | .literal _ => .literal
  | .custom _ => .custom

/-! ### The raw dataclass fields and `__post_init__` (claim C8) -/

/-- The raw field tuple passed to the `TACLType` dataclass constructor,
before `__post_init__` validates it: a kind plus the six optional payload
slots, each of which may be absent regardless of the kind. -/
inductive RawTACLType where
  | mk (kind : TypeKind)
       (inner_type : Option RawTACLType)
       (key_type : Option RawTACLType)
       (union_types : Option (List RawTACLType))
       (literal_values : Option (List Str))
       (custom_name : Option Str)

/-- The `kind` slot of a raw constructor record. -/
def RawTACLType.kind : RawTACLType → TypeKind
  | .mk k _ _ _ _ _ => k

/-- `TACLType.__post_init__`: validates the construction invariants,
raising `ParseError` (here: returning the error message) on violation. -/
def postInit : RawTACLType → Except Str Unit
  | .mk kind inner key uni lits cname =>
    if kind = TypeKind.optional && inner.isNone then
      .error ("Optional type must have inner_type".toList)
    else if kind = TypeKind.list && inner.isNone then
      .error ("List type must have inner_type".toList)
    else if kind = TypeKind.dict && (key.isNone || inner.isNone) then
      .error ("Dict type must have key_type and inner_type".toList)
    else if kind = TypeKind.union &&
        (match uni with | none => true | some l => l.length = 0) then
      .error ("Union type must have union_types".toList)
    else if kind = TypeKind.literal &&
        (match lits with | none => true | some l => l.length = 0) then
      .error ("Literal type must have literal_values".toList)
    else if kind = TypeKind.custom &&
        (match cname with | none => true | some n => n.length = 0) then
      .error ("Custom type must have custom_name".toList)
    else
      .ok ()

/-- The structural invariant stated by the specification: structural kinds
carry their required sub-terms, `Union`/`Literal` are non-empty, `Custom`
has a non-empty name. -/
def rawInvariant : RawTACLType → Prop
  | .mk kind inner key uni lits cname =>
    (kind = TypeKind.optional → inner.isSome) ∧
    (kind = TypeKind.list → inner.isSome) ∧
    (kind = TypeKind.dict → key.isSome ∧ inner.isSome) ∧
    (kind = TypeKind.union → ∃ l, uni = some l ∧ l ≠ []) ∧
    (kind = TypeKind.literal → ∃ l, lits = some l ∧ l ≠ []) ∧
    (kind = TypeKind.custom → ∃ n, cname = some n ∧ n ≠ [])

/-! ### The type-annotation grammar (`TACLParser.parse_type`) -/

/-- The quote- and escape-aware comma splitter used for `literal[...]`
bodies: accumulates characters, toggling `in_quotes` at `"` and skipping the
character after a backslash; a comma outside quotes ends the current token,
which is stripped and kept only if non-empty. -/
def splitLitVals : Str → Bool → Bool → Str → List Str
  | [], _, _, cur =>
    let v := pyStrip cur
    if v.length > 0 then [v] else []
  | ch :: rest, inQ, esc, cur =>
    if esc then splitLitVals rest inQ false (cur ++ [ch])
    else if ch = '\\' then splitLitVals rest inQ true (cur ++ [ch])
    else if ch = '"' then splitLitVals rest (!inQ) false (cur ++ [ch])
    else if ch = ',' && !inQ then
      let v := pyStrip cur
      if v.length > 0 then v :: splitLitVals rest inQ false []
      else splitLitVals rest inQ false []
    else splitLitVals rest inQ false (cur ++ [ch])

/-- Sequenced parsing of a list of sub-inputs, propagating fuel exhaustion
and the first error, as a Python `for` loop of fallible calls does. -/
def mapLoopE {α β : Type} (step : α → Option (Except Str β)) :
    List α → Option (Except Str (List β))
  | [] => some (.ok [])
  | x :: rest =>
    match step x with
    | none => none
    | some (.error e) => some (.error e)
    | some (.ok y) =>
      match mapLoopE step rest with
      | none => none
      | some (.error e) => some (.error e)
      | some (.ok ys) => some (.ok (y :: ys))

/-- `TACLParser.parse_type`, with fuel for its recursion on sub-strings.
Branches mirror the source order: `optional[`, `list[`, `dict[`, `literal[`,
`union[`, the six primitive names, then custom-identifier fallback. -/
def parseTypeF : Nat → Str → Option (Except Str TACLType)
  | 0, _ => none
  | Nat.succ fuel, s0 =>
    let s := pyStrip s0
    if s.length = 0 then some (.error ("Empty type annotation".toList))
    else if pyStartsWith ("optional[".toList) s && pyEndsWith ("]".toList) s then
      let inner := (s.drop 9).dropLast
      if inner.length = 0 then some (.error ("Optional type cannot be empty".toList))
      else
        match parseTypeF fuel inner with
        | none => none
        | some (.error e) => some (.error e)
        | some (.ok t) => some (.ok (.optional t))
    else if pyStartsWith ("list[".toList) s && pyEndsWith ("]".toList) s then
      let inner := (s.drop 5).dropLast
      if inner.length = 0 then some (.error ("List type cannot be empty".toList))
      else
        match parseTypeF fuel inner with
        | none => none
        | some (.error e) => some (.error e)
        | some (.ok t) => some (.ok (.list t))
    else if pyStartsWith ("dict[".toList) s && pyEndsWith ("]".toList) s then
      let di := (s.drop 5).dropLast
      if di.length = 0 then some (.error ("Dict type cannot be empty".toList))
      else if pyContains di ',' then
        match splitFirst ',' di with
        | none => some (.error ("Dict type must have exactly one comma".toList))
        | some (p1, p2) =>
          let ks := pyStrip p1
          let vs := pyStrip p2
          if ks.length = 0 || vs.length = 0 then
            some (.error ("Dict key and value types cannot be empty".toList))
          else
            match parseTypeF fuel ks with
            | none => none
            | some (.error e) => some (.error e)
            | some (.ok kt) =>
              match parseTypeF fuel vs with
              | none => none
              | some (.error e) => some (.error e)
              | some (.ok vt) => some (.ok (.dict kt vt))
      else
        match parseTypeF fuel (pyStrip di) with
        | none => none
        | some (.error e) => some (.error e)
        | some (.ok vt) => some (.ok (.dict .string vt))
    else if pyStartsWith ("literal[".toList) s && pyEndsWith ("]".toList) s then
      let li := (s.drop 8).dropLast
      if li.length = 0 then some (.error ("Literal type cannot be empty".toList))
      else
        let vals := splitLitVals li false false []
        if vals.length = 0 then
          some (.error ("Literal type must have at least one value".toList))
        else some (.ok (.literal vals))
    else if pyStartsWith ("union[".toList) s && pyEndsWith ("]".toList) s then
      let ui := (s.drop 6).dropLast
      if ui.length = 0 then some (.error ("Union type cannot be empty".toList))
      else
        let parts := splitChar ',' ui
        match mapLoopE (fun part =>
            let p := pyStrip part
            if p.length = 0 then some (.error ("Union type parts cannot be empty".toList))
            else parseTypeF fuel p) parts with
        | none => none
        | some (.error e) => some (.error e)
        | some (.ok ts) =>
          if ts.length = 0 then
            some (.error ("Union type must have at least one type".toList))
          else some (.ok (.union ts))
    else if s = ("string".toList) then some (.ok .string)
    else if s = ("int".toList) then some (.ok .int)
    else if s = ("bool".toList) then some (.ok .bool)
    else if s = ("float".toList) then some (.ok .float)
    else if s = ("null".toList) then some (.ok .null)
    else if s = ("object".toList) then some (.ok .object)
    else if !(pyIsIdentifier s) then
      some (.error ("Invalid custom type name: ".toList ++ s))
    else some (.ok (.custom s))

/-- `parse_type` entry point: the recursion always descends to strictly
shorter strings, so `length + 1` fuel never runs out. -/
def parse_type (s : Str) : Option (Except Str TACLType) :=
  parseTypeF (s.length + 1) s

/-! ### The value model (`TACLValue`) -/

/-- The dynamically-shaped value tree `TACLValue`: scalars, sequences and
(insertion-ordered) string-keyed mappings.  Python floats appear as exact
rationals and Python bools as a kind of their own (`isinstance(b, int)`
holds in Python; every place the source exploits or excludes that overlap
is modelled explicitly at its use site). -/
inductive Value where
  | str (s : Str)
  | int (n : Int)
  | float (q : Rat)
  | bool (b : Bool)
  | null
  | list (items : List Value)
  | dict (entries : List (Str × Value))

/-- A Python `dict[str, TACLValue]`. -/
abbrev PyDict := List (Str × Value)

/-- Python `type(value).__name__` for the value kinds in the model. -/
def pyTypeName : Value → Str
  | .str _ => "str".toList
  | .int _ => "int".toList
  | .float _ => "float".toList
  | .bool _ => "bool".toList
  | .null => "NoneType".toList
  | .list _ => "list".toList
  | .dict _ => "dict".toList

/-- Python `repr` of a float, simplified: exact for integral values
(`2.0` style); non-integral rationals are rendered as `num/den`, a
simplification of IEEE shortest-repr that no theorem below depends on. -/
def floatToStr (q : Rat) : Str :=
  if q.den = 1 then intToStr q.num ++ (".0".toList)
  else intToStr q.num ++ ('/' :: natToStr q.den)

/-- Python `repr(value)`: strings gain single quotes, containers render
their elements recursively.  Only used inside error-message text; no
theorem below constrains its output on containers. -/
def pyRepr : Value → Str
  | .str s => Char.ofNat 39 :: s ++ [Char.ofNat 39]
  | .int n => intToStr n
  | .float q => floatToStr q
  | .bool b => if b then "True".toList else "False".toList
  | .null => "None".toList
  | .list items =>
    '[' :: joinSep (", ".toList) (items.attach.map (fun x => pyRepr x.1)) ++ ("]".toList)
  | .dict entries =>
    '{' :: joinSep (", ".toList)
      (entries.attach.map (fun e =>
        (Char.ofNat 39 :: e.1.1 ++ [Char.ofNat 39]) ++ (": ".toList) ++ pyRepr e.1.2))
      ++ ("\x7d".toList)
termination_by v => sizeOf v
decreasing_by
  · have h := List.sizeOf_lt_of_mem x.2
    simp only [Value.list.sizeOf_spec]
    omega
  · obtain ⟨⟨k, w⟩, hm⟩ := e
    have h := List.sizeOf_lt_of_mem hm
    simp only [Prod.mk.sizeOf_spec] at h
    simp only [Value.dict.sizeOf_spec]
    omega

/-- Python `str(value)`: like `repr` except that a top-level string is
rendered without quotes.  Container rendering is only ever used inside
error-message text. -/
def pyStr : Value → Str
  | .str s => s
  | v => pyRepr v

/-- Numeric value of a Python number for `==` comparisons: ints, floats and
bools all compare by mathematical value in Python. -/
def numVal : Value → Rat
  | .int n => mkRat n 1
  | .float q => q
  | .bool b => if b then mkRat 1 1 else mkRat 0 1
  | _ => mkRat 0 1

/-! ### The validator (`TACLParser.validate_value`) -/

/-- A user-declared record type from an `@type` block. -/
structure TypeDefinition where
  name : Str
  fields : List (Str × TACLType)
  line_number : Nat

/-- The parser-instance custom-type registry `self.custom_types`. -/
abbrev CustomTypes := List (Str × TypeDefinition)

/-- Error text for a simple kind mismatch. -/
def expMsg (path what : Str) (v : Value) : Str :=
  path ++ (": expected ".toList) ++ what ++ (", got ".toList) ++ pyTypeName v

/-- Error text for a `null` mismatch (the source interpolates the value). -/
def nullMsg (path : Str) (v : Value) : Str :=
  path ++ (": expected null, got ".toList) ++ pyStr v

/-- Error text for a failed literal match. -/
def litMsg (path : Str) (v : Value) (toks : List Str) : Str :=
  path ++ (": value '".toList) ++ pyStr v ++ ("' not in allowed values: ".toList) ++
    joinSep (", ".toList) toks

/-- The display name of a union member: `custom_name or "unknown"` for a
custom member, the kind's `value` string otherwise. -/
def unionMemberName : TACLType → Str
  | .custom n => if n.length = 0 then "unknown".toList else n
  | t => kindValue (tyKind t)

/-- Error text for an exhausted union. -/
def unionMsg (path : Str) (ms : List TACLType) : Str :=
  path ++ (": value does not match any union type: ".toList) ++
    joinSep (" | ".toList) (ms.map unionMemberName)

/-- Error text for a non-mapping value against a custom type. -/
def objMsg (path name : Str) : Str :=
  path ++ (": expected object for type ".toList) ++ name

/-- Error text for a missing required record field. -/
def missingMsg (path fn name : Str) : Str :=
  path ++ (": missing required field '".toList) ++ fn ++ ("' for type ".toList) ++ name

/-- Error text for an undeclared record field. -/
def unexpectedMsg (path fn name : Str) : Str :=
  path ++ (": unexpected field '".toList) ++ fn ++ ("' for type ".toList) ++ name

/-- One literal token match, from the literal branch of `validate_value`:
a token quoted on both ends matches only an equal string (sans quotes);
otherwise a token containing `.` is parsed as a float and compared
numerically against any int/float/bool value (`isinstance(value, (int,
float))` admits bools); otherwise the token is parsed as an int and
compared against non-bool int values; unparsable tokens match nothing. -/
def litTok (v : Value) (tok : Str) : Bool :=
  if pyStartsWith ("\"".toList) tok && pyEndsWith ("\"".toList) tok then
    match v with
    | .str s => s = (tok.drop 1).dropLast
    | _ => false
  else if pyContains tok '.' then
    match pyParseFloat tok with
    | none => false
    | some q =>
      match v with
      | .int _ => numVal v = q
      | .float _ => numVal v = q
      | .bool _ => numVal v = q
      | _ => false
  else
    match pyParseInt tok with
    | none => false
    | some n =>
      match v with
      | .int m => m = n
      | _ => false

/-- The `matched` flag after the literal-token loop. -/
def litAny (v : Value) (toks : List Str) : Bool :=
  toks.any (litTok v)

/-- The extra-field pass of the custom-type branch: every key of the value
must be a declared field of the type definition. -/
def checkExtra (tdfields : List (Str × TACLType)) (path name : Str) :
    List (Str × Value) → Except Str Unit
  | [] => .ok ()
  | (k, _) :: rest =>
    if (lookupA tdfields k).isSome then checkExtra tdfields path name rest
    else .error (unexpectedMsg path k name)

/-- A Python `for` loop of fallible steps: stops at the first error,
propagating fuel exhaustion. -/
def seqLoop {α : Type} (step : α → Option (Except Str Unit)) :
    List α → Option (Except Str Unit)
  | [] => some (.ok ())
  | x :: rest =>
    match step x with
    | none => none
    | some (.error e) => some (.error e)
    | some (.ok _) => seqLoop step rest

/-- The union-member loop: first step that succeeds wins (`true`); errors
are swallowed and the loop continues (`false` when all members fail). -/
def anyLoop {α : Type} (step : α → Option (Except Str Unit)) :
    List α → Option Bool
  | [] => some false
  | x :: rest =>
    match step x with
    | none => none
    | some (.ok _) => some true
    | some (.error _) => anyLoop step rest

/-- `TACLParser.validate_value`, with fuel for its recursion (Python's
recursion terminates because each recursive call shrinks the value or, at
equal value, the type term; `none` models only fuel exhaustion).  Each
branch mirrors the source: `optional` passes `None` and otherwise defers to
the inner term; the scalar kinds check the exact value kind, with bools
excluded from `int` and int-or-float (but never bool) accepted for
`float`; `list`/`dict` check the shape then recurse elementwise; `literal`
consults the token loop; `union` accepts at the first member that
validates; `object` accepts anything; `custom` requires a mapping, then —
only when the name is registered — checks declared fields (an absent field
is allowed only if its term is `optional`) and rejects undeclared keys. -/
def validate_value (ct : CustomTypes) : Nat → Value → TACLType → Str →
    Option (Except Str Unit)
  | 0, _, _, _ => none
  | Nat.succ fuel, value, t, path =>
    match t with
    | .optional inner =>
      match value with
      | .null => some (.ok ())
      | v => validate_value ct fuel v inner path
    | .string =>
      match value with
      | .str _ => some (.ok ())
      | v => some (.error (expMsg path ("string".toList) v))
    | .int =>
      match value with
      | .int _ => some (.ok ())
      | v => some (.error (expMsg path ("int".toList) v))
    | .bool =>
      match value with
      | .bool _ => some (.ok ())
      | v => some (.error (expMsg path ("bool".toList) v))
    | .float =>
      match value with
      | .int _ => some (.ok ())
      | .float _ => some (.ok ())
      | v => some (.error (expMsg path ("float".toList) v))
    | .null =>
      match value with
      | .null => some (.ok ())
      | v => some (.error (nullMsg path v))
    | .list inner =>
      match value with
      | .list items =>
        seqLoop (fun ii =>
          validate_value ct fuel ii.2 inner (path ++ '[' :: natToStr ii.1 ++ ("]".toList)))
          items.enum
      | v => some (.error (expMsg path ("list".toList) v))
    | .dict kt vt =>
      match value with
      | .dict entries =>
        seqLoop (fun kv =>
          match validate_value ct fuel (.str kv.1) kt (path ++ (".key".toList)) with
          | none => none
          | some (.error e) => some (.error e)
          | some (.ok _) =>
            validate_value ct fuel kv.2 vt (path ++ '[' :: kv.1 ++ ("]".toList)))
          entries
      | v => some (.error (expMsg path ("dict".toList) v))
    | .literal toks =>
      if litAny value toks then some (.ok ())
      else some (.error (litMsg path value toks))
    | .union ms =>
      match anyLoop (fun m => validate_value ct fuel value m path) ms with
      | none => none
      | some true => some (.ok ())
      | some false => some (.error (unionMsg path ms))
    | .object => some (.ok ())
    | .custom name =>
      match value with
      | .dict entries =>
        match lookupA ct name with
        | some td =>
          match seqLoop (fun ff =>
              match lookupA entries ff.1 with
              | none =>
                match ff.2 with
                | .optional _ => some (.ok ())
                | _ => some (.error (missingMsg path ff.1 name))
              | some fv => validate_value ct fuel fv ff.2 (path ++ '.' :: ff.1))
              td.fields with
          | none => none
          | some (.error e) => some (.error e)
          | some (.ok _) => some (checkExtra td.fields path name entries)
        | none => some (.ok ())
      | _ => some (.error (objMsg path name))

/-- The per-element step of the list branch of `validate_value`, named for
use in proofs (definitionally equal to the inlined loop body). -/
def listStep (ct : CustomTypes) (fuel : Nat) (inner : TACLType) (path : Str) :
    (Nat × Value) → Option (Except Str Unit) :=
  fun ii => validate_value ct fuel ii.2 inner (path ++ '[' :: natToStr ii.1 ++ ("]".toList))

/-- The per-entry step of the dict branch of `validate_value`. -/
def dictStep (ct : CustomTypes) (fuel : Nat) (kt vt : TACLType) (path : Str) :
    (Str × Value) → Option (Except Str Unit) :=
  fun kv =>
    match validate_value ct fuel (.str kv.1) kt (path ++ (".key".toList)) with
    | none => none
    | some (.error e) => some (.error e)
    | some (.ok _) => validate_value ct fuel kv.2 vt (path ++ '[' :: kv.1 ++ ("]".toList))

/-- The per-declared-field step of the custom branch of `validate_value`. -/
def customStep (ct : CustomTypes) (fuel : Nat) (entries : PyDict) (path name : Str) :
    (Str × TACLType) → Option (Except Str Unit) :=
  fun ff =>
    match lookupA entries ff.1 with
    | none =>
      match ff.2 with
      | .optional _ => some (.ok ())
      | _ => some (.error (missingMsg path ff.1 name))
    | some fv => validate_value ct fuel fv ff.2 (path ++ '.' :: ff.1)

/-! ### The reference resolver (`resolve_reference`,
`resolve_references_in_value`) -/

/-- Error text for a circular reference. -/
def circMsg (p : Str) : Str :=
  "Circular reference detected: ".toList ++ p

/-- Error text for a missing array in a reference path. -/
def arrMissingMsg (name refPath : Str) : Str :=
  "Array '".toList ++ name ++ ("' not found in reference path: ".toList) ++ refPath

/-- Error text for indexing a non-array. -/
def notArrayMsg (name refPath : Str) : Str :=
  Char.ofNat 39 :: name ++ (Char.ofNat 39 :: (" is not an array in reference: ".toList)) ++ refPath

/-- Error text for an out-of-bounds array index. -/
def oobMsg (index : Int) (refPath : Str) : Str :=
  "Array index ".toList ++ intToStr index ++ (" out of bounds in: ".toList) ++ refPath

/-- Error text for a missing property in a reference path. -/
def propMissingMsg (part refPath : Str) : Str :=
  "Property '".toList ++ part ++ ("' not found in reference path: ".toList) ++ refPath

/-- Error text for an unparsable array index. -/
def badIndexMsg (part : Str) : Str :=
  "Invalid array index in reference: ".toList ++ part

/-- The segment walk of `resolve_reference`: for each dot-separated part,
a part containing `[` and ending in `]` is split at its first `[` into an
array name and an index (the text up to the final `]` must parse as an
int), looked up in the current mapping and indexed as a sequence with
bounds checking; any other part is a plain mapping lookup. -/
def resolveRefSegs (refPath : Str) : List Str → Value → Except Str Value
  | [], cur => .ok cur
  | part :: rest, cur =>
    if pyContains part '[' && pyEndsWith ("]".toList) part then
      let arrayName := part.takeWhile (fun c => c ≠ '[')
      let indexStr := (part.drop (arrayName.length + 1)).dropLast
      match pyParseInt indexStr with
      | none => .error (badIndexMsg part)
      | some index =>
        match cur with
        | .dict entries =>
          match lookupA entries arrayName with
          | none => .error (arrMissingMsg arrayName refPath)
          | some arrayValue =>
            match arrayValue with
            | .list items =>
              if index < 0 then .error (oobMsg index refPath)
              else
                match items.get? index.toNat with
                | none => .error (oobMsg index refPath)
                | some nxt => resolveRefSegs refPath rest nxt
            | _ => .error (notArrayMsg arrayName refPath)
        | _ => .error (arrMissingMsg arrayName refPath)
    else
      match cur with
      | .dict entries =>
        match lookupA entries part with
        | some nxt => resolveRefSegs refPath rest nxt
        | none => .error (propMissingMsg part refPath)
      | _ => .error (propMissingMsg part refPath)

/-- `TACLParser.resolve_reference`: split the path at dots and walk the
segments, starting from the whole field table. -/
def resolve_reference (refPath : Str) (data : PyDict) : Except Str Value :=
  resolveRefSegs refPath (splitChar '.' refPath) (.dict data)

/-- Adding a path to the `visiting` set (`set.add`): membership-only
semantics over a duplicate-free list. -/
def addVis (vis : List Str) (p : Str) : List Str :=
  if vis.contains p then vis else vis ++ [p]

/-- Removing a path from the `visiting` set (`set.remove` / `set.discard`). -/
def removeVis (vis : List Str) (p : Str) : List Str :=
  vis.filter (fun q => q ≠ p)

/-- The maximal `\w*` run at the front of a string, with the rest. -/
def takeWordChars : Str → Str × Str
  | [] => ([], [])
  | c :: rest =>
    if isWordCh c then
      let (a, b) := takeWordChars rest
      (c :: a, b)
    else ([], c :: rest)

/-- The `(?:\.[A-Za-z_]\w*)*` groups of the embedded-reference pattern:
greedily consume `.ident` repetitions.  Fueled; the wrappers pass the
remaining length, which the consumption of at least two characters per
round never exhausts. -/
def dotGroupsF : Nat → Str → Str × Str
  | 0, s => ([], s)
  | Nat.succ fuel, s =>
    match s with
    | '.' :: c :: rest =>
      if isIdentStart c then
        let (w, r1) := takeWordChars rest
        let (ds, r2) := dotGroupsF fuel r1
        ('.' :: c :: w ++ ds, r2)
      else ([], s)
    | _ => ([], s)

/-- The `(?:\[\d+\])*` groups of the embedded-reference pattern: greedily
consume `[digits]` repetitions. -/
def idxGroupsF : Nat → Str → Str × Str
  | 0, s => ([], s)
  | Nat.succ fuel, s =>
    match s with
    | '[' :: rest =>
      let ds := rest.takeWhile isDigitCh
      let r1 := rest.dropWhile isDigitCh
      if ds.length = 0 then ([], s)
      else
        match r1 with
        | ']' :: r2 =>
          let (more, r3) := idxGroupsF fuel r2
          ('[' :: ds ++ ']' :: more, r3)
        | _ => ([], s)
    | _ => ([], s)

/-- The embedded-reference regex
`&([a-zA-Z_][a-zA-Z0-9_]*(?:\.[a-zA-Z_][a-zA-Z0-9_]*)*(?:\[\d+\])*)`,
matched greedily right after a `&`: returns the captured path and the rest
of the string, or `none` when the next character cannot start a path. -/
def refMatch (s : Str) : Option (Str × Str) :=
  match s with
  | [] => none
  | c :: rest =>
    if isIdentStart c then
      let (w, r1) := takeWordChars rest
      let (ds, r2) := dotGroupsF (r1.length + 1) r1
      let (ix, r3) := idxGroupsF (r2.length + 1) r2
      some (c :: w ++ ds ++ ix, r3)
    else none

/-- The `re.sub` pass of embedded-reference substitution, with the
`replace_ref` callback inlined: scan the string left to right; at each
match of the reference pattern, fail on a path already being visited
(leaving the set unchanged), otherwise add the path, resolve it
(non-recursively), and remove the path again — on the resolution-error
path via the `except` handler's `discard`, on the normal path via
`remove`.  Non-string resolved values are stringified.  Errors carry the
final visiting-set state, modelling the mutable set. -/
def embSub (data : PyDict) : Nat → Str → List Str →
    Option (Except (Str × List Str) (Str × List Str))
  | 0, _, _ => none
  | Nat.succ fuel, s, vis =>
    match s with
    | [] => some (.ok ([], vis))
    | c :: rest =>
      if c = '&' then
        match refMatch rest with
        | some (path, rest2) =>
          if vis.contains path then some (.error (circMsg path, vis))
          else
            let vis1 := addVis vis path
            match resolve_reference path data with
            | .error m => some (.error (m, removeVis vis1 path))
            | .ok rv =>
              let txt := pyStr rv
              let vis2 := removeVis vis1 path
              match embSub data fuel rest2 vis2 with
              | none => none
              | some (.error e) => some (.error e)
              | some (.ok (out, vis3)) => some (.ok (txt ++ out, vis3))
        | none =>
          match embSub data fuel rest vis with
          | none => none
          | some (.error e) => some (.error e)
          | some (.ok (out, vis3)) => some (.ok ('&' :: out, vis3))
      else
        match embSub data fuel rest vis with
        | none => none
        | some (.error e) => some (.error e)
        | some (.ok (out, vis3)) => some (.ok (c :: out, vis3))

/-- `TACLParser.resolve_references_in_value`, with the mutable `visiting`
set threaded explicitly (errors carry its state at the moment the
exception propagates).  Mappings and sequences resolve elementwise (the
recursive call on the dict/list tail always returns the same shape; the
final fallback arms are unreachable).  A string equal to `&path` is a
whole-value reference: a path already being visited is a circular-reference
error; otherwise the path is added, resolved against the table, the result
recursively resolved, and the path removed only on the normal return.
Other strings containing `&` go through embedded substitution; remaining
scalars pass through. -/
def resolveRefsF (data : PyDict) : Nat → Value → List Str →
    Option (Except (Str × List Str) (Value × List Str))
  | 0, _, _ => none
  | Nat.succ fuel, v, vis =>
    match v with
    | .dict [] => some (.ok (.dict [], vis))
    | .dict ((k, val) :: rest) =>
      match resolveRefsF data fuel val vis with
      | none => none
      | some (.error e) => some (.error e)
      | some (.ok (rv, vis1)) =>
        match resolveRefsF data fuel (.dict rest) vis1 with
        | none => none
        | some (.error e) => some (.error e)
        | some (.ok (.dict restEntries, vis2)) =>
          some (.ok (.dict ((k, rv) :: restEntries), vis2))
        | some (.ok (_, vis2)) => some (.ok (.dict [(k, rv)], vis2))
    | .list [] => some (.ok (.list [], vis))
    | .list (x :: rest) =>
      match resolveRefsF data fuel x vis with
      | none => none
      | some (.error e) => some (.error e)
      | some (.ok (rx, vis1)) =>
        match resolveRefsF data fuel (.list rest) vis1 with
        | none => none
        | some (.error e) => some (.error e)
        | some (.ok (.list restItems, vis2)) =>
          some (.ok (.list (rx :: restItems), vis2))
        | some (.ok (_, vis2)) => some (.ok (.list [rx], vis2))
    | .str s =>
      if pyStartsWith ("&".toList) s then
        let refPath := s.drop 1
        if vis.contains refPath then some (.error (circMsg refPath, vis))
        else
          let vis1 := addVis vis refPath
          match resolve_reference refPath data with
          | .error m => some (.error (m, vis1))
          | .ok rv =>
            match resolveRefsF data fuel rv vis1 with
            | none => none
            | some (.error e) => some (.error e)
            | some (.ok (res, vis2)) => some (.ok (res, removeVis vis2 refPath))
      else if pyContains s '&' then
        match embSub data fuel s vis with
        | none => none
        | some (.error e) => some (.error e)
        | some (.ok (out, vis2)) => some (.ok (.str out, vis2))
      else some (.ok (.str s, vis))
    | other => some (.ok (other, vis))

/-- `resolve_references_in_value` entry point (fresh `visiting` set, as the
`None` default produces). -/
def resolve_references_in_value (data : PyDict) (fuel : Nat) (v : Value) :
    Option (Except (Str × List Str) (Value × List Str)) :=
  resolveRefsF data fuel v []

/-! ### The structural scanner and driver (`parse_tacl_content`) -/

/-- Python `str.rstrip()`. -/
def pyRstrip (s : Str) : Str :=
  (s.reverse.dropWhile pyIsSpace).reverse

/-- `len(line) - len(line.lstrip())`: the indentation of a line. -/
def indentOf (l : Str) : Nat :=
  l.length - (l.dropWhile pyIsSpace).length

/-- A parsed field: key, type term, raw-then-resolved value, source line.
(`ty` embeds the source's `type_annotation` slot.) -/
structure TACLField where
  key : Str
  ty : TACLType
  value : Value
  line_number : Nat

/-- The error kinds surfaced by `parse_tacl_content`: `ParseError`,
`ValidationError` and `TACLReferenceError`, each carrying its message. -/
inductive TACLError where
  | parse (m : Str)
  | validation (m : Str)
  | ref (m : Str)

/-- The `Line {n}: {err}` wrapping applied by the second pass. -/
def lineWrap (n : Nat) (m : Str) : Str :=
  "Line ".toList ++ natToStr n ++ (": ".toList) ++ m

/-- The `@type` header regex `^@type\s+([a-zA-Z_][a-zA-Z0-9_]*):\s*$`,
applied to the stripped line: returns the captured name. -/
def matchTypeDef (s : Str) : Option Str :=
  if pyStartsWith ("@type".toList) s then
    let r1 := s.drop 5
    let sp := r1.takeWhile pyIsSpace
    let r2 := r1.dropWhile pyIsSpace
    if sp.length = 0 then none
    else
      match r2 with
      | [] => none
      | c :: rest =>
        if isIdentStart c then
          let (w, r3) := takeWordChars rest
          match r3 with
          | ':' :: r4 => if r4.all pyIsSpace then some (c :: w) else none
          | _ => none
        else none
  else none

/-- The field-header regex `^([^;]+);\s*([^:]+):\s*(.*)$`, applied to the
stripped line: the key is everything before the first `;`; after the `;`,
leading whitespace then a non-empty colon-free run form the type (when the
run before the first `:` is all whitespace the greedy `\s*` backtracks one
character); the value is the rest with leading whitespace dropped. -/
def matchTypePat (s : Str) : Option (Str × Str × Str) :=
  match splitFirst ';' s with
  | none => none
  | some (key, rest) =>
    if key.length = 0 then none
    else
      match splitFirst ':' rest with
      | none => none
      | some (pre, post) =>
        if pre.length = 0 then none
        else
          let grp2 := pre.dropWhile pyIsSpace
          let g2 := if grp2.length = 0 then pre.drop (pre.length - 1) else grp2
          some (key, g2, post.dropWhile pyIsSpace)

/-- Splitting a flow collection body at top-level commas: bracket depth and
double quotes protect separators. -/
def splitTopLevel : Str → Nat → Bool → Str → List Str
  | [], _, _, cur => [cur]
  | c :: rest, depth, inq, cur =>
    if inq then
      if c = '"' then splitTopLevel rest depth false (cur ++ [c])
      else splitTopLevel rest depth inq (cur ++ [c])
    else if c = '"' then splitTopLevel rest depth true (cur ++ [c])
    else if c = '[' || c = '{' then splitTopLevel rest (depth + 1) inq (cur ++ [c])
    else if c = ']' || c = '}' then splitTopLevel rest (depth - 1) inq (cur ++ [c])
    else if c = ',' && depth = 0 then cur :: splitTopLevel rest depth inq []
    else splitTopLevel rest depth inq (cur ++ [c])

/-- Trailing newlines removed, for block-scalar chomping. -/
def dropTrailingNewlines (s : Str) : Str :=
  (s.reverse.dropWhile (fun c => c = '\n')).reverse

/-- Modelled from the spec: the external value-literal adapter
(`yaml.safe_load`), which is out of scope for the repository.  The spec's
contract: parse plain scalars (`null`, booleans, ints, floats), quoted
strings, inline `[...]`/`{...}` flow collections, and `|`/`>` block
scalars with chomping variants.  Folding and chomping are modelled in
simplified form (fold joins lines with spaces; clip leaves one trailing
newline, `-` none, `+` all); no theorem below depends on block-scalar
output.  Unrecognised scalars load as plain strings, as YAML does. -/
def yamlLoadF : Nat → Str → Except Str Value
  | 0, _ => .error ("value-literal fuel exhausted".toList)
  | Nat.succ fuel, s0 =>
    let lns := splitChar '\n' s0
    let first := pyStrip (lns.headD [])
    if lns.length > 1 &&
        (first = ("|".toList) || first = ("|-".toList) || first = ("|+".toList) ||
         first = (">".toList) || first = (">-".toList) || first = (">+".toList)) then
      let body := lns.drop 1
      let nonblank := body.filter (fun l => (pyStrip l).length > 0)
      let minIndent := (nonblank.map indentOf).foldl Nat.min (s0.length + 1)
      let content := body.map (fun l => l.drop minIndent)
      let text :=
        if first.headD ' ' = '|' then joinSep ("\n".toList) content
        else joinSep (" ".toList) (content.map pyRstrip)
      let chomped :=
        if first = ("|".toList) || first = (">".toList) then
          dropTrailingNewlines text ++ ("\n".toList)
        else if first = ("|-".toList) || first = (">-".toList) then
          dropTrailingNewlines text
        else text ++ ("\n".toList)
      .ok (.str chomped)
    else
      let s := pyStrip s0
      if s.length = 0 then .ok .null
      else if s = ("null".toList) || s = ("~".toList) || s = ("Null".toList) ||
          s = ("NULL".toList) then .ok .null
      else if s = ("true".toList) || s = ("True".toList) then .ok (.bool true)
      else if s = ("false".toList) || s = ("False".toList) then .ok (.bool false)
      else
        match pyParseInt s with
        | some n => .ok (.int n)
        | none =>
          if (pyContains s '.' || pyContains s 'e' || pyContains s 'E') &&
              (pyParseFloat s).isSome then
            .ok (.float ((pyParseFloat s).getD 0))
          else if s.length ≥ 2 && pyStartsWith ("\"".toList) s && pyEndsWith ("\"".toList) s then
            .ok (.str ((s.drop 1).dropLast))
          else if s.length ≥ 2 && pyStartsWith ([Char.ofNat 39]) s && pyEndsWith ([Char.ofNat 39]) s then
            .ok (.str ((s.drop 1).dropLast))
          else if pyStartsWith ("[".toList) s && pyEndsWith ("]".toList) s then
            let inner := pyStrip ((s.drop 1).dropLast)
            if inner.length = 0 then .ok (.list [])
            else
              let pieces := (splitTopLevel inner 0 false []).map pyStrip
              match mapLoopE (fun p => some (yamlLoadF fuel p)) (pieces.filter (fun p => p.length > 0)) with
              | none => .error ("value-literal fuel exhausted".toList)
              | some (.error e) => .error e
              | some (.ok items) => .ok (.list items)
          else if pyStartsWith ("\x7b".toList) s && pyEndsWith ("\x7d".toList) s then
            let inner := pyStrip ((s.drop 1).dropLast)
            if inner.length = 0 then .ok (.dict [])
            else
              let pieces := (splitTopLevel inner 0 false []).map pyStrip
              match mapLoopE (fun p =>
                  match splitFirst ':' p with
                  | none => some (.error ("invalid flow mapping entry".toList))
                  | some (k0, v0) =>
                    let k1 := pyStrip k0
                    let k2 :=
                      if k1.length ≥ 2 && pyStartsWith ("\"".toList) k1 && pyEndsWith ("\"".toList) k1 then
                        (k1.drop 1).dropLast
                      else k1
                    match yamlLoadF fuel (pyStrip v0) with
                    | .error e => some (.error e)
                    | .ok v => some (.ok (k2, v)))
                  (pieces.filter (fun p => p.length > 0)) with
              | none => .error ("value-literal fuel exhausted".toList)
              | some (.error e) => .error e
              | some (.ok kvs) => .ok (.dict (kvs.foldl (fun d kv => setKey d kv.1 kv.2) []))
          else .ok (.str s)

/-- The value-literal adapter entry point; recursion descends to strictly
shorter strings, so this fuel never runs out. -/
def safeLoad (s : Str) : Except Str Value :=
  yamlLoadF (s.length + 1) s

/-- The indentation of the first non-blank line, if any: the base
indentation search of `parse_multiline_block`. -/
def mbFindBase : List Str → Option Nat
  | [] => none
  | l :: rest => if (pyStrip l).length > 0 then some (indentOf l) else mbFindBase rest

/-- The collection loop of `parse_multiline_block`: blank lines are always
included; other lines are included while indented at least `base`; the
first line below `base` ends the block unconsumed.  Returns the collected
lines and how many lines were consumed. -/
def mbCollect (base : Nat) : List Str → List Str × Nat
  | [] => ([], 0)
  | l :: rest =>
    if (pyStrip l).length = 0 then
      let (a, n) := mbCollect base rest
      (l :: a, n + 1)
    else if base ≤ indentOf l then
      let (a, n) := mbCollect base rest
      (l :: a, n + 1)
    else ([], 0)

/-- `TACLParser.parse_multiline_block`: returns the assembled block-scalar
text (marker line's indicator plus body) and the index of the last consumed
line. -/
def parse_multiline_block (lines : List Str) (startLine : Nat) : Str × Nat :=
  match lines.get? startLine with
  | none => ([], startLine)
  | some l0 =>
    let firstLine := pyRstrip l0
    if !(pyEndsWith ("|".toList) firstLine || pyEndsWith (">".toList) firstLine ||
         pyEndsWith ("|-".toList) firstLine || pyEndsWith (">-".toList) firstLine ||
         pyEndsWith ("|+".toList) firstLine || pyEndsWith (">+".toList) firstLine) then
      (firstLine, startLine)
    else
      let indicator := pyStrip ((splitChar ':' firstLine).getLastD [])
      match mbFindBase (lines.drop (startLine + 1)) with
      | none => (firstLine, startLine)
      | some base =>
        let (collected, n) := mbCollect base (lines.drop (startLine + 1))
        (joinSep ("\n".toList) (indicator :: collected), startLine + n)

/-- The item loop of `_parse_value_with_references` for `[...]` bodies:
items are split by bare commas; `&`-prefixed items stay as reference
strings, the rest go to the value-literal adapter. -/
def pvwrItems (lineNum : Nat) : List Str → Except Str (List Value)
  | [] => .ok []
  | it :: rest =>
    let item := pyStrip it
    if pyStartsWith ("&".toList) item then
      match pvwrItems lineNum rest with
      | .error e => .error e
      | .ok vs => .ok (.str item :: vs)
    else
      match safeLoad item with
      | .error e =>
        .error ("Invalid item in list on line ".toList ++ natToStr lineNum ++ (": ".toList) ++ e)
      | .ok v =>
        match pvwrItems lineNum rest with
        | .error e => .error e
        | .ok vs => .ok (v :: vs)

/-- `TACLParser._parse_value_with_references`: reference-aware parsing of
an inline value containing `&` — a bracketed list keeps `&`-items as
strings; a braced object falls back to the adapter; anything else
(single reference or string with embedded references) is kept as the raw
string for later resolution. -/
def parse_value_with_references (valueStr : Str) (lineNum : Nat) : Except Str Value :=
  let v := pyStrip valueStr
  if pyStartsWith ("[".toList) v && pyEndsWith ("]".toList) v then
    let listContent := pyStrip ((v.drop 1).dropLast)
    if listContent.length = 0 then .ok (.list [])
    else
      match pvwrItems lineNum (splitChar ',' listContent) with
      | .error e => .error e
      | .ok items => .ok (.list items)
  else if pyStartsWith ("\x7b".toList) v && pyEndsWith ("\x7d".toList) v then
    match safeLoad v with
    | .error e =>
      .error ("Invalid object value on line ".toList ++ natToStr lineNum ++ (": ".toList) ++ e)
    | .ok val => .ok val
  else .ok (.str v)

/-- The collection loop of `_parse_multiline_array`: skips blanks and
comments, stops at the first line containing `]` (keeping any content
before the bracket), and reports how far the scan advanced. -/
def pmaCollect : List Str → List Str × Nat
  | [] => ([], 0)
  | l :: rest =>
    let s := pyStrip l
    if s.length = 0 || pyStartsWith ("#".toList) s then
      let (a, n) := pmaCollect rest
      (a, n + 1)
    else if pyContains s ']' then
      let before := pyStrip (s.takeWhile (fun c => c ≠ ']'))
      (if before.length > 0 then [before] else [], 0)
    else
      let (a, n) := pmaCollect rest
      (s :: a, n + 1)

/-- The item loop of `_parse_multiline_array`: each collected line loses a
trailing comma, then parses as a flow object, a reference string, or an
adapter literal. -/
def pmaItems (startIndex count : Nat) : List Str → Except Str (List Value)
  | [] => .ok []
  | l0 :: rest =>
    let l1 := pyStrip l0
    let line := if pyEndsWith (",".toList) l1 then pyStrip l1.dropLast else l1
    if pyStartsWith ("\x7b".toList) line && pyEndsWith ("\x7d".toList) line then
      match safeLoad line with
      | .error e =>
        .error ("Invalid array item on line ".toList ++ natToStr (startIndex + count + 1) ++
          (": ".toList) ++ e)
      | .ok v =>
        match pmaItems startIndex (count + 1) rest with
        | .error e => .error e
        | .ok vs => .ok (v :: vs)
    else if pyStartsWith ("&".toList) line then
      match pmaItems startIndex (count + 1) rest with
      | .error e => .error e
      | .ok vs => .ok (.str line :: vs)
    else if line.length > 0 then
      match safeLoad line with
      | .error e =>
        .error ("Invalid array item on line ".toList ++ natToStr (startIndex + count + 1) ++
          (": ".toList) ++ e)
      | .ok v =>
        match pmaItems startIndex (count + 1) rest with
        | .error e => .error e
        | .ok vs => .ok (v :: vs)
    else pmaItems startIndex count rest

/-- `TACLParser._parse_multiline_array`: collect lines up to the closing
`]`, parse each collected line as one item, and return the items plus the
index just past the bracket line. -/
def parse_multiline_array (lines : List Str) (startIndex : Nat) :
    Except Str (List Value × Nat) :=
  let (content, n) := pmaCollect (lines.drop startIndex)
  match pmaItems startIndex 0 content with
  | .error e => .error e
  | .ok items => .ok (items, startIndex + n + 1)

/-- The value of a finished block: a mapping for object mode, a sequence
for list mode. -/
def blockValue (isList : Bool) (accO : PyDict) (accL : List Value) : Value :=
  if isList then .list accL else .dict accO

/-- `TACLParser.parse_object_block` and `TACLParser.parse_yaml_list`
(mutually recursive in the source), combined into one fueled function
selected by `isList`.  Loop-carried state: the current line index, the
block's base indentation once established, and the accumulated mapping or
sequence.  Blank/comment lines are skipped; the base indentation comes from
the first content line (object mode demands two spaces or a tab, list mode
a dash); a line indented below base ends the block unconsumed.  Object
mode parses `key; type: value` and bare `key: value` field lines (with
empty values recursing into a nested block chosen by a dash lookahead,
`&` values kept raw, a lone `[` starting a multiline array, `&`-containing
values going through reference-aware parsing, and everything else to the
adapter); list mode parses `-` items with the same nested-block recursion,
raw `&` items, block-scalar items re-parsed through a synthetic `temp:`
header, and adapter literals. -/
def parse_block : Nat → Bool → List Str → Nat → Option Nat → PyDict → List Value →
    Option (Except Str (Value × Nat))
  | 0, _, _, _, _, _, _ => none
  | Nat.succ fuel, isList, lines, cur, base, accO, accL =>
    match lines.get? cur with
    | none => some (.ok (blockValue isList accO accL, cur))
    | some line =>
      let st := pyStrip line
      if st.length = 0 || pyStartsWith ("#".toList) st then
        parse_block fuel isList lines (cur + 1) base accO accL
      else
        let baseNow : Option Nat :=
          match base with
          | some b => some b
          | none =>
            if isList then
              if pyStartsWith ("-".toList) (line.dropWhile pyIsSpace) then some (indentOf line)
              else none
            else
              if pyStartsWith ("  ".toList) line || pyStartsWith ("\t".toList) line then
                some (indentOf line)
              else none
        match baseNow with
        | none => some (.ok (blockValue isList accO accL, cur))
        | some b =>
          if indentOf line < b then some (.ok (blockValue isList accO accL, cur))
          else if isList then
            if pyStartsWith ("-".toList) st then
              let itemStr := pyStrip (st.drop 1)
              if itemStr.length = 0 then
                let nested :=
                  match lines.get? (cur + 1) with
                  | some nl => pyStartsWith ("-".toList) (pyStrip nl)
                  | none => false
                match parse_block fuel nested lines (cur + 1) none [] [] with
                | none => none
                | some (.error e) => some (.error e)
                | some (.ok (v, nidx)) =>
                  parse_block fuel true lines nidx (some b) accO (accL ++ [v])
              else if pyStartsWith ("&".toList) itemStr then
                parse_block fuel true lines (cur + 1) (some b) accO (accL ++ [.str itemStr])
              else if pyEndsWith ("|".toList) itemStr || pyEndsWith (">".toList) itemStr ||
                  pyEndsWith ("|-".toList) itemStr || pyEndsWith (">-".toList) itemStr ||
                  pyEndsWith ("|+".toList) itemStr || pyEndsWith (">+".toList) itemStr then
                let tempLines := (("temp: ".toList) ++ itemStr) :: lines.drop (cur + 1)
                let mb := parse_multiline_block tempLines 0
                match safeLoad mb.1 with
                | .error e =>
                  some (.error ("Invalid value in list on line ".toList ++ natToStr (cur + 1) ++
                    (": ".toList) ++ e))
                | .ok v =>
                  parse_block fuel true lines (cur + mb.2 + 1) (some b) accO (accL ++ [v])
              else
                match safeLoad itemStr with
                | .error e =>
                  some (.error ("Invalid value in list on line ".toList ++ natToStr (cur + 1) ++
                    (": ".toList) ++ e))
                | .ok v => parse_block fuel true lines (cur + 1) (some b) accO (accL ++ [v])
            else parse_block fuel true lines (cur + 1) (some b) accO accL
          else if pyContains st ';' && pyContains st ':' then
            match splitFirst ';' st with
            | none => parse_block fuel false lines (cur + 1) (some b) accO accL
            | some (fn0, tv0) =>
              let fieldName := pyStrip fn0
              let tv := pyStrip tv0
              if pyContains tv ':' then
                match splitFirst ':' tv with
                | none => parse_block fuel false lines (cur + 1) (some b) accO accL
                | some (ft0, fv0) =>
                  let ftypeStr := pyStrip ft0
                  let fvalueStr := pyStrip fv0
                  match parse_type ftypeStr with
                  | none => none
                  | some (.error e) => some (.error e)
                  | some (.ok _) =>
                    if fvalueStr.length = 0 then
                      let nested :=
                        match lines.get? (cur + 1) with
                        | some nl => pyStartsWith ("-".toList) (pyStrip nl)
                        | none => false
                      match parse_block fuel nested lines (cur + 1) none [] [] with
                      | none => none
                      | some (.error e) => some (.error e)
                      | some (.ok (v, nidx)) =>
                        parse_block fuel false lines nidx (some b) (setKey accO fieldName v) accL
                    else if pyStartsWith ("&".toList) fvalueStr then
                      parse_block fuel false lines (cur + 1) (some b)
                        (setKey accO fieldName (.str fvalueStr)) accL
                    else if fvalueStr = ("[".toList) then
                      match parse_multiline_array lines (cur + 1) with
                      | .error e => some (.error e)
                      | .ok (items, nidx) =>
                        parse_block fuel false lines nidx (some b)
                          (setKey accO fieldName (.list items)) accL
                    else if pyContains fvalueStr '&' then
                      match parse_value_with_references fvalueStr (cur + 1) with
                      | .error e => some (.error e)
                      | .ok v =>
                        parse_block fuel false lines (cur + 1) (some b)
                          (setKey accO fieldName v) accL
                    else
                      match safeLoad fvalueStr with
                      | .error e =>
                        some (.error ("Invalid value on line ".toList ++ natToStr (cur + 1) ++
                          (": ".toList) ++ e))
                      | .ok v =>
                        parse_block fuel false lines (cur + 1) (some b)
                          (setKey accO fieldName v) accL
              else parse_block fuel false lines (cur + 1) (some b) accO accL
          else if pyContains st ':' then
            match splitFirst ':' st with
            | none => parse_block fuel false lines (cur + 1) (some b) accO accL
            | some (fn0, fv0) =>
              let fieldName := pyStrip fn0
              let fvalueStr := pyStrip fv0
              if fvalueStr.length = 0 then
                let nested :=
                  match lines.get? (cur + 1) with
                  | some nl => pyStartsWith ("-".toList) (pyStrip nl)
                  | none => false
                match parse_block fuel nested lines (cur + 1) none [] [] with
                | none => none
                | some (.error e) => some (.error e)
                | some (.ok (v, nidx)) =>
                  parse_block fuel false lines nidx (some b) (setKey accO fieldName v) accL
              else if pyStartsWith ("&".toList) fvalueStr then
                parse_block fuel false lines (cur + 1) (some b)
                  (setKey accO fieldName (.str fvalueStr)) accL
              else if fvalueStr = ("[".toList) then
                match parse_multiline_array lines (cur + 1) with
                | .error e => some (.error e)
                | .ok (items, nidx) =>
                  parse_block fuel false lines nidx (some b)
                    (setKey accO fieldName (.list items)) accL
              else if pyContains fvalueStr '&' then
                match parse_value_with_references fvalueStr (cur + 1) with
                | .error e => some (.error e)
                | .ok v =>
                  parse_block fuel false lines (cur + 1) (some b) (setKey accO fieldName v) accL
              else
                match safeLoad fvalueStr with
                | .error e =>
                  some (.error ("Invalid value on line ".toList ++ natToStr (cur + 1) ++
                    (": ".toList) ++ e))
                | .ok v =>
                  parse_block fuel false lines (cur + 1) (some b) (setKey accO fieldName v) accL
          else parse_block fuel isList lines (cur + 1) (some b) accO accL

/-- `parse_object_block` entry point. -/
def parse_object_block (fuel : Nat) (lines : List Str) (startLine : Nat) :
    Option (Except Str (Value × Nat)) :=
  parse_block fuel false lines startLine none [] []

/-- `parse_yaml_list` entry point. -/
def parse_yaml_list (fuel : Nat) (lines : List Str) (startLine : Nat) :
    Option (Except Str (Value × Nat)) :=
  parse_block fuel true lines startLine none [] []

/-- The field loop of an `@type` definition block in `parse_tacl_content`:
an empty line ends the block (consumed), a comment is skipped, an indented
`name; type` line registers a field, and any other line ends the block
unconsumed. -/
def typeDefLoop : Nat → List Str → Nat → List (Str × TACLType) →
    Option (Except Str (List (Str × TACLType) × Nat))
  | 0, _, _, _ => none
  | Nat.succ fuel, lines, idx, acc =>
    match lines.get? idx with
    | none => some (.ok (acc, idx))
    | some fieldLine =>
      let st := pyStrip fieldLine
      if st.length = 0 then some (.ok (acc, idx + 1))
      else if pyStartsWith ("#".toList) st then typeDefLoop fuel lines (idx + 1) acc
      else if pyStartsWith ("  ".toList) fieldLine || pyStartsWith ("\t".toList) fieldLine then
        if pyContains st ';' then
          match splitFirst ';' st with
          | none => typeDefLoop fuel lines (idx + 1) acc
          | some (fn, fts) =>
            match parse_type (pyStrip fts) with
            | none => none
            | some (.error e) => some (.error e)
            | some (.ok ft) => typeDefLoop fuel lines (idx + 1) (setKey acc (pyStrip fn) ft)
        else typeDefLoop fuel lines (idx + 1) acc
      else some (.ok (acc, idx))

/-- The first pass of `parse_tacl_content`: skip blanks and comments,
register `@type` definitions, match field headers (lines matching neither
are skipped silently), and for each field compute its raw value — an empty
value recurses into a dash-list or object block, a block-scalar suffix
collects a multiline block for the adapter, a `&` prefix keeps the raw
string, a lone `[` collects a multiline array, an embedded `&` goes
through reference-aware parsing, and anything else goes to the adapter —
then parse the type annotation and append the field. -/
def mainLoop : Nat → List Str → Nat → List TACLField → CustomTypes →
    Option (Except Str (List TACLField × CustomTypes))
  | 0, _, _, _, _ => none
  | Nat.succ fuel, lines, idx, fields, ct =>
    match lines.get? idx with
    | none => some (.ok (fields, ct))
    | some line =>
      let st := pyStrip line
      if st.length = 0 || pyStartsWith ("#".toList) st then
        mainLoop fuel lines (idx + 1) fields ct
      else
        match matchTypeDef st with
        | some typeName =>
          match typeDefLoop fuel lines (idx + 1) [] with
          | none => none
          | some (.error e) => some (.error e)
          | some (.ok (tfields, nidx)) =>
            mainLoop fuel lines nidx fields (setKey ct typeName ⟨typeName, tfields, idx + 1⟩)
        | none =>
          match matchTypePat st with
          | none => mainLoop fuel lines (idx + 1) fields ct
          | some (k0, t0, v0) =>
            let key := pyStrip k0
            let typeStr := pyStrip t0
            let valueStr := pyStrip v0
            let stepRes : Option (Except Str (Value × Nat)) :=
              if valueStr.length = 0 then
                match lines.get? (idx + 1) with
                | none => some (.ok (.dict [], idx + 1))
                | some nextLine =>
                  if pyStartsWith ("-".toList) (pyStrip nextLine) then
                    parse_block fuel true lines (idx + 1) none [] []
                  else
                    parse_block fuel false lines (idx + 1) none [] []
              else if pyEndsWith ("|".toList) valueStr || pyEndsWith (">".toList) valueStr ||
                  pyEndsWith ("|-".toList) valueStr || pyEndsWith (">-".toList) valueStr ||
                  pyEndsWith ("|+".toList) valueStr || pyEndsWith (">+".toList) valueStr then
                let mb := parse_multiline_block lines idx
                match safeLoad mb.1 with
                | .error e =>
                  some (.error ("Invalid YAML multiline block on line ".toList ++
                    natToStr (idx + 1) ++ (": ".toList) ++ e))
                | .ok v => some (.ok (v, mb.2 + 1))
              else if pyStartsWith ("&".toList) valueStr then
                some (.ok (.str valueStr, idx + 1))
              else if valueStr = ("[".toList) then
                match parse_multiline_array lines (idx + 1) with
                | .error e => some (.error e)
                | .ok (items, nidx) => some (.ok (.list items, nidx))
              else if pyContains valueStr '&' then
                match parse_value_with_references valueStr (idx + 1) with
                | .error e => some (.error e)
                | .ok v => some (.ok (v, idx + 1))
              else
                match safeLoad valueStr with
                | .error e =>
                  some (.error ("Invalid YAML value on line ".toList ++ natToStr (idx + 1) ++
                    (": ".toList) ++ e))
                | .ok v => some (.ok (v, idx + 1))
            match stepRes with
            | none => none
            | some (.error e) => some (.error e)
            | some (.ok (v, nidx)) =>
              match parse_type typeStr with
              | none => none
              | some (.error e) => some (.error e)
              | some (.ok ty) =>
                mainLoop fuel lines nidx (fields ++ [⟨key, ty, v, idx + 1⟩]) ct

/-- The raw field table built after pass one: `parsed_data[key] = value`
for each field in order (a duplicate key keeps its first position and the
last value). -/
def buildTable (fields : List TACLField) : PyDict :=
  fields.foldl (fun t f => setKey t f.key f.value) []

/-- The second pass of `parse_tacl_content`: for each field in order,
resolve references in its raw value against the evolving table (errors are
wrapped as `TACLReferenceError` with a `Line n:` head), validate the
resolved value against the field's type term under the registry (errors
wrapped as `ValidationError` likewise), then store the resolved value back
into the table. -/
def secondPass (ct : CustomTypes) (rfuel vfuel : Nat) :
    List TACLField → PyDict → Option (Except TACLError PyDict)
  | [], table => some (.ok table)
  | f :: rest, table =>
    match resolveRefsF table rfuel f.value [] with
    | none => none
    | some (.error (m, _)) => some (.error (.ref (lineWrap f.line_number m)))
    | some (.ok (rv, _)) =>
      match validate_value ct vfuel rv f.ty f.key with
      | none => none
      | some (.error e) => some (.error (.validation (lineWrap f.line_number e)))
      | some (.ok _) => secondPass ct rfuel vfuel rest (setKey table f.key rv)

/-- `parse_tacl_content`: split the content into lines, run the first pass
(collecting fields and the custom-type registry), build the raw field
table, and run the second pass.  The fuel budgets are generous functions
of the input size; `none` models only their exhaustion. -/
def parse_tacl_content (content : Str) : Option (Except TACLError PyDict) :=
  let lines := splitChar '\n' content
  match mainLoop (4 * lines.length + 16) lines 0 [] [] with
  | none => none
  | some (.error e) => some (.error (.parse e))
  | some (.ok (fields, ct)) =>
    secondPass ct (content.length + 64) (content.length + 64) fields (buildTable fields)

/-! ### Specification-side definitions

The definitions below formalise the *claims'* wording (never the source),
for comparison against the embedded source functions above. -/

/-- Validation outcome at some sufficient fuel (the Python function has no
fuel; by the monotonicity and determinism lemmas below, this relation holds
for at most one `r` and is stable under more fuel). -/
def vOut (ct : CustomTypes) (v : Value) (t : TACLType) (p : Str)
    (r : Except Str Unit) : Prop :=
  ∃ fuel, validate_value ct fuel v t p = some r

/-- Claim C1's closed-record condition for one declared field: present and
valid (at the nested path the validator uses), or absent with an `Optional`
declared term. -/
def c1FieldOk (ct : CustomTypes) (entries : PyDict) (p fn : Str) (ft : TACLType) : Prop :=
  match lookupA entries fn with
  | some fv => vOut ct fv ft (p ++ '.' :: fn) (.ok ())
  | none => tyKind ft = TypeKind.optional

/-- Claim C1's closed-record semantics: every declared field is present and
valid (Optional fields may be absent), and no key of the mapping lies
outside the declared fields. -/
def c1Spec (ct : CustomTypes) (td : TypeDefinition) (entries : PyDict) (p : Str) : Prop :=
  (∀ f ∈ td.fields, c1FieldOk ct entries p f.1 f.2) ∧
  (∀ kv ∈ entries, (lookupA td.fields kv.1).isSome)

/-- A value of numeric shape (int, float or bool) in the ambient model. -/
def isNumShaped : Value → Prop
  | .int _ => True
  | .float _ => True
  | .bool _ => True
  | _ => False

/-- Claim C4 as stated: a quoted token matches only an equal string; an
unquoted token containing `.` is a float token and matches **only float
values** of equal value; an unquoted token without `.` is an int token and
matches only (non-bool) int values. -/
def claimLitMatch (v : Value) (tok : Str) : Prop :=
  if pyStartsWith ("\"".toList) tok && pyEndsWith ("\"".toList) tok then
    v = .str ((tok.drop 1).dropLast)
  else if pyContains tok '.' then
    ∃ q, pyParseFloat tok = some q ∧ v = .float q
  else
    ∃ n, pyParseInt tok = some n ∧ v = .int n

/-- Claim C4 amended: a float token matches any int-, float- or bool-shaped
value numerically equal to it; the other cases are as in the claim. -/
def amendedLitMatch (v : Value) (tok : Str) : Prop :=
  if pyStartsWith ("\"".toList) tok && pyEndsWith ("\"".toList) tok then
    v = .str ((tok.drop 1).dropLast)
  else if pyContains tok '.' then
    ∃ q, pyParseFloat tok = some q ∧ isNumShaped v ∧ numVal v = q
  else
    ∃ n, pyParseInt tok = some n ∧ v = .int n

/-- A literal token of the published grammar (`litval` is left informal by
the specification; any non-empty raw token qualifies). -/
def LitToken (tok : Str) : Prop :=
  tok ≠ []

/-- The published type grammar (claim C5), as a derivation relation between
a type string and the type term it denotes:
`type := 'optional[' type ']' | 'list[' type ']' | 'dict[' type (',' type)? ']'
| 'union[' type (',' type)* ']' | 'literal[' litval (',' litval)* ']'
| 'string'|'int'|'bool'|'float'|'null'|'object' | IDENT`,
with `dict[T]` shorthand for `dict[string, T]`. -/
inductive SpecType : Str → TACLType → Prop where
  | strP : SpecType ("string".toList) .string
  | intP : SpecType ("int".toList) .int
  | boolP : SpecType ("bool".toList) .bool
  | floatP : SpecType ("float".toList) .float
  | nullP : SpecType ("null".toList) .null
  | objectP : SpecType ("object".toList) .object
  | optionalP {s : Str} {t : TACLType} : SpecType s t →
      SpecType (("optional[".toList) ++ s ++ ("]".toList)) (.optional t)
  | listP {s : Str} {t : TACLType} : SpecType s t →
      SpecType (("list[".toList) ++ s ++ ("]".toList)) (.list t)
  | dictOneP {s : Str} {t : TACLType} : SpecType s t →
      SpecType (("dict[".toList) ++ s ++ ("]".toList)) (.dict .string t)
  | dictTwoP {ks vs : Str} {kt vt : TACLType} : SpecType ks kt → SpecType vs vt →
      SpecType (("dict[".toList) ++ ks ++ (",".toList) ++ vs ++ ("]".toList)) (.dict kt vt)
  | unionP (parts : List (Str × TACLType)) : parts ≠ [] →
      (∀ pr ∈ parts, SpecType pr.1 pr.2) →
      SpecType (("union[".toList) ++ joinSep (",".toList) (parts.map Prod.fst) ++ ("]".toList))
        (.union (parts.map Prod.snd))
  | literalP (toks : List Str) : toks ≠ [] → (∀ tok ∈ toks, LitToken tok) →
      SpecType (("literal[".toList) ++ joinSep (",".toList) toks ++ ("]".toList))
        (.literal toks)
  | customP {name : Str} : pyIsIdentifier name = true → SpecType name (.custom name)

/-- The canonical grammar string of a type term (no interior whitespace). -/
def tyStr : TACLType → Str
  | .string => "string".toList
  | .int => "int".toList
  | .bool => "bool".toList
  | .float => "float".toList
  | .null => "null".toList
  | .object => "object".toList
  | .optional t => ("optional[".toList) ++ tyStr t ++ ("]".toList)
  | .list t => ("list[".toList) ++ tyStr t ++ ("]".toList)
  | .dict k v => ("dict[".toList) ++ tyStr k ++ (",".toList) ++ tyStr v ++ ("]".toList)
  | .union ms =>
    ("union[".toList) ++ joinSep (",".toList) (ms.attach.map (fun m => tyStr m.1)) ++ ("]".toList)
  | .literal toks => ("literal[".toList) ++ joinSep (",".toList) toks ++ ("]".toList)
  | .custom name => name
termination_by t => sizeOf t
decreasing_by
  all_goals first
    | (simp only [TACLType.optional.sizeOf_spec, TACLType.list.sizeOf_spec,
        TACLType.dict.sizeOf_spec]; omega)
    | (have h := List.sizeOf_lt_of_mem m.2
       simp only [TACLType.union.sizeOf_spec]
       omega)

/-- A literal token that round-trips through the quote-aware splitter:
non-empty, no comma, quote, or backslash, and strip-invariant. -/
def goodTok (tok : Str) : Prop :=
  tok ≠ [] ∧ tok.contains ',' = false ∧ tok.contains '"' = false ∧
  tok.contains '\\' = false ∧ pyStrip tok = tok ∧ (tok.all (fun c => !pyIsSpace c))

/-- The comma-safe fragment of the grammar (claim C5 amended): union
members and dict key positions must print without commas, literal tokens
must survive the splitter, and custom names must be identifiers distinct
from the primitive keywords. -/
inductive Fragment : TACLType → Prop where
  | strF : Fragment .string
  | intF : Fragment .int
  | boolF : Fragment .bool
  | floatF : Fragment .float
  | nullF : Fragment .null
  | objectF : Fragment .object
  | optionalF {t : TACLType} : Fragment t → Fragment (.optional t)
  | listF {t : TACLType} : Fragment t → Fragment (.list t)
  | dictF {k v : TACLType} : Fragment k → Fragment v →
      (tyStr k).contains ',' = false → Fragment (.dict k v)
  | unionF {ms : List TACLType} : ms ≠ [] → (∀ m ∈ ms, Fragment m) →
      (∀ m ∈ ms, (tyStr m).contains ',' = false) → Fragment (.union ms)
  | literalF {toks : List Str} : toks ≠ [] → (∀ tok ∈ toks, goodTok tok) →
      Fragment (.literal toks)
  | customF {name : Str} : pyIsIdentifier name = true →
      name ≠ ("string".toList) → name ≠ ("int".toList) → name ≠ ("bool".toList) →
      name ≠ ("float".toList) → name ≠ ("null".toList) → name ≠ ("object".toList) →
      Fragment (.custom name)

/-- The bracketed index groups of a reference-path segment, per the claim's
path grammar: a sequence of `[digits]` groups (fueled; wrappers pass the
length, and each group consumes at least three characters). -/
def idxListF : Nat → Str → Option (List Nat)
  | 0, _ => none
  | _ + 1, [] => some []
  | fuel + 1, '[' :: rest =>
    let ds := rest.takeWhile isDigitCh
    let r1 := rest.dropWhile isDigitCh
    if ds.length = 0 then none
    else
      match r1 with
      | ']' :: r2 =>
        match idxListF fuel r2 with
        | none => none
        | some more => some (digitsToNat ds 0 :: more)
      | _ => none
  | _ + 1, _ => none

/-- Claim C6's reading of one path segment: a mapping lookup on the bare
name, then one sequence index lookup per trailing bracketed index. -/
def claimSegResolve (cur : Value) (seg : Str) : Option Value :=
  let name := seg.takeWhile (fun c => c ≠ '[')
  match idxListF (seg.length + 1) (seg.drop name.length) with
  | none => none
  | some idxs =>
    match cur with
    | .dict entries =>
      match lookupA entries name with
      | none => none
      | some v0 =>
        idxs.foldl (fun acc i =>
          match acc with
          | some (.list items) => items.get? i
          | _ => none) (some v0)
    | _ => none

/-- Claim C6's whole-path walk: segment-by-segment over the dot-split
path, `none` exactly on the errors the claim enumerates. -/
def claimResolve (path : Str) (data : PyDict) : Option Value :=
  (splitChar '.' path).foldl (fun acc seg =>
    match acc with
    | none => none
    | some cur => claimSegResolve cur seg) (some (.dict data))

/-- Membership in the claim's published path grammar
`identifier(.identifier)*([non-negative integer])*`: every dot-segment but
the last is a bare identifier; the last is an identifier followed by zero
or more bracketed indices. -/
def claimPathOk (path : Str) : Bool :=
  let parts := splitChar '.' path
  match parts.getLast? with
  | none => false
  | some lastPart =>
    parts.dropLast.all pyIsIdentifier &&
    (let name := lastPart.takeWhile (fun c => c ≠ '[')
     pyIsIdentifier name &&
       (idxListF (lastPart.length + 1) (lastPart.drop name.length)).isSome)

/-- A segment with at most one trailing bracketed index (the fragment of
the path grammar on which `resolve_reference` agrees with the claim's
walk): a bare identifier, or `ident[digits]`. -/
def segSingle (seg : Str) : Bool :=
  let name := seg.takeWhile (fun c => c ≠ '[')
  let rest := seg.drop name.length
  pyIsIdentifier name &&
    (rest.length = 0 ||
      (pyStartsWith ("[".toList) rest && pyEndsWith ("]".toList) rest &&
        ((rest.drop 1).dropLast).length > 0 &&
        ((rest.drop 1).dropLast).all isDigitCh))

/-- A path all of whose segments carry at most one trailing index. -/
def pathSingle (path : Str) : Bool :=
  (splitChar '.' path).all segSingle

/-! ### Helper lemmas: loops, fuel monotonicity, determinism, totality -/

theorem seqLoop_congr {α : Type} {s1 s2 : α → Option (Except Str Unit)}
    (h : ∀ x r, s1 x = some r → s2 x = some r) :
    ∀ l r, seqLoop s1 l = some r → seqLoop s2 l = some r := by
  intro l
  induction l with
  | nil => intro r hr; exact hr
  | cons x rest ih =>
    intro r hr
    simp only [seqLoop] at hr ⊢
    cases hx : s1 x with
    | none => rw [hx] at hr; exact absurd hr (by simp)
    | some rx =>
      rw [hx] at hr
      rw [h x rx hx]
      cases rx with
      | error e => exact hr
      | ok u => exact ih r hr

theorem anyLoop_congr {α : Type} {s1 s2 : α → Option (Except Str Unit)}
    (h : ∀ x r, s1 x = some r → s2 x = some r) :
    ∀ l r, anyLoop s1 l = some r → anyLoop s2 l = some r := by
  intro l
  induction l with
  | nil => intro r hr; exact hr
  | cons x rest ih =>
    intro r hr
    simp only [anyLoop] at hr ⊢
    cases hx : s1 x with
    | none => rw [hx] at hr; exact absurd hr (by simp)
    | some rx =>
      rw [hx] at hr
      rw [h x rx hx]
      cases rx with
      | error e => exact ih r hr
      | ok u => exact hr

theorem validate_value_mono (ct : CustomTypes) :
    ∀ fuel v t p r, validate_value ct fuel v t p = some r →
      validate_value ct (fuel + 1) v t p = some r := by
  intro fuel
  induction fuel with
  | zero => intro v t p r h; exact absurd h (by simp [validate_value])
  | succ fuel ih =>
    intro v t p r h
    cases t with
    | optional inner =>
      cases v <;> simp only [validate_value] at h ⊢ <;> first
        | exact h
        | exact ih _ _ _ _ h
    | string => cases v <;> exact h
    | int => cases v <;> exact h
    | bool => cases v <;> exact h
    | float => cases v <;> exact h
    | null => cases v <;> exact h
    | object => exact h
    | literal toks => cases v <;> exact h
    | list inner =>
      cases v with
      | list items =>
        simp only [validate_value] at h ⊢
        exact seqLoop_congr (fun x r hx => ih _ _ _ _ hx) _ r h
      | _ => exact h
    | dict kt vt =>
      cases v with
      | dict entries =>
        have h2 : seqLoop (fun kv =>
            match validate_value ct fuel (.str kv.1) kt (p ++ (".key".toList)) with
            | none => none
            | some (.error e) => some (.error e)
            | some (.ok _) =>
              validate_value ct fuel kv.2 vt (p ++ '[' :: kv.1 ++ ("]".toList)))
            entries = some r := h
        show seqLoop (fun kv =>
            match validate_value ct (fuel + 1) (.str kv.1) kt (p ++ (".key".toList)) with
            | none => none
            | some (.error e) => some (.error e)
            | some (.ok _) =>
              validate_value ct (fuel + 1) kv.2 vt (p ++ '[' :: kv.1 ++ ("]".toList)))
            entries = some r
        refine seqLoop_congr (fun kv r hkv => ?_) _ r h2
        cases hk : validate_value ct fuel (.str kv.1) kt (p ++ (".key".toList)) with
        | none => rw [hk] at hkv; exact absurd hkv (by simp)
        | some rk =>
          rw [hk] at hkv
          rw [ih _ _ _ _ hk]
          cases rk with
          | error e => exact hkv
          | ok u => exact ih _ _ _ _ hkv
      | _ => exact h
    | union ms =>
      have step : ∀ w : Value,
          validate_value ct (fuel + 1) w (.union ms) p = some r →
          validate_value ct (fuel + 1 + 1) w (.union ms) p = some r := by
        intro w hw
        have hw2 : (match anyLoop (fun m => validate_value ct fuel w m p) ms with
            | none => none
            | some true => some (Except.ok ())
            | some false => some (Except.error (unionMsg p ms))) = some r := hw
        show (match anyLoop (fun m => validate_value ct (fuel + 1) w m p) ms with
            | none => none
            | some true => some (Except.ok ())
            | some false => some (Except.error (unionMsg p ms))) = some r
        cases ha : anyLoop (fun m => validate_value ct fuel w m p) ms with
        | none => rw [ha] at hw2; exact absurd hw2 (by simp)
        | some b =>
          rw [ha] at hw2
          rw [anyLoop_congr (fun x r hx => ih _ _ _ _ hx) _ b ha]
          exact hw2
      exact step v h
    | custom name =>
      cases v with
      | dict entries =>
        cases hct : lookupA ct name with
        | none =>
          have h2 : (match lookupA ct name with
              | some td =>
                match seqLoop (fun ff =>
                    match lookupA entries ff.1 with
                    | none =>
                      match ff.2 with
                      | .optional _ => some (Except.ok ())
                      | _ => some (Except.error (missingMsg p ff.1 name))
                    | some fv => validate_value ct fuel fv ff.2 (p ++ '.' :: ff.1))
                    td.fields with
                | none => none
                | some (.error e) => some (Except.error e)
                | some (.ok _) => some (checkExtra td.fields p name entries)
              | none => some (Except.ok ())) = some r := h
          rw [hct] at h2
          show (match lookupA ct name with
              | some td =>
                match seqLoop (fun ff =>
                    match lookupA entries ff.1 with
                    | none =>
                      match ff.2 with
                      | .optional _ => some (Except.ok ())
                      | _ => some (Except.error (missingMsg p ff.1 name))
                    | some fv => validate_value ct (fuel + 1) fv ff.2 (p ++ '.' :: ff.1))
                    td.fields with
                | none => none
                | some (.error e) => some (Except.error e)
                | some (.ok _) => some (checkExtra td.fields p name entries)
              | none => some (Except.ok ())) = some r
          rw [hct]
          exact h2
        | some td =>
          have h2 : (match seqLoop (fun ff =>
                  match lookupA entries ff.1 with
                  | none =>
                    match ff.2 with
                    | .optional _ => some (Except.ok ())
                    | _ => some (Except.error (missingMsg p ff.1 name))
                  | some fv => validate_value ct fuel fv ff.2 (p ++ '.' :: ff.1))
                  td.fields with
              | none => none
              | some (.error e) => some (Except.error e)
              | some (.ok _) => some (checkExtra td.fields p name entries)) = some r := by
            have h3 : (match lookupA ct name with
                | some td =>
                  match seqLoop (fun ff =>
                      match lookupA entries ff.1 with
                      | none =>
                        match ff.2 with
                        | .optional _ => some (Except.ok ())
                        | _ => some (Except.error (missingMsg p ff.1 name))
                      | some fv => validate_value ct fuel fv ff.2 (p ++ '.' :: ff.1))
                      td.fields with
                  | none => none
                  | some (.error e) => some (Except.error e)
                  | some (.ok _) => some (checkExtra td.fields p name entries)
                | none => some (Except.ok ())) = some r := h
            rw [hct] at h3
            exact h3
          show (match lookupA ct name with
              | some td =>
                match seqLoop (fun ff =>
                    match lookupA entries ff.1 with
                    | none =>
                      match ff.2 with
                      | .optional _ => some (Except.ok ())
                      | _ => some (Except.error (missingMsg p ff.1 name))
                    | some fv => validate_value ct (fuel + 1) fv ff.2 (p ++ '.' :: ff.1))
                    td.fields with
                | none => none
                | some (.error e) => some (Except.error e)
                | some (.ok _) => some (checkExtra td.fields p name entries)
              | none => some (Except.ok ())) = some r
          rw [hct]
          show (match seqLoop (fun ff =>
              match lookupA entries ff.1 with
              | none =>
                match ff.2 with
                | .optional _ => some (Except.ok ())
                | _ => some (Except.error (missingMsg p ff.1 name))
              | some fv => validate_value ct (fuel + 1) fv ff.2 (p ++ '.' :: ff.1))
              td.fields with
            | none => none
            | some (.error e) => some (Except.error e)
            | some (.ok _) => some (checkExtra td.fields p name entries)) = some r
          cases hs : seqLoop (fun ff =>
              match lookupA entries ff.1 with
              | none =>
                match ff.2 with
                | .optional _ => some (Except.ok ())
                | _ => some (Except.error (missingMsg p ff.1 name))
              | some fv => validate_value ct fuel fv ff.2 (p ++ '.' :: ff.1)) td.fields with
          | none => rw [hs] at h2; exact absurd h2 (by simp)
          | some rs =>
            rw [hs] at h2
            have hs2 := @seqLoop_congr _ _ (fun ff =>
                match lookupA entries ff.1 with
                | none =>
                  match ff.2 with
                  | .optional _ => some (Except.ok ())
                  | _ => some (Except.error (missingMsg p ff.1 name))
                | some fv => validate_value ct (fuel + 1) fv ff.2 (p ++ '.' :: ff.1))
              (fun ff r hf => by
                cases hl : lookupA entries ff.1 with
                | none =>
                  rw [hl] at hf
                  simp only [hl]
                  exact hf
                | some fv =>
                  rw [hl] at hf
                  simp only [hl]
                  exact ih _ _ _ _ hf)
              td.fields rs hs
            rw [hs2]
            exact h2
      | _ => exact h

theorem validate_value_mono_le (ct : CustomTypes) {fuel fuel2 : Nat}
    (hle : fuel ≤ fuel2) :
    ∀ v t p r, validate_value ct fuel v t p = some r →
      validate_value ct fuel2 v t p = some r := by
  induction fuel2, hle using Nat.le_induction with
  | base => intro v t p r h; exact h
  | succ n hn ih => intro v t p r h; exact validate_value_mono ct n v t p r (ih v t p r h)

theorem vOut_det {ct : CustomTypes} {v : Value} {t : TACLType} {p : Str}
    {r r2 : Except Str Unit} (h1 : vOut ct v t p r) (h2 : vOut ct v t p r2) :
    r = r2 := by
  obtain ⟨f1, h1⟩ := h1
  obtain ⟨f2, h2⟩ := h2
  rcases Nat.le_total f1 f2 with hle | hle
  · have := validate_value_mono_le ct hle _ _ _ _ h1
    rw [this] at h2; exact Option.some_inj.mp h2
  · have := validate_value_mono_le ct hle _ _ _ _ h2
    rw [this] at h1; exact (Option.some_inj.mp h1).symm

theorem uniform_fuel {α : Type} (g : Nat → α → Option (Except Str Unit))
    (mono : ∀ fuel fuel2 x r, fuel ≤ fuel2 → g fuel x = some r → g fuel2 x = some r)
    (l : List α) (h : ∀ x ∈ l, ∃ fuel r, g fuel x = some r) :
    ∃ F, ∀ x ∈ l, ∃ r, g F x = some r := by
  induction l with
  | nil => exact ⟨0, by simp⟩
  | cons x rest ih =>
    obtain ⟨f1, r1, h1⟩ := h x (by simp)
    obtain ⟨F, hF⟩ := ih (fun y hy => h y (by simp [hy]))
    refine ⟨max f1 F, ?_⟩
    intro y hy
    rcases List.mem_cons.mp hy with hy | hy
    · subst hy; exact ⟨r1, mono _ _ _ _ (Nat.le_max_left _ _) h1⟩
    · obtain ⟨r2, h2⟩ := hF y hy
      exact ⟨r2, mono _ _ _ _ (Nat.le_max_right _ _) h2⟩

theorem seqLoop_total {α : Type} {step : α → Option (Except Str Unit)} :
    ∀ l : List α, (∀ x ∈ l, ∃ r, step x = some r) → ∃ r, seqLoop step l = some r := by
  intro l
  induction l with
  | nil => intro _; exact ⟨.ok (), rfl⟩
  | cons x rest ih =>
    intro h
    obtain ⟨r, hr⟩ := h x (by simp)
    cases r with
    | error e => exact ⟨.error e, by simp [seqLoop, hr]⟩
    | ok u =>
      obtain ⟨r2, hr2⟩ := ih (fun y hy => h y (by simp [hy]))
      exact ⟨r2, by simp [seqLoop, hr, hr2]⟩

theorem anyLoop_total {α : Type} {step : α → Option (Except Str Unit)} :
    ∀ l : List α, (∀ x ∈ l, ∃ r, step x = some r) → ∃ b, anyLoop step l = some b := by
  intro l
  induction l with
  | nil => intro _; exact ⟨false, rfl⟩
  | cons x rest ih =>
    intro h
    obtain ⟨r, hr⟩ := h x (by simp)
    cases r with
    | ok u => exact ⟨true, by simp [anyLoop, hr]⟩
    | error e =>
      obtain ⟨b, hb⟩ := ih (fun y hy => h y (by simp [hy]))
      exact ⟨b, by simp [anyLoop, hr, hb]⟩

theorem lookupA_mem {α : Type} :
    ∀ (l : List (Str × α)) (k : Str) (v : α), lookupA l k = some v → (k, v) ∈ l := by
  intro l
  induction l with
  | nil => intro k v h; exact absurd h (by simp [lookupA])
  | cons kv rest ih =>
    intro k v h
    obtain ⟨k0, v0⟩ := kv
    simp only [lookupA] at h
    by_cases hk : k0 = k
    · rw [if_pos hk] at h
      injection h with h2
      subst hk; subst h2
      exact List.mem_cons_self _ _
    · rw [if_neg hk] at h
      exact List.mem_cons_of_mem _ (ih k v h)

theorem sizeOf_lookup_dict {entries : PyDict} {k : Str} {v : Value}
    (h : lookupA entries k = some v) : sizeOf v < sizeOf (Value.dict entries) := by
  have hm := lookupA_mem entries k v h
  have := List.sizeOf_lt_of_mem hm
  simp only [Prod.mk.sizeOf_spec] at this
  simp only [Value.dict.sizeOf_spec]
  omega

theorem sizeOf_mem_list {items : List Value} {x : Value} (h : x ∈ items) :
    sizeOf x < sizeOf (Value.list items) := by
  have := List.sizeOf_lt_of_mem h
  simp only [Value.list.sizeOf_spec]
  omega

theorem sizeOf_dict_key {entries : PyDict} {kv : Str × Value} (h : kv ∈ entries) :
    sizeOf (Value.str kv.1) < sizeOf (Value.dict entries) := by
  obtain ⟨k, v⟩ := kv
  have := List.sizeOf_lt_of_mem h
  simp only [Prod.mk.sizeOf_spec] at this
  simp only [Value.dict.sizeOf_spec, Value.str.sizeOf_spec]
  omega

theorem sizeOf_dict_val {entries : PyDict} {kv : Str × Value} (h : kv ∈ entries) :
    sizeOf kv.2 < sizeOf (Value.dict entries) := by
  obtain ⟨k, v⟩ := kv
  have := List.sizeOf_lt_of_mem h
  simp only [Prod.mk.sizeOf_spec] at this
  simp only [Value.dict.sizeOf_spec]
  omega

theorem sizeOf_mem_union {ms : List TACLType} {m : TACLType} (h : m ∈ ms) :
    sizeOf m < sizeOf (TACLType.union ms) := by
  have := List.sizeOf_lt_of_mem h
  simp only [TACLType.union.sizeOf_spec]
  omega

theorem mem_enumFrom_snd {α : Type} :
    ∀ (l : List α) (n : Nat) (ii : Nat × α), ii ∈ List.enumFrom n l → ii.2 ∈ l := by
  intro l
  induction l with
  | nil => intro n ii h; simp [List.enumFrom] at h
  | cons x rest ih =>
    intro n ii h
    simp only [List.enumFrom, List.mem_cons] at h
    rcases h with h | h
    · subst h; exact List.mem_cons_self _ _
    · exact List.mem_cons_of_mem _ (ih (n + 1) ii h)

theorem mem_enum_snd {α : Type} {l : List α} {ii : Nat × α} (h : ii ∈ l.enum) :
    ii.2 ∈ l :=
  mem_enumFrom_snd l 0 ii h

theorem vv_optional_eq (ct : CustomTypes) (fuel : Nat) (v : Value) (inner : TACLType)
    (p : Str) :
    validate_value ct (fuel + 1) v (.optional inner) p =
      (match v with
       | .null => some (.ok ())
       | w => validate_value ct fuel w inner p) := by
  cases v <;> rfl

theorem vv_list_eq (ct : CustomTypes) (fuel : Nat) (items : List Value)
    (inner : TACLType) (p : Str) :
    validate_value ct (fuel + 1) (.list items) (.list inner) p =
      seqLoop (listStep ct fuel inner p) items.enum := rfl

theorem vv_dict_eq (ct : CustomTypes) (fuel : Nat) (entries : PyDict)
    (kt vt : TACLType) (p : Str) :
    validate_value ct (fuel + 1) (.dict entries) (.dict kt vt) p =
      seqLoop (dictStep ct fuel kt vt p) entries := rfl

theorem vv_union_eq (ct : CustomTypes) (fuel : Nat) (v : Value) (ms : List TACLType)
    (p : Str) :
    validate_value ct (fuel + 1) v (.union ms) p =
      (match anyLoop (fun m => validate_value ct fuel v m p) ms with
       | none => none
       | some true => some (.ok ())
       | some false => some (.error (unionMsg p ms))) := rfl

theorem vv_literal_eq (ct : CustomTypes) (fuel : Nat) (v : Value) (toks : List Str)
    (p : Str) :
    validate_value ct (fuel + 1) v (.literal toks) p =
      (if litAny v toks then some (.ok ()) else some (.error (litMsg p v toks))) := rfl

theorem vv_custom_eq (ct : CustomTypes) (fuel : Nat) (entries : PyDict)
    (name p : Str) :
    validate_value ct (fuel + 1) (.dict entries) (.custom name) p =
      (match lookupA ct name with
       | some td =>
         match seqLoop (customStep ct fuel entries p name) td.fields with
         | none => none
         | some (.error e) => some (.error e)
         | some (.ok _) => some (checkExtra td.fields p name entries)
       | none => some (.ok ())) := rfl

theorem validate_total (ct : CustomTypes) :
    ∀ (N M : Nat) (v : Value) (t : TACLType) (p : Str), sizeOf v ≤ N → sizeOf t ≤ M →
      ∃ fuel r, validate_value ct (fuel + 1) v t p = some r := by
  intro N
  induction N using Nat.strong_induction_on with
  | _ N ihN =>
  intro M
  induction M using Nat.strong_induction_on with
  | _ M ihM =>
  intro v t p hv ht
  cases t with
  | string => cases v <;> exact ⟨0, _, rfl⟩
  | int => cases v <;> exact ⟨0, _, rfl⟩
  | bool => cases v <;> exact ⟨0, _, rfl⟩
  | float => cases v <;> exact ⟨0, _, rfl⟩
  | null => cases v <;> exact ⟨0, _, rfl⟩
  | object => exact ⟨0, .ok (), rfl⟩
  | literal toks =>
    by_cases hl : litAny v toks
    · exact ⟨0, .ok (), by rw [vv_literal_eq, if_pos hl]⟩
    · exact ⟨0, .error (litMsg p v toks), by rw [vv_literal_eq, if_neg hl]⟩
  | optional inner =>
    cases v with
    | null => exact ⟨0, .ok (), rfl⟩
    | str s =>
      obtain ⟨f, r, hf⟩ := ihM (sizeOf inner)
        (by have : sizeOf inner < sizeOf (TACLType.optional inner) := by
              simp [TACLType.optional.sizeOf_spec]
            omega)
        (.str s) inner p hv (Nat.le_refl _)
      exact ⟨f + 1, r, hf⟩
    | int n =>
      obtain ⟨f, r, hf⟩ := ihM (sizeOf inner)
        (by have : sizeOf inner < sizeOf (TACLType.optional inner) := by
              simp [TACLType.optional.sizeOf_spec]
            omega)
        (.int n) inner p hv (Nat.le_refl _)
      exact ⟨f + 1, r, hf⟩
    | float q =>
      obtain ⟨f, r, hf⟩ := ihM (sizeOf inner)
        (by have : sizeOf inner < sizeOf (TACLType.optional inner) := by
              simp [TACLType.optional.sizeOf_spec]
            omega)
        (.float q) inner p hv (Nat.le_refl _)
      exact ⟨f + 1, r, hf⟩
    | bool b =>
      obtain ⟨f, r, hf⟩ := ihM (sizeOf inner)
        (by have : sizeOf inner < sizeOf (TACLType.optional inner) := by
              simp [TACLType.optional.sizeOf_spec]
            omega)
        (.bool b) inner p hv (Nat.le_refl _)
      exact ⟨f + 1, r, hf⟩
    | list items =>
      obtain ⟨f, r, hf⟩ := ihM (sizeOf inner)
        (by have : sizeOf inner < sizeOf (TACLType.optional inner) := by
              simp [TACLType.optional.sizeOf_spec]
            omega)
        (.list items) inner p hv (Nat.le_refl _)
      exact ⟨f + 1, r, hf⟩
    | dict entries =>
      obtain ⟨f, r, hf⟩ := ihM (sizeOf inner)
        (by have : sizeOf inner < sizeOf (TACLType.optional inner) := by
              simp [TACLType.optional.sizeOf_spec]
            omega)
        (.dict entries) inner p hv (Nat.le_refl _)
      exact ⟨f + 1, r, hf⟩
  | list inner =>
    cases v with
    | list items =>
      have hex : ∀ ii ∈ items.enum, ∃ fuel r, listStep ct fuel inner p ii = some r := by
        intro ii hii
        have hmem : ii.2 ∈ items := mem_enum_snd hii
        have hsz : sizeOf ii.2 < sizeOf (Value.list items) := sizeOf_mem_list hmem
        obtain ⟨f, r, hf⟩ := ihN (sizeOf ii.2) (by omega) (sizeOf inner) ii.2 inner
          (p ++ '[' :: natToStr ii.1 ++ ("]".toList)) (Nat.le_refl _) (Nat.le_refl _)
        exact ⟨f + 1, r, hf⟩
      obtain ⟨F, hF⟩ := uniform_fuel (fun fuel ii => listStep ct fuel inner p ii)
        (fun f1 f2 x r hle hx => by
          simp only [listStep] at hx ⊢
          exact validate_value_mono_le ct hle _ _ _ _ hx) _ hex
      obtain ⟨r, hr⟩ := seqLoop_total items.enum hF
      exact ⟨F, r, by rw [vv_list_eq]; exact hr⟩
    | str s => exact ⟨0, _, rfl⟩
    | int n => exact ⟨0, _, rfl⟩
    | float q => exact ⟨0, _, rfl⟩
    | bool b => exact ⟨0, _, rfl⟩
    | null => exact ⟨0, _, rfl⟩
    | dict entries => exact ⟨0, _, rfl⟩
  | dict kt vt =>
    cases v with
    | dict entries =>
      have hex : ∀ kv ∈ entries, ∃ fuel r,
          (fun fuel kv => dictStep ct fuel kt vt p kv) fuel kv = some r := by
        intro kv hkv
        have hszk : sizeOf (Value.str kv.1) < sizeOf (Value.dict entries) :=
          sizeOf_dict_key hkv
        have hszv : sizeOf kv.2 < sizeOf (Value.dict entries) := sizeOf_dict_val hkv
        obtain ⟨f1, r1, hf1⟩ := ihN (sizeOf (Value.str kv.1)) (by omega) (sizeOf kt)
          (.str kv.1) kt (p ++ (".key".toList)) (Nat.le_refl _) (Nat.le_refl _)
        obtain ⟨f2, r2, hf2⟩ := ihN (sizeOf kv.2) (by omega) (sizeOf vt)
          kv.2 vt (p ++ '[' :: kv.1 ++ ("]".toList)) (Nat.le_refl _) (Nat.le_refl _)
        refine ⟨max (f1 + 1) (f2 + 1), ?_⟩
        have hf1m := validate_value_mono_le ct (Nat.le_max_left (f1 + 1) (f2 + 1)) _ _ _ _ hf1
        have hf2m := validate_value_mono_le ct (Nat.le_max_right (f1 + 1) (f2 + 1)) _ _ _ _ hf2
        cases r1 with
        | error e => exact ⟨.error e, by simp only [dictStep]; rw [hf1m]⟩
        | ok u => exact ⟨r2, by simp only [dictStep]; rw [hf1m]; exact hf2m⟩
      have hmono : ∀ f1 f2 (kv : Str × Value) r, f1 ≤ f2 →
          dictStep ct f1 kt vt p kv = some r → dictStep ct f2 kt vt p kv = some r := by
        intro f1 f2 kv r hle hkv
        simp only [dictStep] at hkv ⊢
        cases hk : validate_value ct f1 (.str kv.1) kt (p ++ (".key".toList)) with
        | none => rw [hk] at hkv; exact absurd hkv (by simp)
        | some rk =>
          rw [hk] at hkv
          rw [validate_value_mono_le ct hle _ _ _ _ hk]
          cases rk with
          | error e => exact hkv
          | ok u => exact validate_value_mono_le ct hle _ _ _ _ hkv
      obtain ⟨F, hF⟩ := uniform_fuel (fun fuel kv => dictStep ct fuel kt vt p kv)
        (fun f1 f2 x r hle hx => hmono f1 f2 x r hle hx) _ hex
      obtain ⟨r, hr⟩ := seqLoop_total entries hF
      exact ⟨F, r, by rw [vv_dict_eq]; exact hr⟩
    | str s => exact ⟨0, _, rfl⟩
    | int n => exact ⟨0, _, rfl⟩
    | float q => exact ⟨0, _, rfl⟩
    | bool b => exact ⟨0, _, rfl⟩
    | null => exact ⟨0, _, rfl⟩
    | list items => exact ⟨0, _, rfl⟩
  | union ms =>
    have hex : ∀ m ∈ ms, ∃ fuel r,
        (fun fuel m => validate_value ct fuel v m p) fuel m = some r := by
      intro m hm
      have hsz : sizeOf m < sizeOf (TACLType.union ms) := sizeOf_mem_union hm
      obtain ⟨f, r, hf⟩ := ihM (sizeOf m) (by omega) v m p hv (Nat.le_refl _)
      exact ⟨f + 1, r, hf⟩
    obtain ⟨F, hF⟩ := uniform_fuel (fun fuel m => validate_value ct fuel v m p)
      (fun f1 f2 x r hle hx => validate_value_mono_le ct hle _ _ _ _ hx) _ hex
    obtain ⟨b, hb⟩ := anyLoop_total ms hF
    cases b with
    | true => exact ⟨F, .ok (), by rw [vv_union_eq, hb]⟩
    | false => exact ⟨F, .error (unionMsg p ms), by rw [vv_union_eq, hb]⟩
  | custom name =>
    cases v with
    | dict entries =>
      cases hct : lookupA ct name with
      | none => exact ⟨0, .ok (), by rw [vv_custom_eq, hct]⟩
      | some td =>
        have hex : ∀ ff ∈ td.fields, ∃ fuel r,
            (fun fuel ff => customStep ct fuel entries p name ff) fuel ff = some r := by
          intro ff hff
          cases hl : lookupA entries ff.1 with
          | none =>
            obtain ⟨fn, ft⟩ := ff
            simp only at hl
            cases ft with
            | optional inner => exact ⟨0, .ok (), by simp [customStep, hl]⟩
            | string => exact ⟨0, .error (missingMsg p fn name), by simp [customStep, hl]⟩
            | int => exact ⟨0, .error (missingMsg p fn name), by simp [customStep, hl]⟩
            | bool => exact ⟨0, .error (missingMsg p fn name), by simp [customStep, hl]⟩
            | float => exact ⟨0, .error (missingMsg p fn name), by simp [customStep, hl]⟩
            | null => exact ⟨0, .error (missingMsg p fn name), by simp [customStep, hl]⟩
            | object => exact ⟨0, .error (missingMsg p fn name), by simp [customStep, hl]⟩
            | list inner => exact ⟨0, .error (missingMsg p fn name), by simp [customStep, hl]⟩
            | dict k w => exact ⟨0, .error (missingMsg p fn name), by simp [customStep, hl]⟩
            | union ms2 => exact ⟨0, .error (missingMsg p fn name), by simp [customStep, hl]⟩
            | literal toks => exact ⟨0, .error (missingMsg p fn name), by simp [customStep, hl]⟩
            | custom n2 => exact ⟨0, .error (missingMsg p fn name), by simp [customStep, hl]⟩
          | some fv =>
            have hsz : sizeOf fv < sizeOf (Value.dict entries) := sizeOf_lookup_dict hl
            obtain ⟨f, r, hf⟩ := ihN (sizeOf fv) (by omega) (sizeOf ff.2) fv ff.2
              (p ++ '.' :: ff.1) (Nat.le_refl _) (Nat.le_refl _)
            exact ⟨f + 1, r, by simp [customStep, hl]; exact hf⟩
        have hmono : ∀ f1 f2 (ff : Str × TACLType) r, f1 ≤ f2 →
            customStep ct f1 entries p name ff = some r →
            customStep ct f2 entries p name ff = some r := by
          intro f1 f2 ff r hle hff
          simp only [customStep] at hff ⊢
          cases hl : lookupA entries ff.1 with
          | none => rw [hl] at hff; exact hff
          | some fv =>
            rw [hl] at hff
            exact validate_value_mono_le ct hle _ _ _ _ hff
        obtain ⟨F, hF⟩ := uniform_fuel (fun fuel ff => customStep ct fuel entries p name ff)
          (fun f1 f2 x r hle hx => hmono f1 f2 x r hle hx) _ hex
        obtain ⟨rs, hrs⟩ := seqLoop_total td.fields hF
        cases rs with
        | error e =>
          refine ⟨F, .error e, ?_⟩
          rw [vv_custom_eq, hct]
          show (match seqLoop (customStep ct F entries p name) td.fields with
            | none => none
            | some (.error e) => some (Except.error e)
            | some (.ok _) => some (checkExtra td.fields p name entries)) =
            some (Except.error e)
          rw [hrs]
        | ok u =>
          refine ⟨F, checkExtra td.fields p name entries, ?_⟩
          rw [vv_custom_eq, hct]
          show (match seqLoop (customStep ct F entries p name) td.fields with
            | none => none
            | some (.error e) => some (Except.error e)
            | some (.ok _) => some (checkExtra td.fields p name entries)) =
            some (checkExtra td.fields p name entries)
          rw [hrs]
    | str s => exact ⟨0, _, rfl⟩
    | int n => exact ⟨0, _, rfl⟩
    | float q => exact ⟨0, _, rfl⟩
    | bool b => exact ⟨0, _, rfl⟩
    | null => exact ⟨0, _, rfl⟩
    | list items => exact ⟨0, _, rfl⟩

/-- Every validation has an outcome at some fuel: the Python recursion
terminates because each call shrinks the value or, at equal value, the
type term. -/
theorem vOut_total (ct : CustomTypes) (v : Value) (t : TACLType) (p : Str) :
    ∃ r, vOut ct v t p r := by
  obtain ⟨f, r, hf⟩ := validate_total ct (sizeOf v) (sizeOf t) v t p
    (Nat.le_refl _) (Nat.le_refl _)
  exact ⟨r, f + 1, hf⟩

/-! ### Claim C3 -/

/-- C3: a boolean value validated against an `int` or `float` type term
always raises a validation error (at every fuel budget, i.e. in every
terminating run), naming the expected kind and the value's kind `bool` —
the model separates bools from ints precisely because the source
explicitly excludes `isinstance(value, bool)` in both branches. -/
theorem c3_bool_never_int_or_float (ct : CustomTypes) (b : Bool) (p : Str) (fuel : Nat) :
    validate_value ct (fuel + 1) (.bool b) .int p =
      some (.error (expMsg p ("int".toList) (.bool b))) ∧
    validate_value ct (fuel + 1) (.bool b) .float p =
      some (.error (expMsg p ("float".toList) (.bool b))) :=
  ⟨rfl, rfl⟩

/-! ### Claim C9 -/

/-- C9: validation is deterministic and idempotent — the embedding of
`validate_value` is a pure function of the value, the type term and the
registry (the source only reads them, never writes), so two runs on the
same inputs agree, and in particular a value that validated once validates
again. -/
theorem c9_validation_idempotent (ct : CustomTypes) (v : Value) (t : TACLType) (p : Str) :
    (∀ r r2, vOut ct v t p r → vOut ct v t p r2 → r2 = r) ∧
    (vOut ct v t p (.ok ()) → vOut ct v t p (.ok ())) := by
  constructor
  · intro r r2 h1 h2
    exact vOut_det h2 h1
  · intro h
    exact h

/-- Witness for C9 at a concrete input: the integer `1` validates against
`int`, and a second run returns the same outcome. -/
theorem c9_validation_idempotent_witness :
    vOut [] (.int 1) .int ("p".toList) (.ok ()) ∧
    (∀ r2, vOut [] (.int 1) .int ("p".toList) r2 → r2 = .ok ()) := by
  have h : vOut [] (.int 1) .int ("p".toList) (.ok ()) := ⟨1, rfl⟩
  exact ⟨h, fun r2 h2 => (c9_validation_idempotent [] (.int 1) .int ("p".toList)).1 _ _ h h2⟩

/-! ### Claim C8 -/

/-- C8: `__post_init__` succeeds exactly on raw constructor records that
satisfy the structural invariant (structural kinds carry their sub-terms,
`Union`/`Literal` are non-empty, `Custom` has a non-empty name), and every
violating construction fails immediately with a syntax error — so no
observably incomplete type term ever exists. -/
theorem c8_post_init_invariant (r : RawTACLType) :
    (postInit r = .ok () ↔ rawInvariant r) ∧
    (¬ rawInvariant r → ∃ m, postInit r = .error m) := by
  obtain ⟨kind, inner, key, uni, lits, cname⟩ := r
  have main : postInit (.mk kind inner key uni lits cname) = .ok () ↔
      rawInvariant (.mk kind inner key uni lits cname) := by
    simp only [postInit, rawInvariant]
    split_ifs with h1 h2 h3 h4 h5 h6
    · constructor
      · intro h; exact absurd h (by simp)
      · rintro ⟨c1, -, -, -, -, -⟩
        rw [Bool.and_eq_true, decide_eq_true_eq] at h1
        have := c1 h1.1
        have h1r := h1.2
        cases inner
        · simp at this
        · simp at h1r
    · constructor
      · intro h; exact absurd h (by simp)
      · rintro ⟨-, c2, -, -, -, -⟩
        rw [Bool.and_eq_true, decide_eq_true_eq] at h2
        have := c2 h2.1
        cases inner
        · simp at this
        · simp at h2
    · constructor
      · intro h; exact absurd h (by simp)
      · rintro ⟨-, -, c3, -, -, -⟩
        rw [Bool.and_eq_true, decide_eq_true_eq] at h3
        obtain ⟨hk, hi⟩ := c3 h3.1
        rcases Bool.or_eq_true _ _ |>.mp h3.2 with ho | ho
        · cases key
          · simp at hk
          · simp at ho
        · cases inner
          · simp at hi
          · simp at ho
    · constructor
      · intro h; exact absurd h (by simp)
      · rintro ⟨-, -, -, c4, -, -⟩
        rw [Bool.and_eq_true, decide_eq_true_eq] at h4
        obtain ⟨l, hl, hne⟩ := c4 h4.1
        rw [hl] at h4
        simp at h4
        exact hne h4.2
    · constructor
      · intro h; exact absurd h (by simp)
      · rintro ⟨-, -, -, -, c5, -⟩
        rw [Bool.and_eq_true, decide_eq_true_eq] at h5
        obtain ⟨l, hl, hne⟩ := c5 h5.1
        rw [hl] at h5
        simp at h5
        exact hne h5.2
    · constructor
      · intro h; exact absurd h (by simp)
      · rintro ⟨-, -, -, -, -, c6⟩
        rw [Bool.and_eq_true, decide_eq_true_eq] at h6
        obtain ⟨n, hn, hne⟩ := c6 h6.1
        rw [hn] at h6
        simp at h6
        exact hne h6.2
    · constructor
      · intro _
        refine ⟨?_, ?_, ?_, ?_, ?_, ?_⟩
        · intro hk
          cases hi : inner
          · exact absurd (by simp [hk, hi]) h1
          · simp
        · intro hk
          cases hi : inner
          · exact absurd (by simp [hk, hi]) h2
          · simp
        · intro hk
          constructor
          · cases hke : key
            · exact absurd (by simp [hk, hke]) h3
            · simp
          · cases hi : inner
            · exact absurd (by simp [hk, hi]) h3
            · simp
        · intro hk
          cases hu : uni with
          | none => exact absurd (by simp [hk, hu]) h4
          | some l =>
            refine ⟨l, rfl, ?_⟩
            intro hle
            exact absurd (by simp [hk, hu, hle]) h4
        · intro hk
          cases hli : lits with
          | none => exact absurd (by simp [hk, hli]) h5
          | some l =>
            refine ⟨l, rfl, ?_⟩
            intro hle
            exact absurd (by simp [hk, hli, hle]) h5
        · intro hk
          cases hc : cname with
          | none => exact absurd (by simp [hk, hc]) h6
          | some n =>
            refine ⟨n, rfl, ?_⟩
            intro hne
            exact absurd (by simp [hk, hc, hne]) h6
      · intro _; rfl
  refine ⟨main, ?_⟩
  intro hni
  cases hp : postInit (.mk kind inner key uni lits cname) with
  | ok u => exact absurd (main.mp (by cases u; exact hp)) hni
  | error m => exact ⟨m, rfl⟩

/-! ### Claim C7 -/

theorem anyLoop_true_exists {α : Type} {step : α → Option (Except Str Unit)} :
    ∀ l : List α, anyLoop step l = some true → ∃ x ∈ l, step x = some (.ok ()) := by
  intro l
  induction l with
  | nil => intro h; exact absurd h (by simp [anyLoop])
  | cons x rest ih =>
    intro h
    simp only [anyLoop] at h
    cases hx : step x with
    | none => rw [hx] at h; exact absurd h (by simp)
    | some rx =>
      rw [hx] at h
      cases rx with
      | ok u => exact ⟨x, by simp, by cases u; exact hx⟩
      | error e =>
        obtain ⟨y, hy, hstep⟩ := ih h
        exact ⟨y, by simp [hy], hstep⟩

theorem anyLoop_all_some_true {α : Type} {step : α → Option (Except Str Unit)} :
    ∀ l : List α, (∀ x ∈ l, ∃ r, step x = some r) →
      (∃ x ∈ l, step x = some (.ok ())) → anyLoop step l = some true := by
  intro l
  induction l with
  | nil => intro _ h; simp at h
  | cons x rest ih =>
    intro hall hex
    obtain ⟨r, hr⟩ := hall x (by simp)
    cases r with
    | ok u => cases u; simp [anyLoop, hr]
    | error e =>
      simp only [anyLoop, hr]
      obtain ⟨y, hy, hstep⟩ := hex
      rcases List.mem_cons.mp hy with rfl | hy2
      · rw [hr] at hstep; exact absurd hstep (by simp)
      · exact ih (fun z hz => hall z (by simp [hz])) ⟨y, hy2, hstep⟩

theorem anyLoop_all_errors_false {α : Type} {step : α → Option (Except Str Unit)} :
    ∀ l : List α, (∀ x ∈ l, ∃ e, step x = some (.error e)) →
      anyLoop step l = some false := by
  intro l
  induction l with
  | nil => intro _; rfl
  | cons x rest ih =>
    intro hall
    obtain ⟨e, he⟩ := hall x (by simp)
    simp only [anyLoop, he]
    exact ih (fun z hz => hall z (by simp [hz]))

/-- C7: union validation — a value is accepted by `Union(members)` exactly
when some member accepts it (the loop takes the first member that
validates; acceptance carries no payload, so first-match and any-match
coincide observationally); when every member rejects, the error lists all
member kind names (`custom_name` for custom members, the kind's `value`
string otherwise); concretely, `8080` validates against `union[string,int]`
and `3.14` fails with the member list in the message. -/
theorem c7_union_first_match :
    (∀ (ct : CustomTypes) (v : Value) (ms : List TACLType) (p : Str),
      (vOut ct v (.union ms) p (.ok ()) ↔ ∃ m ∈ ms, vOut ct v m p (.ok ())) ∧
      ((∀ m ∈ ms, ∃ e, vOut ct v m p (.error e)) →
        vOut ct v (.union ms) p (.error (unionMsg p ms)))) ∧
    vOut [] (.int 8080) (.union [.string, .int]) ("v".toList) (.ok ()) ∧
    vOut [] (.float (mkRat 157 50)) (.union [.string, .int]) ("v".toList)
      (.error (unionMsg ("v".toList) [.string, .int])) := by
  refine ⟨?_, ⟨9, rfl⟩, ⟨9, rfl⟩⟩
  intro ct v ms p
  constructor
  · constructor
    · rintro ⟨fuel, hf⟩
      cases fuel with
      | zero => exact absurd hf (by simp [validate_value])
      | succ fuel =>
        rw [vv_union_eq] at hf
        cases ha : anyLoop (fun m => validate_value ct fuel v m p) ms with
        | none => rw [ha] at hf; exact absurd hf (by simp)
        | some b =>
          rw [ha] at hf
          cases b with
          | false => simp at hf
          | true =>
            obtain ⟨m, hm, hstep⟩ := anyLoop_true_exists ms ha
            exact ⟨m, hm, fuel, hstep⟩
    · rintro ⟨m, hm, fm, hfm⟩
      have hex : ∀ m2 ∈ ms, ∃ fuel r,
          (fun fuel m2 => validate_value ct fuel v m2 p) fuel m2 = some r := by
        intro m2 _
        obtain ⟨f, r, hf⟩ := validate_total ct (sizeOf v) (sizeOf m2) v m2 p
          (Nat.le_refl _) (Nat.le_refl _)
        exact ⟨f + 1, r, hf⟩
      obtain ⟨F, hF⟩ := uniform_fuel (fun fuel m2 => validate_value ct fuel v m2 p)
        (fun f1 f2 x r hle hx => validate_value_mono_le ct hle _ _ _ _ hx) _ hex
      have hFm : validate_value ct (max F fm) v m p = some (.ok ()) :=
        validate_value_mono_le ct (Nat.le_max_right _ _) _ _ _ _ hfm
      have hall : ∀ m2 ∈ ms, ∃ r, validate_value ct (max F fm) v m2 p = some r := by
        intro m2 hm2
        obtain ⟨r, hr⟩ := hF m2 hm2
        exact ⟨r, validate_value_mono_le ct (Nat.le_max_left _ _) _ _ _ _ hr⟩
      have ha := anyLoop_all_some_true ms hall ⟨m, hm, hFm⟩
      exact ⟨max F fm + 1, by rw [vv_union_eq, ha]⟩
  · intro herr
    have hex : ∀ m2 ∈ ms, ∃ fuel r,
        (fun fuel m2 => validate_value ct fuel v m2 p) fuel m2 = some r := by
      intro m2 hm2
      obtain ⟨e, f, hf⟩ := herr m2 hm2
      exact ⟨f, .error e, hf⟩
    obtain ⟨F, hF⟩ := uniform_fuel (fun fuel m2 => validate_value ct fuel v m2 p)
      (fun f1 f2 x r hle hx => validate_value_mono_le ct hle _ _ _ _ hx) _ hex
    have hallerr : ∀ m2 ∈ ms, ∃ e, validate_value ct F v m2 p = some (.error e) := by
      intro m2 hm2
      obtain ⟨r, hr⟩ := hF m2 hm2
      obtain ⟨e, fe, hfe⟩ := herr m2 hm2
      have : (.error e : Except Str Unit) = r :=
        vOut_det ⟨fe, hfe⟩ ⟨F, hr⟩
      exact ⟨e, this ▸ hr⟩
    have ha := anyLoop_all_errors_false ms hallerr
    exact ⟨F + 1, by rw [vv_union_eq, ha]⟩

/-- Witness for C7's quantified part at a concrete instance: `8080`
against `union[string,int]` succeeds because the `int` member accepts it. -/
theorem c7_union_first_match_witness :
    vOut [] (.int 8080) (.union [.string, .int]) ("v".toList) (.ok ()) := by
  have h := (c7_union_first_match.1 [] (.int 8080) [.string, .int] ("v".toList)).1
  exact h.mpr ⟨.int, by simp, ⟨1, rfl⟩⟩


/-! ### Claim C4 -/

theorem litTok_iff_amended (v : Value) (tok : Str) :
    litTok v tok = true ↔ amendedLitMatch v tok := by
  simp only [litTok, amendedLitMatch]
  split_ifs with hq hd
  · cases v <;> simp
  · cases hp : pyParseFloat tok with
    | none => simp
    | some q => cases v <;> simp [isNumShaped]
  · cases hp : pyParseInt tok with
    | none => simp
    | some n => cases v <;> simp

theorem litAny_iff_amended (v : Value) (toks : List Str) :
    litAny v toks = true ↔ ∃ tok ∈ toks, amendedLitMatch v tok := by
  simp only [litAny, List.any_eq_true]
  constructor
  · rintro ⟨tok, hm, ht⟩
    exact ⟨tok, hm, (litTok_iff_amended v tok).mp ht⟩
  · rintro ⟨tok, hm, ht⟩
    exact ⟨tok, hm, (litTok_iff_amended v tok).mpr ht⟩

/-- C4 (amended): literal validation succeeds exactly when the value
matches one of the declared tokens — a quoted token matches only an equal
string; an unquoted token containing `.` parses as a float and matches any
int-, float- or **bool**-shaped value numerically equal to it (the Python builtin
`isinstance(value, (int, float))` admits bools, and `True == 1.0`); an
unquoted token without `.` parses as an int and matches only non-bool int
values; unparsable tokens match nothing; with no match the error says
"not in allowed values".  Concretely, `"active"` is accepted and
`"unknown"` rejected against `literal["active","inactive"]`. -/
theorem c4_literal_matching :
    (∀ (ct : CustomTypes) (v : Value) (toks : List Str) (p : Str),
      (vOut ct v (.literal toks) p (.ok ()) ↔ ∃ tok ∈ toks, amendedLitMatch v tok) ∧
      ((¬ ∃ tok ∈ toks, amendedLitMatch v tok) →
        vOut ct v (.literal toks) p (.error (litMsg p v toks)))) ∧
    parse_tacl_content ("status; literal[\"active\",\"inactive\"]: \"active\"".toList)
      = some (.ok [(("status".toList), .str ("active".toList))]) ∧
    parse_tacl_content ("status; literal[\"active\",\"inactive\"]: \"unknown\"".toList)
      = some (.error (.validation
          ("Line 1: status: value 'unknown' not in allowed values: \"active\", \"inactive\"".toList))) := by
  refine ⟨?_, rfl, rfl⟩
  intro ct v toks p
  constructor
  · constructor
    · rintro ⟨fuel, hf⟩
      cases fuel with
      | zero => exact absurd hf (by simp [validate_value])
      | succ fuel =>
        rw [vv_literal_eq] at hf
        by_cases hl : litAny v toks = true
        · exact (litAny_iff_amended v toks).mp hl
        · rw [if_neg hl] at hf
          simp at hf
    · intro hex
      refine ⟨1, ?_⟩
      rw [vv_literal_eq, if_pos ((litAny_iff_amended v toks).mpr hex)]
  · intro hnex
    refine ⟨1, ?_⟩
    have hl : ¬ litAny v toks = true := fun h => hnex ((litAny_iff_amended v toks).mp h)
    rw [vv_literal_eq, if_neg hl]

/-- Witness for the quantified part of C4: the string `"zzz"` fails against
`literal["active"]` with the "not in allowed values" error. -/
theorem c4_literal_matching_witness :
    vOut [] (.str ("zzz".toList)) (.literal [("\"active\"".toList)]) ("s".toList)
      (.error (litMsg ("s".toList) (.str ("zzz".toList)) [("\"active\"".toList)])) := by
  refine (c4_literal_matching.1 [] (.str ("zzz".toList)) [("\"active\"".toList)]
    ("s".toList)).2 ?_
  rintro ⟨tok, hm, hmatch⟩
  simp at hm
  subst hm
  simp [amendedLitMatch, pyStartsWith, pyEndsWith] at hmatch

/-- Counterexample to C4 as stated: the bool `True` matches the
**float-token** `1.0` in the code (`isinstance(True, (int, float))` holds
and `True == 1.0`), while the claim says a float token matches only float
values — so validation succeeds where the claim requires failure. -/
theorem c4_counterexample :
    vOut [] (.bool true) (.literal [("1.0".toList)]) ("s".toList) (.ok ()) ∧
    ¬ claimLitMatch (.bool true) ("1.0".toList) := by
  refine ⟨⟨1, rfl⟩, ?_⟩
  intro h
  simp [claimLitMatch, pyStartsWith, pyEndsWith, pyContains] at h

/-! ### Claim C1 -/

theorem seqLoop_ok_forall {α : Type} {step : α → Option (Except Str Unit)} :
    ∀ l : List α, seqLoop step l = some (.ok ()) → ∀ x ∈ l, step x = some (.ok ()) := by
  intro l
  induction l with
  | nil => intro _ x hx; simp at hx
  | cons y rest ih =>
    intro h x hx
    simp only [seqLoop] at h
    cases hy : step y with
    | none => rw [hy] at h; exact absurd h (by simp)
    | some ry =>
      rw [hy] at h
      cases ry with
      | error e => simp at h
      | ok u =>
        rcases List.mem_cons.mp hx with rfl | hx2
        · cases u; exact hy
        · exact ih h x hx2

theorem seqLoop_all_ok {α : Type} {step : α → Option (Except Str Unit)} :
    ∀ l : List α, (∀ x ∈ l, step x = some (.ok ())) → seqLoop step l = some (.ok ()) := by
  intro l
  induction l with
  | nil => intro _; rfl
  | cons y rest ih =>
    intro h
    simp only [seqLoop, h y (by simp)]
    exact ih (fun x hx => h x (by simp [hx]))

theorem checkExtra_ok_iff (flds : List (Str × TACLType)) (p name : Str) :
    ∀ entries : List (Str × Value),
      checkExtra flds p name entries = .ok () ↔
      ∀ kv ∈ entries, (lookupA flds kv.1).isSome := by
  intro entries
  induction entries with
  | nil => simp [checkExtra]
  | cons kv rest ih =>
    obtain ⟨k, v⟩ := kv
    simp only [checkExtra]
    by_cases hk : (lookupA flds k).isSome
    · rw [if_pos hk, ih]
      constructor
      · intro h kv2 hm
        rcases List.mem_cons.mp hm with rfl | hm2
        · exact hk
        · exact h kv2 hm2
      · intro h kv2 hm
        exact h kv2 (by simp [hm])
    · rw [if_neg hk]
      constructor
      · intro h; simp at h
      · intro h
        exact absurd (h (k, v) (by simp)) hk

theorem customStep_mono (ct : CustomTypes) (entries : PyDict) (p name : Str)
    {f1 f2 : Nat} (hle : f1 ≤ f2) :
    ∀ ff r, customStep ct f1 entries p name ff = some r →
      customStep ct f2 entries p name ff = some r := by
  intro ff r hff
  simp only [customStep] at hff ⊢
  cases hl : lookupA entries ff.1 with
  | none => rw [hl] at hff; exact hff
  | some fv =>
    rw [hl] at hff
    exact validate_value_mono_le ct hle _ _ _ _ hff

theorem uniform_fuel_ok {α : Type} (g : Nat → α → Option (Except Str Unit))
    (mono : ∀ fuel fuel2 x r, fuel ≤ fuel2 → g fuel x = some r → g fuel2 x = some r)
    (l : List α) (h : ∀ x ∈ l, ∃ fuel, g fuel x = some (.ok ())) :
    ∃ F, ∀ x ∈ l, g F x = some (.ok ()) := by
  induction l with
  | nil => exact ⟨0, by simp⟩
  | cons x rest ih =>
    obtain ⟨f1, h1⟩ := h x (by simp)
    obtain ⟨F, hF⟩ := ih (fun y hy => h y (by simp [hy]))
    refine ⟨max f1 F, ?_⟩
    intro y hy
    rcases List.mem_cons.mp hy with rfl | hy2
    · exact mono _ _ _ _ (Nat.le_max_left _ _) h1
    · exact mono _ _ _ _ (Nat.le_max_right _ _) (hF y hy2)

/-- C1: custom-type validation — the value must be a mapping; when the
name is registered, validation succeeds exactly under the closed-record
semantics (`c1Spec`): every declared field present and valid, an absent
field allowed only when its declared term is `Optional`, and no key of
the mapping outside the declared fields; when the name is not registered,
a mapping always passes (untyped degrade, no unknown-field errors); a
non-mapping value always errors. -/
theorem c1_custom_closed_record :
    (∀ (ct : CustomTypes) (name : Str) (td : TypeDefinition) (entries : PyDict) (p : Str),
      lookupA ct name = some td →
      (vOut ct (.dict entries) (.custom name) p (.ok ()) ↔ c1Spec ct td entries p)) ∧
    (∀ (ct : CustomTypes) (name : Str) (entries : PyDict) (p : Str),
      lookupA ct name = none → vOut ct (.dict entries) (.custom name) p (.ok ())) ∧
    (∀ (ct : CustomTypes) (name : Str) (v : Value) (p : Str),
      (∀ es, v ≠ .dict es) → vOut ct v (.custom name) p (.error (objMsg p name))) := by
  refine ⟨?_, ?_, ?_⟩
  · intro ct name td entries p hct
    constructor
    · rintro ⟨fuel, hf⟩
      cases fuel with
      | zero => exact absurd hf (by simp [validate_value])
      | succ fuel =>
        rw [vv_custom_eq, hct] at hf
        have hf2 : (match seqLoop (customStep ct fuel entries p name) td.fields with
            | none => none
            | some (.error e) => some (Except.error e)
            | some (.ok _) => some (checkExtra td.fields p name entries)) =
            some (Except.ok ()) := hf
        cases hs : seqLoop (customStep ct fuel entries p name) td.fields with
        | none => rw [hs] at hf2; exact absurd hf2 (by simp)
        | some rs =>
          rw [hs] at hf2
          cases rs with
          | error e => simp at hf2
          | ok u =>
            cases u
            have hce : checkExtra td.fields p name entries = .ok () := by
              have := Option.some_inj.mp hf2
              exact this
            constructor
            · intro ff hff
              have hstep := seqLoop_ok_forall td.fields hs ff hff
              simp only [customStep] at hstep
              simp only [c1FieldOk]
              cases hl : lookupA entries ff.1 with
              | none =>
                rw [hl] at hstep
                cases hft : ff.2 <;> rw [hft] at hstep <;> simp at hstep ⊢
                <;> simp [tyKind]
              | some fv =>
                rw [hl] at hstep
                exact ⟨fuel, hstep⟩
            · exact (checkExtra_ok_iff td.fields p name entries).mp hce
    · rintro ⟨hfields, hextra⟩
      have hex : ∀ ff ∈ td.fields, ∃ fuel,
          customStep ct fuel entries p name ff = some (.ok ()) := by
        intro ff hff
        have hfo := hfields ff hff
        simp only [c1FieldOk] at hfo
        cases hl : lookupA entries ff.1 with
        | none =>
          rw [hl] at hfo
          refine ⟨0, ?_⟩
          simp only [customStep, hl]
          cases hft : ff.2 <;> rw [hft] at hfo <;> simp [tyKind] at hfo ⊢
        | some fv =>
          rw [hl] at hfo
          obtain ⟨f, hf⟩ := hfo
          refine ⟨f, ?_⟩
          simp only [customStep, hl]
          exact hf
      obtain ⟨F, hF⟩ := uniform_fuel_ok (fun fuel ff => customStep ct fuel entries p name ff)
        (fun f1 f2 x r hle hx => customStep_mono ct entries p name hle x r hx)
        td.fields hex
      have hs := seqLoop_all_ok td.fields hF
      have hce := (checkExtra_ok_iff td.fields p name entries).mpr hextra
      refine ⟨F + 1, ?_⟩
      rw [vv_custom_eq, hct]
      show (match seqLoop (customStep ct F entries p name) td.fields with
        | none => none
        | some (.error e) => some (Except.error e)
        | some (.ok _) => some (checkExtra td.fields p name entries)) = some (Except.ok ())
      rw [hs, hce]
  · intro ct name entries p hct
    refine ⟨1, ?_⟩
    rw [show (1 : Nat) = 0 + 1 from rfl, vv_custom_eq, hct]
  · intro ct name v p hv
    cases v with
    | dict es => exact absurd rfl (hv es)
    | str s => exact ⟨1, rfl⟩
    | int n => exact ⟨1, rfl⟩
    | float q => exact ⟨1, rfl⟩
    | bool b => exact ⟨1, rfl⟩
    | null => exact ⟨1, rfl⟩
    | list items => exact ⟨1, rfl⟩

/-- Witness for C1 at a concrete registered type: `@type T` with a
required `f1; string` and an optional `f2; optional[int]`, a value
supplying only `f1` — validation succeeds and the theorem yields the
closed-record conditions. -/
theorem c1_custom_closed_record_witness :
    c1Spec [(("T".toList), ⟨"T".toList, [(("f1".toList), .string), (("f2".toList), .optional .int)], 1⟩)]
      ⟨"T".toList, [(("f1".toList), .string), (("f2".toList), .optional .int)], 1⟩
      [(("f1".toList), .str ("x".toList))] ("v".toList) := by
  refine (c1_custom_closed_record.1
    [(("T".toList), ⟨"T".toList, [(("f1".toList), .string), (("f2".toList), .optional .int)], 1⟩)]
    ("T".toList)
    ⟨"T".toList, [(("f1".toList), .string), (("f2".toList), .optional .int)], 1⟩
    [(("f1".toList), .str ("x".toList))] ("v".toList) rfl).mp ⟨9, rfl⟩

/-! ### Claim C2 -/

theorem mem_of_contains_true {vis : List Str} {p : Str}
    (h : vis.contains p = true) : p ∈ vis := by
  rw [List.contains_eq_any_beq] at h
  obtain ⟨x, hx, hbeq⟩ := List.any_eq_true.mp h
  have hpx : p = x := by simpa using hbeq
  exact hpx ▸ hx

theorem not_mem_of_contains_false {vis : List Str} {p : Str}
    (h : vis.contains p = false) : p ∉ vis := by
  intro hm
  rw [List.contains_eq_any_beq] at h
  have h2 : (vis.any fun x => p == x) = true := List.any_eq_true.mpr ⟨p, hm, by simp⟩
  rw [h2] at h
  cases h

theorem removeVis_not_mem {vis : List Str} {p : Str} (h : p ∉ vis) :
    removeVis vis p = vis := by
  simp only [removeVis]
  apply List.filter_eq_self.mpr
  intro q hq
  simp only [decide_eq_true_eq]
  intro hqp
  exact h (hqp ▸ hq)

theorem removeVis_addVis {vis : List Str} {p : Str}
    (h : vis.contains p = false) : removeVis (addVis vis p) p = vis := by
  have hnm : p ∉ vis := not_mem_of_contains_false h
  simp only [addVis, h, Bool.false_eq_true, if_false, removeVis, List.filter_append]
  rw [show (List.filter (fun q => decide (q ≠ p)) [p]) = [] by simp]
  rw [List.append_nil]
  exact removeVis_not_mem hnm

theorem embSub_preserves (data : PyDict) :
    ∀ (fuel : Nat) (s : Str) (vis : List Str) (r : Except (Str × List Str) (Str × List Str)),
      embSub data fuel s vis = some r →
      (∀ out vis2, r = .ok (out, vis2) → vis2 = vis) ∧
      (∀ m vis2, r = .error (m, vis2) → vis2 = vis) := by
  intro fuel
  induction fuel with
  | zero => intro s vis r h; simp [embSub] at h
  | succ fuel ih =>
    intro s vis r h
    cases s with
    | nil =>
      simp only [embSub] at h
      obtain rfl := Option.some_inj.mp h
      constructor
      · intro out vis2 heq
        injection heq with heq2
        exact ((Prod.mk.injEq _ _ _ _).mp heq2).2.symm ▸ rfl
      · intro m vis2 heq; simp at heq
    | cons c rest =>
      simp only [embSub] at h
      split at h
      · -- c = '&'
        split at h
        case _ path rest2 hrm =>
          split at h
          case _ hv =>
            -- already visited: circular error with the set unchanged
            obtain rfl := Option.some_inj.mp h
            constructor
            · intro out vis2 heq; simp at heq
            · intro m vis2 heq
              injection heq with heq2
              exact ((Prod.mk.injEq _ _ _ _).mp heq2).2.symm ▸ rfl
          case _ hv =>
            have hvf : vis.contains path = false := by
              cases hh : vis.contains path
              · rfl
              · exact absurd hh hv
            have hrem : removeVis (addVis vis path) path = vis := removeVis_addVis hvf
            split at h
            case _ m0 hres =>
              obtain rfl := Option.some_inj.mp h
              constructor
              · intro out vis2 heq; simp at heq
              · intro m vis2 heq
                injection heq with heq2
                have h3 := ((Prod.mk.injEq _ _ _ _).mp heq2).2
                rw [← h3, hrem]
            case _ rv hres =>
              rw [hrem] at h
              split at h
              · exact absurd h (by simp)
              case _ e hsub =>
                obtain rfl := Option.some_inj.mp h
                have hprev := ih rest2 vis _ hsub
                exact ⟨by intro out vis2 heq; simp at heq, hprev.2⟩
              case _ out0 vis3 hsub =>
                obtain rfl := Option.some_inj.mp h
                have hprev := ih rest2 vis _ hsub
                constructor
                · intro out vis2 heq
                  injection heq with heq2
                  have h3 := ((Prod.mk.injEq _ _ _ _).mp heq2).2
                  exact h3 ▸ hprev.1 out0 vis3 rfl
                · intro m vis2 heq; simp at heq
        case _ hrm =>
          split at h
          · exact absurd h (by simp)
          case _ e hsub =>
            obtain rfl := Option.some_inj.mp h
            have hprev := ih rest vis _ hsub
            exact ⟨by intro out vis2 heq; simp at heq, hprev.2⟩
          case _ out0 vis3 hsub =>
            obtain rfl := Option.some_inj.mp h
            have hprev := ih rest vis _ hsub
            constructor
            · intro out vis2 heq
              injection heq with heq2
              have h3 := ((Prod.mk.injEq _ _ _ _).mp heq2).2
              exact h3 ▸ hprev.1 out0 vis3 rfl
            · intro m vis2 heq; simp at heq
      · -- plain character
        split at h
        · exact absurd h (by simp)
        case _ e hsub =>
          obtain rfl := Option.some_inj.mp h
          have hprev := ih rest vis _ hsub
          exact ⟨by intro out vis2 heq; simp at heq, hprev.2⟩
        case _ out0 vis3 hsub =>
          obtain rfl := Option.some_inj.mp h
          have hprev := ih rest vis _ hsub
          constructor
          · intro out vis2 heq
            injection heq with heq2
            have h3 := ((Prod.mk.injEq _ _ _ _).mp heq2).2
            exact h3 ▸ hprev.1 out0 vis3 rfl
          · intro m vis2 heq; simp at heq

theorem resolveRefsF_ok_preserves (data : PyDict) :
    ∀ (fuel : Nat) (v : Value) (vis : List Str) (rv : Value) (vis2 : List Str),
      resolveRefsF data fuel v vis = some (.ok (rv, vis2)) → vis2 = vis := by
  intro fuel
  induction fuel with
  | zero => intro v vis rv vis2 h; simp [resolveRefsF] at h
  | succ fuel ih =>
    intro v vis rv vis2 h
    cases v with
    | str s =>
      simp only [resolveRefsF] at h
      split at h
      · -- whole-value reference
        split at h
        case _ hv =>
          simp at h
        case _ hv =>
          have hvf : (List.drop 1 s) ∉ vis → True := fun _ => trivial
          have hcf : vis.contains (List.drop 1 s) = false := by
            cases hh : vis.contains (List.drop 1 s)
            · rfl
            · exact absurd hh hv
          split at h
          case _ m0 hres => simp at h
          case _ rv0 hres =>
            split at h
            · exact absurd h (by simp)
            case _ e hsub => simp at h
            case _ res vism hsub =>
              obtain rfl := Option.some_inj.mp h |> Except.ok.inj |>
                (fun hh => ((Prod.mk.injEq _ _ _ _).mp hh).2)
              have hmid : vism = addVis vis (List.drop 1 s) := ih _ _ _ _ hsub
              rw [hmid]
              exact removeVis_addVis hcf
      · -- embedded or plain string
        split at h
        · -- contains '&': embedded substitution
          split at h
          · exact absurd h (by simp)
          case _ e hsub => simp at h
          case _ out vis3 hsub =>
            obtain rfl := Option.some_inj.mp h |> Except.ok.inj |>
              (fun hh => ((Prod.mk.injEq _ _ _ _).mp hh).2)
            exact (embSub_preserves data fuel s vis _ hsub).1 out vis3 rfl
        · -- plain string
          obtain rfl := Option.some_inj.mp h |> Except.ok.inj |>
            (fun hh => ((Prod.mk.injEq _ _ _ _).mp hh).2)
          rfl
    | dict entries =>
      cases entries with
      | nil =>
        simp only [resolveRefsF] at h
        obtain rfl := Option.some_inj.mp h |> Except.ok.inj |>
          (fun hh => ((Prod.mk.injEq _ _ _ _).mp hh).2)
        rfl
      | cons kv rest =>
        obtain ⟨k, val⟩ := kv
        simp only [resolveRefsF] at h
        split at h
        · exact absurd h (by simp)
        case _ e hsub1 => simp at h
        case _ rv1 vis1 hsub1 =>
          have h1 : vis1 = vis := ih _ _ _ _ hsub1
          split at h
          · exact absurd h (by simp)
          case _ e hsub2 => simp at h
          case _ restv vis2b hsub2 =>
            have h2 : vis2b = vis1 := ih _ _ _ _ hsub2
            obtain rfl := Option.some_inj.mp h |> Except.ok.inj |>
              (fun hh => ((Prod.mk.injEq _ _ _ _).mp hh).2)
            rw [h2, h1]
          next fst2 vis2b hside hsub2 =>
            have h2 : vis2b = vis1 := ih _ _ _ _ hsub2
            obtain rfl := Option.some_inj.mp h |> Except.ok.inj |>
              (fun hh => ((Prod.mk.injEq _ _ _ _).mp hh).2)
            rw [h2, h1]
    | list items =>
      cases items with
      | nil =>
        simp only [resolveRefsF] at h
        obtain rfl := Option.some_inj.mp h |> Except.ok.inj |>
          (fun hh => ((Prod.mk.injEq _ _ _ _).mp hh).2)
        rfl
      | cons x rest =>
        simp only [resolveRefsF] at h
        split at h
        · exact absurd h (by simp)
        case _ e hsub1 => simp at h
        case _ rx vis1 hsub1 =>
          have h1 : vis1 = vis := ih _ _ _ _ hsub1
          split at h
          · exact absurd h (by simp)
          case _ e hsub2 => simp at h
          case _ restv vis2b hsub2 =>
            have h2 : vis2b = vis1 := ih _ _ _ _ hsub2
            obtain rfl := Option.some_inj.mp h |> Except.ok.inj |>
              (fun hh => ((Prod.mk.injEq _ _ _ _).mp hh).2)
            rw [h2, h1]
          next fst2 vis2b hside hsub2 =>
            have h2 : vis2b = vis1 := ih _ _ _ _ hsub2
            obtain rfl := Option.some_inj.mp h |> Except.ok.inj |>
              (fun hh => ((Prod.mk.injEq _ _ _ _).mp hh).2)
            rw [h2, h1]
    | int n =>
      simp only [resolveRefsF] at h
      obtain rfl := Option.some_inj.mp h |> Except.ok.inj |>
        (fun hh => ((Prod.mk.injEq _ _ _ _).mp hh).2)
      rfl
    | float q =>
      simp only [resolveRefsF] at h
      obtain rfl := Option.some_inj.mp h |> Except.ok.inj |>
        (fun hh => ((Prod.mk.injEq _ _ _ _).mp hh).2)
      rfl
    | bool b =>
      simp only [resolveRefsF] at h
      obtain rfl := Option.some_inj.mp h |> Except.ok.inj |>
        (fun hh => ((Prod.mk.injEq _ _ _ _).mp hh).2)
      rfl
    | null =>
      simp only [resolveRefsF] at h
      obtain rfl := Option.some_inj.mp h |> Except.ok.inj |>
        (fun hh => ((Prod.mk.injEq _ _ _ _).mp hh).2)
      rfl

/-- C2 (amended): cycle detection — resolving a whole-value reference
checks the visiting set first and fails with "Circular reference detected:
{path}" when the path is already being visited; the path is pushed before
resolving and removed on the normal return, so every successful resolution
returns the visiting set unchanged; embedded-reference substitution also
removes the path on its exception path (the `except` handler's `discard`),
so a failing embedded resolution returns the set unchanged; but a failing
whole-value resolution propagates with the path still in the set (no
`try/finally` there).  The document `a; string: &b` / `b; string: &a`
(unquoted values, i.e. whole-value references) fails with the
circular-reference error naming the path `b` of the cycle; the quoted
variant of the document is embedded-substituted instead (see the
counterexample). -/
theorem c2_cycle_detection :
    parse_tacl_content ("a; string: &b\nb; string: &a".toList)
      = some (.error (.ref ("Line 1: Circular reference detected: b".toList))) ∧
    (∀ (data : PyDict) (fuel : Nat) (p : Str) (vis : List Str), vis.contains p = true →
      resolveRefsF data (fuel + 1) (.str ('&' :: p)) vis
        = some (.error (circMsg p, vis))) ∧
    (∀ (data : PyDict) (fuel : Nat) (v : Value) (vis : List Str) (rv : Value) (vis2 : List Str),
      resolveRefsF data fuel v vis = some (.ok (rv, vis2)) → vis2 = vis) ∧
    (∀ (data : PyDict) (fuel : Nat) (s : Str) (vis : List Str) (m : Str) (vis2 : List Str),
      embSub data fuel s vis = some (.error (m, vis2)) → vis2 = vis) ∧
    resolveRefsF [] 9 (.str ("&missing".toList)) []
      = some (.error (propMissingMsg ("missing".toList) ("missing".toList),
          [("missing".toList)])) := by
  refine ⟨rfl, ?_, ?_, ?_, rfl⟩
  · intro data fuel p vis h
    simp [resolveRefsF, pyStartsWith, h]
    intro hn
    exact absurd (mem_of_contains_true h) hn
  · intro data fuel v vis rv vis2 h
    exact resolveRefsF_ok_preserves data fuel v vis rv vis2 h
  · intro data fuel s vis m vis2 h
    exact (embSub_preserves data fuel s vis _ h).2 m vis2 rfl

/-- Witness for the quantified parts of C2 at concrete inputs: a path
already in the visiting set fails immediately with the set unchanged, and
a successful resolution returns the set it was given. -/
theorem c2_cycle_detection_witness :
    resolveRefsF [] 1 (.str ("&x".toList)) [("x".toList)]
      = some (.error (circMsg ("x".toList), [("x".toList)])) ∧
    ([("y".toList)] : List Str) = [("y".toList)] := by
  constructor
  · exact c2_cycle_detection.2.1 [] 0 ("x".toList) [("x".toList)] rfl
  · exact c2_cycle_detection.2.2.1 [(("a".toList), .int 1)] 3 (.str ("&a".toList))
      [("y".toList)] (.int 1) [("y".toList)] rfl

/-- Counterexample to C2 as stated: the claim's document
`a; string: "&b"` / `b; string: "&a"` does **not** fail with a
circular-reference error — the quoted values are ordinary strings whose
embedded references are substituted one level without recursion or cycle
tracking across fields, so parsing succeeds and produces quote-doubled
strings. -/
theorem c2_counterexample :
    parse_tacl_content ("a; string: \"&b\"\nb; string: \"&a\"".toList)
      = some (.ok [(("a".toList), .str ("\"\"&a\"\"".toList)),
                   (("b".toList), .str ("\"\"\"&a\"\"\"".toList))]) := rfl

/-! ### Claim C6 -/

theorem takeWhile_all {pr : Char → Bool} :
    ∀ l : Str, (∀ c ∈ l, pr c = true) → l.takeWhile pr = l := by
  intro l
  induction l with
  | nil => intro _; rfl
  | cons c rest ih =>
    intro h
    have h1 : pr c = true := h c (by simp)
    have h2 := ih (fun d hd => h d (by simp [hd]))
    simp [List.takeWhile_cons, h1, h2]

theorem takeWhile_all_append {pr : Char → Bool} {xs : Str} {y : Char} {ys : Str}
    (hall : ∀ c ∈ xs, pr c = true) (hy : pr y = false) :
    (xs ++ y :: ys).takeWhile pr = xs := by
  induction xs with
  | nil => simp [List.takeWhile_cons, hy]
  | cons c rest ih =>
    have h1 : pr c = true := hall c (by simp)
    have h2 := ih (fun d hd => hall d (by simp [hd]))
    simp [List.takeWhile_cons, h1, h2]

theorem dropWhile_all_append {pr : Char → Bool} {xs : Str} {y : Char} {ys : Str}
    (hall : ∀ c ∈ xs, pr c = true) (hy : pr y = false) :
    (xs ++ y :: ys).dropWhile pr = y :: ys := by
  induction xs with
  | nil => simp [List.dropWhile_cons, hy]
  | cons c rest ih =>
    have h1 : pr c = true := hall c (by simp)
    have h2 := ih (fun d hd => hall d (by simp [hd]))
    simp [List.dropWhile_cons, h1, h2]

theorem dropWhile_all_false {pr : Char → Bool} :
    ∀ l : Str, (∀ c ∈ l, pr c = false) → l.dropWhile pr = l := by
  intro l
  induction l with
  | nil => intro _; rfl
  | cons c rest ih =>
    intro h
    simp [List.dropWhile_cons, h c (by simp)]

theorem drop_length_takeWhile {pr : Char → Bool} :
    ∀ l : Str, l.drop (l.takeWhile pr).length = l.dropWhile pr := by
  intro l
  induction l with
  | nil => rfl
  | cons c rest ih =>
    by_cases h : pr c = true
    · simp [List.takeWhile_cons, List.dropWhile_cons, h, ih]
    · simp [List.takeWhile_cons, List.dropWhile_cons, h]

theorem mem_takeWhile_pred {pr : Char → Bool} :
    ∀ l : Str, ∀ c ∈ l.takeWhile pr, pr c = true := by
  intro l
  induction l with
  | nil => intro c hc; simp at hc
  | cons d rest ih =>
    intro c hc
    by_cases h : pr d = true
    · simp only [List.takeWhile_cons, h, if_true, List.mem_cons] at hc
      rcases hc with rfl | hc2
      · exact h
      · exact ih c hc2
    · simp only [List.takeWhile_cons, h, if_false] at hc
      simp at hc

theorem starts_cons {c : Char} {l : Str} (h : pyStartsWith [c] l = true) :
    ∃ t, l = c :: t := by
  cases l with
  | nil => simp [pyStartsWith] at h
  | cons d t =>
    simp only [pyStartsWith, Bool.and_eq_true, decide_eq_true_eq] at h
    exact ⟨t, by rw [h.1]⟩

theorem ends_concat {c : Char} {l : Str} (h : pyEndsWith [c] l = true) :
    ∃ t, l = t ++ [c] := by
  simp only [pyEndsWith, List.reverse_cons, List.reverse_nil, List.nil_append] at h
  obtain ⟨t, ht⟩ := starts_cons h
  refine ⟨t.reverse, ?_⟩
  have := congrArg List.reverse ht
  simpa using this

theorem ends_concat_self (c : Char) (t : Str) : pyEndsWith [c] (t ++ [c]) = true := by
  simp only [pyEndsWith, List.reverse_append, List.reverse_cons, List.reverse_nil,
    List.nil_append, List.singleton_append, pyStartsWith]
  simp

theorem digit_not_space {c : Char} (h : isDigitCh c = true) : pyIsSpace c = false := by
  by_contra hs
  have hs2 : pyIsSpace c = true := by
    cases hp : pyIsSpace c
    · exact absurd hp hs
    · rfl
  simp only [pyIsSpace, Bool.or_eq_true, decide_eq_true_eq] at hs2
  rcases hs2 with ((((h1 | h1) | h1) | h1) | h1) | h1 <;> subst h1 <;> simp [isDigitCh] at h

theorem strip_of_all_nonspace {l : Str} (h : ∀ c ∈ l, pyIsSpace c = false) :
    pyStrip l = l := by
  simp only [pyStrip]
  rw [dropWhile_all_false l h,
    dropWhile_all_false l.reverse (fun c hc => h c (by simpa using hc)),
    List.reverse_reverse]

theorem digitsToNat_nonneg (ds : Str) (acc : Nat) : 0 ≤ (digitsToNat ds acc : Int) := by
  exact Int.ofNat_nonneg _

theorem pyParseInt_digits {ds : Str} (hne : ds ≠ [])
    (hall : ∀ c ∈ ds, isDigitCh c = true) :
    pyParseInt ds = some ((digitsToNat ds 0 : Nat) : Int) := by
  have hstrip : pyStrip ds = ds :=
    strip_of_all_nonspace (fun c hc => digit_not_space (hall c hc))
  simp only [pyParseInt, hstrip]
  split
  case _ =>
    have := hall '+' (by simp)
    simp [isDigitCh] at this
  case _ =>
    have := hall '-' (by simp)
    simp [isDigitCh] at this
  case _ h1 h2 =>
    rw [if_pos]
    simp only [Bool.and_eq_true, decide_eq_true_eq]
    exact ⟨hne, List.all_eq_true.mpr (fun c hc => hall c hc)⟩


theorem char_contains_false {c : Char} {l : Str} (h : ∀ d ∈ l, d ≠ c) :
    pyContains l c = false := by
  induction l with
  | nil => rfl
  | cons d rest ih =>
    have h1 : (c == d) = false := beq_eq_false_iff_ne.mpr (fun hh => (h d (by simp)) hh.symm)
    have h2 := ih (fun e he => h e (by simp [he]))
    simp only [pyContains, List.contains_cons, h1, Bool.false_or]
    simpa [pyContains] using h2

theorem char_contains_append (name : Str) (c : Char) (X : Str) :
    pyContains (name ++ c :: X) c = true := by
  induction name with
  | nil => simp [pyContains, List.contains_cons]
  | cons d rest ih =>
    simp only [List.cons_append, pyContains, List.contains_cons]
    have h2 : (rest ++ c :: X).contains c = true := ih
    simp [h2]

theorem segSingle_cases {seg : Str} (h : segSingle seg = true) :
    (pyIsIdentifier seg = true ∧ ∀ c ∈ seg, c ≠ '[') ∨
    (∃ name ds, seg = name ++ '[' :: (ds ++ [']']) ∧ pyIsIdentifier name = true ∧
      ds ≠ [] ∧ (∀ c ∈ ds, isDigitCh c = true) ∧ (∀ c ∈ name, c ≠ '[')) := by
  simp only [segSingle, Bool.and_eq_true, Bool.or_eq_true] at h
  obtain ⟨hid, hrest⟩ := h
  have hsplit : seg.takeWhile (fun c => c ≠ '[') ++ seg.dropWhile (fun c => c ≠ '[') = seg :=
    List.takeWhile_append_dropWhile _ seg
  have hdrop : seg.drop (seg.takeWhile (fun c => c ≠ '[')).length =
      seg.dropWhile (fun c => c ≠ '[') := drop_length_takeWhile seg
  have hname : ∀ c ∈ seg.takeWhile (fun c => c ≠ '['), c ≠ '[' := fun c hc => by
    have := mem_takeWhile_pred seg c hc
    simpa using this
  rcases hrest with hlen | hbr
  · left
    have h0 : seg.dropWhile (fun c => c ≠ '[') = [] := by
      rw [← hdrop]
      have h1 : (seg.drop (seg.takeWhile (fun c => c ≠ '[')).length).length = 0 := by
        simpa using hlen
      exact List.eq_nil_of_length_eq_zero h1
    have hseg : seg = seg.takeWhile (fun c => c ≠ '[') := by
      conv_lhs => rw [← hsplit]
      rw [h0, List.append_nil]
    refine ⟨by rw [hseg]; exact hid, fun c hc => hname c (hseg ▸ hc)⟩
  · right
    rw [hdrop] at hbr
    obtain ⟨⟨⟨hst, hen⟩, hlen2⟩, hdig⟩ := hbr
    obtain ⟨t, ht⟩ := starts_cons hst
    obtain ⟨t2, ht2⟩ := ends_concat hen
    have hcomb : '[' :: t = t2 ++ [']'] := by rw [← ht, ← ht2]
    cases t2 with
    | nil =>
      simp only [List.nil_append] at hcomb
      exact absurd (List.head_eq_of_cons_eq hcomb) (by decide)
    | cons a t3 =>
      simp only [List.cons_append] at hcomb
      have ha : a = '[' := (List.head_eq_of_cons_eq hcomb).symm
      have ht4 : t = t3 ++ [']'] := List.tail_eq_of_cons_eq hcomb
      refine ⟨seg.takeWhile (fun c => c ≠ '['), t3, ?_, hid, ?_, ?_, hname⟩
      · conv_lhs => rw [← hsplit]
        rw [ht, ht4]
      · rw [ht, ht4] at hlen2
        have h5 : (((('[' :: (t3 ++ [']'])).drop 1).dropLast).length > 0) := by simpa using hlen2
        simp only [List.drop_succ_cons, List.drop_zero, List.dropLast_concat] at h5
        intro h6
        rw [h6] at h5
        simp at h5
      · rw [ht, ht4] at hdig
        have h5 : ((('[' :: (t3 ++ [']'])).drop 1).dropLast).all isDigitCh = true := by
          simpa using hdig
        simp only [List.drop_succ_cons, List.drop_zero, List.dropLast_concat] at h5
        exact fun c hc => List.all_eq_true.mp h5 c hc

theorem idxListF_nil {f : Nat} (h : f ≠ 0) : idxListF f [] = some [] := by
  cases f with
  | zero => exact absurd rfl h
  | succ k => rfl

theorem idxListF_one {ds : Str} (hne : ds ≠ []) (hds : ∀ c ∈ ds, isDigitCh c = true)
    {g : Nat} (hg : g ≠ 0) :
    idxListF (g + 1) ('[' :: (ds ++ [']'])) = some [digitsToNat ds 0] := by
  have htw : (ds ++ ']' :: []).takeWhile isDigitCh = ds := takeWhile_all_append hds (by decide)
  have hdw : (ds ++ ']' :: []).dropWhile isDigitCh = ']' :: [] := dropWhile_all_append hds (by decide)
  have hlen : ¬ ds.length = 0 := by
    cases ds with
    | nil => exact absurd rfl hne
    | cons a t => simp
  simp only [idxListF, htw, hdw, if_neg hlen, idxListF_nil hg]

theorem claimSeg_plain {seg : Str} (hnb : ∀ c ∈ seg, c ≠ '[') (cur : Value) :
    claimSegResolve cur seg = (match cur with
      | Value.dict entries => lookupA entries seg
      | _ => none) := by
  have htw : seg.takeWhile (fun c => c ≠ '[') = seg :=
    takeWhile_all seg (fun c hc => by simpa using hnb c hc)
  simp only [claimSegResolve, htw, List.drop_length, idxListF_nil (Nat.succ_ne_zero seg.length)]
  cases cur with
  | dict entries =>
    cases hlook : lookupA entries seg with
    | none => simp [hlook]
    | some v0 => simp [hlook]
  | str s => rfl
  | int n => rfl
  | float q => rfl
  | bool b => rfl
  | null => rfl
  | list items => rfl

theorem claimFold_none : ∀ (segs : List Str),
    segs.foldl (fun acc seg => match acc with
      | none => none
      | some cur => claimSegResolve cur seg) none = none := by
  intro segs
  induction segs with
  | nil => rfl
  | cons s rest ih =>
    rw [List.foldl_cons]
    exact ih

theorem seg_step_sim {seg : Str} (hseg : segSingle seg = true) (cur : Value)
    (refPath : Str) (rest : List Str) :
    (∀ nxt, claimSegResolve cur seg = some nxt →
      resolveRefSegs refPath (seg :: rest) cur = resolveRefSegs refPath rest nxt) ∧
    (claimSegResolve cur seg = none →
      ∃ e, resolveRefSegs refPath (seg :: rest) cur = .error e) := by
  rcases segSingle_cases hseg with ⟨hid, hnb⟩ |
    ⟨name, ds, hdecomp, hidname, hdsne, hdsdig, hnbname⟩
  · -- plain identifier segment
    have hcont : pyContains seg '[' = false := char_contains_false hnb
    have hclaim := claimSeg_plain hnb
    constructor
    · intro nxt hnxt
      rw [hclaim cur] at hnxt
      cases cur with
      | dict entries =>
        have hnxt2 : lookupA entries seg = some nxt := hnxt
        simp [resolveRefSegs, hcont, hnxt2]
      | str s => exact Option.noConfusion hnxt
      | int n => exact Option.noConfusion hnxt
      | float q => exact Option.noConfusion hnxt
      | bool b => exact Option.noConfusion hnxt
      | null => exact Option.noConfusion hnxt
      | list items => exact Option.noConfusion hnxt
    · intro h0
      rw [hclaim cur] at h0
      cases cur with
      | dict entries =>
        have h02 : lookupA entries seg = none := h0
        exact ⟨propMissingMsg seg refPath, by simp [resolveRefSegs, hcont, h02]⟩
      | str s => exact ⟨propMissingMsg seg refPath, by simp [resolveRefSegs, hcont]⟩
      | int n => exact ⟨propMissingMsg seg refPath, by simp [resolveRefSegs, hcont]⟩
      | float q => exact ⟨propMissingMsg seg refPath, by simp [resolveRefSegs, hcont]⟩
      | bool b => exact ⟨propMissingMsg seg refPath, by simp [resolveRefSegs, hcont]⟩
      | null => exact ⟨propMissingMsg seg refPath, by simp [resolveRefSegs, hcont]⟩
      | list items => exact ⟨propMissingMsg seg refPath, by simp [resolveRefSegs, hcont]⟩
  · -- single trailing index segment
    subst hdecomp
    have hcont : pyContains (name ++ '[' :: (ds ++ [']'])) '[' = true :=
      char_contains_append name '[' (ds ++ [']'])
    have hend : pyEndsWith ("]".toList) (name ++ '[' :: (ds ++ [']'])) = true := by
      have h2 : name ++ '[' :: (ds ++ [']']) = (name ++ '[' :: ds) ++ [']'] := by simp
      rw [h2]
      exact ends_concat_self ']' (name ++ '[' :: ds)
    have htw : (name ++ '[' :: (ds ++ [']'])).takeWhile (fun c => c ≠ '[') = name :=
      takeWhile_all_append (fun c hc => by simpa using hnbname c hc) (by decide)
    have hdropN : (name ++ '[' :: (ds ++ [']'])).drop name.length = '[' :: (ds ++ [']']) :=
      List.drop_left name ('[' :: (ds ++ [']']))
    have hidx : idxListF ((name ++ '[' :: (ds ++ [']'])).length + 1) ('[' :: (ds ++ [']'])) =
        some [digitsToNat ds 0] := by
      have hlen : (name ++ '[' :: (ds ++ [']'])).length = (name.length + ds.length + 1) + 1 := by
        simp [List.length_append]
        omega
      rw [hlen]
      exact idxListF_one hdsne hdsdig (by omega)
    have hidxstr : (((name ++ '[' :: (ds ++ [']'])).drop (name.length + 1)).dropLast) = ds := by
      have h1 : (name ++ '[' :: (ds ++ [']'])).drop (name.length + 1) = ds ++ [']'] := by
        have h2 : name ++ '[' :: (ds ++ [']']) = (name ++ ['[']) ++ (ds ++ [']']) := by simp
        rw [h2]
        have hl : (name ++ ['[']).length = name.length + 1 := by simp
        rw [← hl, List.drop_left]
      rw [h1, List.dropLast_concat]
    have hpi : pyParseInt ds = some ((digitsToNat ds 0 : Nat) : Int) :=
      pyParseInt_digits hdsne hdsdig
    have hneg : ¬ (((digitsToNat ds 0 : Nat) : Int) < 0) := by omega
    have htn : (((digitsToNat ds 0 : Nat) : Int)).toNat = digitsToNat ds 0 := Int.toNat_natCast _
    have hclaimB : claimSegResolve cur (name ++ '[' :: (ds ++ [']'])) = (match cur with
        | Value.dict entries =>
          (match lookupA entries name with
            | some (Value.list items) => items.get? (digitsToNat ds 0)
            | some _ => none
            | none => none)
        | _ => none) := by
      cases cur with
      | dict entries =>
        simp only [claimSegResolve, htw, hdropN, hidx]
        show _ = (match lookupA entries name with
          | some (Value.list items) => items.get? (digitsToNat ds 0)
          | some _ => none
          | none => none)
        cases hlook : lookupA entries name with
        | none => rfl
        | some v0 => cases v0 <;> rfl
      | str s => simp only [claimSegResolve, htw, hdropN, hidx]
      | int n => simp only [claimSegResolve, htw, hdropN, hidx]
      | float q => simp only [claimSegResolve, htw, hdropN, hidx]
      | bool b => simp only [claimSegResolve, htw, hdropN, hidx]
      | null => simp only [claimSegResolve, htw, hdropN, hidx]
      | list items => simp only [claimSegResolve, htw, hdropN, hidx]
    constructor
    · intro nxt hnxt
      rw [hclaimB] at hnxt
      cases cur with
      | dict entries =>
        have hn2 : (match lookupA entries name with
            | some (Value.list items) => items.get? (digitsToNat ds 0)
            | some _ => none
            | none => none) = some nxt := hnxt
        cases hlook : lookupA entries name with
        | none => rw [hlook] at hn2; exact Option.noConfusion hn2
        | some v0 =>
          rw [hlook] at hn2
          cases v0 with
          | list items =>
            have hn3 : items.get? (digitsToNat ds 0) = some nxt := hn2
            simp only [resolveRefSegs, hcont, hend, Bool.and_self, eq_self_iff_true, if_true,
              htw, hidxstr, hpi, if_neg hneg, hlook, htn, hn3]
          | str s => exact Option.noConfusion hn2
          | int n => exact Option.noConfusion hn2
          | float q => exact Option.noConfusion hn2
          | bool b => exact Option.noConfusion hn2
          | null => exact Option.noConfusion hn2
          | dict d2 => exact Option.noConfusion hn2
      | str s => exact Option.noConfusion hnxt
      | int n => exact Option.noConfusion hnxt
      | float q => exact Option.noConfusion hnxt
      | bool b => exact Option.noConfusion hnxt
      | null => exact Option.noConfusion hnxt
      | list items => exact Option.noConfusion hnxt
    · intro h0
      rw [hclaimB] at h0
      cases cur with
      | dict entries =>
        have h02 : (match lookupA entries name with
            | some (Value.list items) => items.get? (digitsToNat ds 0)
            | some _ => none
            | none => none) = none := h0
        cases hlook : lookupA entries name with
        | none =>
          refine ⟨arrMissingMsg name refPath, ?_⟩
          simp only [resolveRefSegs, hcont, hend, Bool.and_self, eq_self_iff_true, if_true,
            htw, hidxstr, hpi, if_neg hneg, hlook, htn]
        | some v0 =>
          rw [hlook] at h02
          cases v0 with
          | list items =>
            have hget : items.get? (digitsToNat ds 0) = none := h02
            refine ⟨oobMsg ((digitsToNat ds 0 : Nat) : Int) refPath, ?_⟩
            simp only [resolveRefSegs, hcont, hend, Bool.and_self, eq_self_iff_true, if_true,
              htw, hidxstr, hpi, if_neg hneg, hlook, htn, hget]
          | str s =>
            exact ⟨notArrayMsg name refPath, by
              simp only [resolveRefSegs, hcont, hend, Bool.and_self, eq_self_iff_true, if_true,
                htw, hidxstr, hpi, if_neg hneg, hlook, htn]⟩
          | int n =>
            exact ⟨notArrayMsg name refPath, by
              simp only [resolveRefSegs, hcont, hend, Bool.and_self, eq_self_iff_true, if_true,
                htw, hidxstr, hpi, if_neg hneg, hlook, htn]⟩
          | float q =>
            exact ⟨notArrayMsg name refPath, by
              simp only [resolveRefSegs, hcont, hend, Bool.and_self, eq_self_iff_true, if_true,
                htw, hidxstr, hpi, if_neg hneg, hlook, htn]⟩
          | bool b =>
            exact ⟨notArrayMsg name refPath, by
              simp only [resolveRefSegs, hcont, hend, Bool.and_self, eq_self_iff_true, if_true,
                htw, hidxstr, hpi, if_neg hneg, hlook, htn]⟩
          | null =>
            exact ⟨notArrayMsg name refPath, by
              simp only [resolveRefSegs, hcont, hend, Bool.and_self, eq_self_iff_true, if_true,
                htw, hidxstr, hpi, if_neg hneg, hlook, htn]⟩
          | dict d2 =>
            exact ⟨notArrayMsg name refPath, by
              simp only [resolveRefSegs, hcont, hend, Bool.and_self, eq_self_iff_true, if_true,
                htw, hidxstr, hpi, if_neg hneg, hlook, htn]⟩
      | str s =>
        exact ⟨arrMissingMsg name refPath, by
          simp only [resolveRefSegs, hcont, hend, Bool.and_self, eq_self_iff_true, if_true,
            htw, hidxstr, hpi, if_neg hneg, htn]⟩
      | int n =>
        exact ⟨arrMissingMsg name refPath, by
          simp only [resolveRefSegs, hcont, hend, Bool.and_self, eq_self_iff_true, if_true,
            htw, hidxstr, hpi, if_neg hneg, htn]⟩
      | float q =>
        exact ⟨arrMissingMsg name refPath, by
          simp only [resolveRefSegs, hcont, hend, Bool.and_self, eq_self_iff_true, if_true,
            htw, hidxstr, hpi, if_neg hneg, htn]⟩
      | bool b =>
        exact ⟨arrMissingMsg name refPath, by
          simp only [resolveRefSegs, hcont, hend, Bool.and_self, eq_self_iff_true, if_true,
            htw, hidxstr, hpi, if_neg hneg, htn]⟩
      | null =>
        exact ⟨arrMissingMsg name refPath, by
          simp only [resolveRefSegs, hcont, hend, Bool.and_self, eq_self_iff_true, if_true,
            htw, hidxstr, hpi, if_neg hneg, htn]⟩
      | list items =>
        exact ⟨arrMissingMsg name refPath, by
          simp only [resolveRefSegs, hcont, hend, Bool.and_self, eq_self_iff_true, if_true,
            htw, hidxstr, hpi, if_neg hneg, htn]⟩


theorem segsResolve_claim :
    ∀ (parts : List Str), (∀ seg ∈ parts, segSingle seg = true) →
      ∀ (cur : Value) (refPath : Str) (v : Value),
        (resolveRefSegs refPath parts cur = .ok v ↔
          parts.foldl (fun acc seg => match acc with
            | none => none
            | some c => claimSegResolve c seg) (some cur) = some v) := by
  intro parts
  induction parts with
  | nil =>
    intro _ cur refPath v
    simp [resolveRefSegs]
  | cons seg rest ih =>
    intro hall cur refPath v
    have hseg : segSingle seg = true := hall seg (List.mem_cons_self seg rest)
    have hrest : ∀ s ∈ rest, segSingle s = true := fun s hs => hall s (List.mem_cons_of_mem _ hs)
    obtain ⟨hok, herr⟩ := seg_step_sim hseg cur refPath rest
    cases hc : claimSegResolve cur seg with
    | some nxt =>
      rw [hok nxt hc]
      have h2 : (seg :: rest).foldl (fun acc s => match acc with
            | none => none
            | some c => claimSegResolve c s) (some cur)
          = rest.foldl (fun acc s => match acc with
            | none => none
            | some c => claimSegResolve c s) (some nxt) := by
        rw [List.foldl_cons]
        show rest.foldl _ (claimSegResolve cur seg) = _
        rw [hc]
      rw [h2]
      exact ih hrest nxt refPath v
    | none =>
      obtain ⟨e, he⟩ := herr hc
      rw [he]
      have h2 : (seg :: rest).foldl (fun acc s => match acc with
            | none => none
            | some c => claimSegResolve c s) (some cur) = none := by
        rw [List.foldl_cons]
        show rest.foldl _ (claimSegResolve cur seg) = none
        rw [hc]
        exact claimFold_none rest
      rw [h2]
      constructor
      · intro h3; exact Except.noConfusion h3
      · intro h3; exact Option.noConfusion h3

theorem resolve_claim_iff (path : Str) (data : PyDict) (hp : pathSingle path = true)
    (v : Value) :
    resolve_reference path data = .ok v ↔ claimResolve path data = some v := by
  have hall : ∀ seg ∈ splitChar '.' path, segSingle seg = true := by
    simp only [pathSingle, List.all_eq_true] at hp
    exact hp
  exact segsResolve_claim (splitChar '.' path) hall (Value.dict data) path v

/-- C6 (amended).  On paths whose segments carry at most one trailing
bracketed index -- in particular on every path of the grammar the claim
publishes with at most one index per segment -- `resolve_reference`
succeeds exactly as the claimed walk does (dot-split, mapping lookup on
the bare name, bounds-checked sequence indexing), with the same value,
and raises a reference error exactly when that walk fails; concretely,
`servers[1].port` resolves through a list of mappings to `8080`, and a
plain dotted path walks nested mappings. -/
theorem c6_reference_paths :
    (∀ (path : Str) (data : PyDict), pathSingle path = true →
      ∀ v : Value, (resolve_reference path data = .ok v ↔ claimResolve path data = some v)) ∧
    (∀ (path : Str) (data : PyDict), pathSingle path = true →
      ((∃ e, resolve_reference path data = .error e) ↔ claimResolve path data = none)) ∧
    resolve_reference ("servers[1].port".toList)
      [(("servers".toList), Value.list
        [Value.dict [(("port".toList), Value.int 80)],
         Value.dict [(("port".toList), Value.int 8080)]])]
      = .ok (Value.int 8080) ∧
    resolve_reference ("a.b".toList)
      [(("a".toList), Value.dict [(("b".toList), Value.int 5)])] = .ok (Value.int 5) := by
  refine ⟨resolve_claim_iff, ?_, rfl, rfl⟩
  intro path data hp
  constructor
  · rintro ⟨e, he⟩
    cases hc : claimResolve path data with
    | none => rfl
    | some v =>
      have h2 := (resolve_claim_iff path data hp v).mpr hc
      rw [he] at h2
      exact Except.noConfusion h2
  · intro hc
    cases hr : resolve_reference path data with
    | error e => exact ⟨e, rfl⟩
    | ok v =>
      have h2 := (resolve_claim_iff path data hp v).mp hr
      rw [hc] at h2
      exact Option.noConfusion h2

/-- Witness for C6: the amended equivalence applied to the concrete path
`servers[1]` over a two-element list, where both sides yield the second
element. -/
theorem c6_reference_paths_witness :
    pathSingle ("servers[1]".toList) = true ∧
    (resolve_reference ("servers[1]".toList)
        [(("servers".toList), Value.list [Value.str ("a".toList), Value.str ("b".toList)])]
        = .ok (Value.str ("b".toList)) ↔
      claimResolve ("servers[1]".toList)
        [(("servers".toList), Value.list [Value.str ("a".toList), Value.str ("b".toList)])]
        = some (Value.str ("b".toList))) :=
  ⟨rfl, c6_reference_paths.1 ("servers[1]".toList)
    [(("servers".toList), Value.list [Value.str ("a".toList), Value.str ("b".toList)])]
    rfl (Value.str ("b".toList))⟩

/-- Counterexample to C6 as stated: `name[0][1]` is in the claim's
published grammar and its claimed walk reaches the nested element `20`,
but the code concatenates everything between the first `[` and the final
`]` into one index string (`0][1`), fails `int()`, and raises
`Invalid array index in reference: name[0][1]` instead of resolving. -/
theorem c6_counterexample :
    claimPathOk ("name[0][1]".toList) = true ∧
    claimResolve ("name[0][1]".toList)
      [(("name".toList), Value.list [Value.list [Value.int 10, Value.int 20]])]
      = some (Value.int 20) ∧
    resolve_reference ("name[0][1]".toList)
      [(("name".toList), Value.list [Value.list [Value.int 10, Value.int 20]])]
      = .error (badIndexMsg ("name[0][1]".toList)) :=
  ⟨rfl, rfl, rfl⟩


theorem lookup_setKey_same {α : Type} (t : List (Str × α)) (k : Str) (v : α) :
    lookupA (setKey t k v) k = some v := by
  induction t with
  | nil => simp [setKey, lookupA]
  | cons p rest ih =>
    obtain ⟨k1, v1⟩ := p
    by_cases h : k1 = k
    · subst h
      simp [setKey, lookupA]
    · simp [setKey, h, lookupA, ih]

theorem lookup_setKey_ne {α : Type} (t : List (Str × α)) (k k2 : Str) (v : α)
    (h : k2 ≠ k) :
    lookupA (setKey t k v) k2 = lookupA t k2 := by
  induction t with
  | nil => simp [setKey, lookupA, Ne.symm h]
  | cons p rest ih =>
    obtain ⟨k1, v1⟩ := p
    by_cases h1 : k1 = k
    · subst h1
      simp [setKey, lookupA, Ne.symm h]
    · by_cases h2 : k1 = k2 <;> simp [setKey, lookupA, h1, h2, h, ih]

theorem secondPass_cons_ok {ct : CustomTypes} {rf vf : Nat} {f : TACLField}
    {rest : List TACLField} {table out : PyDict}
    (h : secondPass ct rf vf (f :: rest) table = some (.ok out)) :
    ∃ rv vis, resolveRefsF table rf f.value [] = some (.ok (rv, vis)) ∧
      validate_value ct vf rv f.ty f.key = some (.ok ()) ∧
      secondPass ct rf vf rest (setKey table f.key rv) = some (.ok out) := by
  simp only [secondPass] at h
  cases hres : resolveRefsF table rf f.value [] with
  | none => rw [hres] at h; exact absurd h (by simp)
  | some r1 =>
    rw [hres] at h
    cases r1 with
    | error em =>
      obtain ⟨m, vis⟩ := em
      exact absurd h (by simp)
    | ok rv1 =>
      obtain ⟨rv, vis⟩ := rv1
      have h4 : (match validate_value ct vf rv f.ty f.key with
          | none => none
          | some (Except.error e) =>
            some (Except.error (TACLError.validation (lineWrap f.line_number e)))
          | some (Except.ok a) =>
            secondPass ct rf vf rest (setKey table f.key rv)) = some (.ok out) := h
      cases hval : validate_value ct vf rv f.ty f.key with
      | none => rw [hval] at h4; exact absurd h4 (by simp)
      | some r2 =>
        rw [hval] at h4
        cases r2 with
        | error e => exact absurd h4 (by simp)
        | ok u =>
          cases u
          exact ⟨rv, vis, rfl, hval, h4⟩

theorem secondPass_preserve (ct : CustomTypes) (rf vf : Nat) :
    ∀ (fields : List TACLField) (table out : PyDict) (k : Str),
      secondPass ct rf vf fields table = some (.ok out) →
      (∀ g ∈ fields, g.key ≠ k) →
      lookupA out k = lookupA table k := by
  intro fields
  induction fields with
  | nil =>
    intro table out k h hk
    simp only [secondPass] at h
    injection h with h2
    injection h2 with h3
    rw [h3]
  | cons f rest ih =>
    intro table out k h hk
    obtain ⟨rv, vis, h1, h2, h3⟩ := secondPass_cons_ok h
    rw [ih (setKey table f.key rv) out k h3 (fun g hg => hk g (by simp [hg]))]
    exact lookup_setKey_ne table f.key k rv (fun hh => (hk f (by simp)) hh.symm)

theorem secondPass_each (ct : CustomTypes) (rf vf : Nat) :
    ∀ (fields : List TACLField) (table out : PyDict),
      secondPass ct rf vf fields table = some (.ok out) →
      ∀ f ∈ fields, ∃ tbl rv vis,
        resolveRefsF tbl rf f.value [] = some (.ok (rv, vis)) ∧
        validate_value ct vf rv f.ty f.key = some (.ok ()) := by
  intro fields
  induction fields with
  | nil =>
    intro table out h f hf
    exact absurd hf (List.not_mem_nil f)
  | cons g rest ih =>
    intro table out h f hf
    obtain ⟨rv, vis, h1, h2, h3⟩ := secondPass_cons_ok h
    rcases List.mem_cons.mp hf with rfl | hf2
    · exact ⟨table, rv, vis, h1, h2⟩
    · exact ih (setKey table g.key rv) out h3 f hf2

theorem secondPass_last (ct : CustomTypes) (rf vf : Nat) :
    ∀ (pre : List TACLField) (f : TACLField) (post : List TACLField) (table out : PyDict),
      secondPass ct rf vf (pre ++ f :: post) table = some (.ok out) →
      (∀ g ∈ post, g.key ≠ f.key) →
      ∃ tbl rv vis,
        resolveRefsF tbl rf f.value [] = some (.ok (rv, vis)) ∧
        validate_value ct vf rv f.ty f.key = some (.ok ()) ∧
        lookupA out f.key = some rv := by
  intro pre
  induction pre with
  | nil =>
    intro f post table out h hpost
    simp only [List.nil_append] at h
    obtain ⟨rv, vis, h1, h2, h3⟩ := secondPass_cons_ok h
    refine ⟨table, rv, vis, h1, h2, ?_⟩
    rw [secondPass_preserve ct rf vf post (setKey table f.key rv) out f.key h3 hpost]
    exact lookup_setKey_same table f.key rv
  | cons g pre2 ih =>
    intro f post table out h hpost
    simp only [List.cons_append] at h
    obtain ⟨rv, vis, h1, h2, h3⟩ := secondPass_cons_ok h
    exact ih f post (setKey table g.key rv) out h3 hpost

/-- C10.  Duplicate top-level keys raise no error: the second pass
processes the field list in order, so every occurrence of a key is
individually resolved and validated against its own type term, each
occurrence overwrites the table entry in place, and the entry a later
lookup sees for the key of a lexically last occurrence is that
occurrence's resolved value; concretely a document writing `a` twice
returns the second value, also when the two occurrences carry different
type annotations. -/
theorem c10_duplicate_last_wins :
    (∀ (ct : CustomTypes) (rf vf : Nat) (fields : List TACLField) (table out : PyDict),
      secondPass ct rf vf fields table = some (.ok out) →
      ∀ f ∈ fields, ∃ tbl rv vis,
        resolveRefsF tbl rf f.value [] = some (.ok (rv, vis)) ∧
        validate_value ct vf rv f.ty f.key = some (.ok ())) ∧
    (∀ (ct : CustomTypes) (rf vf : Nat) (pre : List TACLField) (f : TACLField)
        (post : List TACLField) (table out : PyDict),
      secondPass ct rf vf (pre ++ f :: post) table = some (.ok out) →
      (∀ g ∈ post, g.key ≠ f.key) →
      ∃ tbl rv vis,
        resolveRefsF tbl rf f.value [] = some (.ok (rv, vis)) ∧
        validate_value ct vf rv f.ty f.key = some (.ok ()) ∧
        lookupA out f.key = some rv) ∧
    parse_tacl_content ("a; int: 1\na; int: 2".toList)
      = some (.ok [(("a".toList), Value.int 2)]) ∧
    parse_tacl_content ("a; int: 1\na; string: \"x\"".toList)
      = some (.ok [(("a".toList), Value.str ("x".toList))]) :=
  ⟨secondPass_each, secondPass_last, rfl, rfl⟩

/-- Witness for C10: the last-occurrence statement applied to the
two-field list that writes key `a` twice, whose second pass yields the
table mapping `a` to `2`. -/
theorem c10_duplicate_last_wins_witness :
    ∃ tbl rv vis,
      resolveRefsF tbl 4 (Value.int 2) [] = some (.ok (rv, vis)) ∧
      validate_value [] 4 rv TACLType.int ("a".toList) = some (.ok ()) ∧
      lookupA [(("a".toList), Value.int 2)] ("a".toList) = some rv :=
  c10_duplicate_last_wins.2.1 [] 4 4
    [⟨"a".toList, TACLType.int, Value.int 1, 1⟩]
    ⟨"a".toList, TACLType.int, Value.int 2, 2⟩ [] [] [(("a".toList), Value.int 2)]
    rfl (fun g hg => absurd hg (List.not_mem_nil g))


theorem starts_self_append : ∀ (p t : Str), pyStartsWith p (p ++ t) = true := by
  intro p
  induction p with
  | nil => intro t; rfl
  | cons c ps ih =>
    intro t
    simp only [List.cons_append, pyStartsWith]
    simpa using ih t

theorem starts_append {p : Str} : ∀ {s : Str}, pyStartsWith p s = true → ∃ t, s = p ++ t := by
  induction p with
  | nil => intro s _; exact ⟨s, rfl⟩
  | cons c ps ih =>
    intro s h
    cases s with
    | nil => simp [pyStartsWith] at h
    | cons d cs =>
      simp only [pyStartsWith, Bool.and_eq_true, decide_eq_true_eq] at h
      obtain ⟨t, ht⟩ := ih h.2
      exact ⟨t, by rw [h.1, ht]; rfl⟩

theorem wordch_not_space {c : Char} (h : isWordCh c = true) : pyIsSpace c = false := by
  by_contra hs
  have hs2 : pyIsSpace c = true := by
    cases hp : pyIsSpace c
    · exact absurd hp hs
    · rfl
  simp only [pyIsSpace, Bool.or_eq_true, decide_eq_true_eq] at hs2
  rcases hs2 with ((((h1 | h1) | h1) | h1) | h1) | h1 <;> subst h1 <;>
    simp [isWordCh, isIdentStart, isAlphaCh, isDigitCh] at h

theorem ident_wordchars {s : Str} (h : pyIsIdentifier s = true) :
    ∀ c ∈ s, isWordCh c = true := by
  cases s with
  | nil => simp [pyIsIdentifier] at h
  | cons d rest =>
    simp only [pyIsIdentifier, Bool.and_eq_true] at h
    intro c hc
    rcases List.mem_cons.mp hc with rfl | hc2
    · simp only [isWordCh, Bool.or_eq_true]
      exact Or.inl h.1
    · exact List.all_eq_true.mp h.2 c hc2

theorem char_mem_contains {c : Char} : ∀ {l : Str}, c ∈ l → pyContains l c = true := by
  intro l
  induction l with
  | nil => intro h; simp at h
  | cons d rest ih =>
    intro h
    rcases List.mem_cons.mp h with rfl | h2
    · simp [pyContains, List.contains_cons]
    · simp [pyContains, List.contains_cons]
      exact Or.inr h2

theorem char_not_mem {c : Char} {l : Str} (h : pyContains l c = false) : c ∉ l := by
  intro hm
  rw [char_mem_contains hm] at h
  exact Bool.noConfusion h

theorem all_isWordCh_false {l : Str} (h : '[' ∈ l) : l.all isWordCh = false := by
  cases hall : l.all isWordCh
  · rfl
  · have h2 := List.all_eq_true.mp hall '[' h
    exact absurd h2 (by decide)

theorem splitFirst_append : ∀ {a : Str}, ',' ∉ a → ∀ (b : Str),
    splitFirst ',' (a ++ ',' :: b) = some (a, b) := by
  intro a
  induction a with
  | nil => intro _ b; simp [splitFirst]
  | cons c rest ih =>
    intro hna b
    have hc : ¬ (c = ',') := fun h => hna (h ▸ List.mem_cons_self c rest)
    simp only [List.cons_append, splitFirst, if_neg hc, List.append_eq,
      ih (fun hm => hna (List.mem_cons_of_mem c hm)) b]

theorem splitChar_no_sep : ∀ {a : Str}, ',' ∉ a → splitChar ',' a = [a] := by
  intro a
  induction a with
  | nil => intro _; rfl
  | cons c rest ih =>
    intro hna
    have hc : ¬ (c = ',') := fun h => hna (h ▸ List.mem_cons_self c rest)
    simp only [splitChar, if_neg hc, ih (fun hm => hna (List.mem_cons_of_mem c hm))]

theorem splitChar_append_sep : ∀ {a : Str}, ',' ∉ a → ∀ (b : Str),
    splitChar ',' (a ++ ',' :: b) = a :: splitChar ',' b := by
  intro a
  induction a with
  | nil => intro _ b; simp [splitChar]
  | cons c rest ih =>
    intro hna b
    have hc : ¬ (c = ',') := fun h => hna (h ▸ List.mem_cons_self c rest)
    simp only [List.cons_append, splitChar, if_neg hc, List.append_eq,
      ih (fun hm => hna (List.mem_cons_of_mem c hm)) b]

theorem splitChar_joinSep : ∀ (l : List Str), l ≠ [] → (∀ x ∈ l, ',' ∉ x) →
    splitChar ',' (joinSep (",".toList) l) = l := by
  intro l
  induction l with
  | nil => intro h _; exact absurd rfl h
  | cons x rest ih =>
    intro _ hall
    cases rest with
    | nil => exact splitChar_no_sep (hall x (by simp))
    | cons y rest2 =>
      have hx : ',' ∉ x := hall x (by simp)
      have hjoin : joinSep (",".toList) (x :: y :: rest2)
          = x ++ ',' :: joinSep (",".toList) (y :: rest2) := by simp [joinSep]
      rw [hjoin, splitChar_append_sep hx, ih (by simp) (fun z hz => hall z (by simp [hz]))]

theorem mem_joinSep_len : ∀ (l : List Str) (x : Str), x ∈ l →
    x.length ≤ (joinSep (",".toList) l).length := by
  intro l
  induction l with
  | nil => intro x hx; simp at hx
  | cons a rest ih =>
    intro x hx
    cases rest with
    | nil =>
      rcases List.mem_cons.mp hx with rfl | hx2
      · exact Nat.le_refl _
      · simp at hx2
    | cons b rest2 =>
      have hjoin : joinSep (",".toList) (a :: b :: rest2)
          = a ++ ',' :: joinSep (",".toList) (b :: rest2) := by simp [joinSep]
      rcases List.mem_cons.mp hx with rfl | hx2
      · rw [hjoin]
        simp
      · rw [hjoin]
        have := ih x hx2
        simp only [List.length_append, List.length_cons]
        omega

theorem joinSep_all_nonspace : ∀ (l : List Str),
    (∀ x ∈ l, ∀ c ∈ x, pyIsSpace c = false) →
    ∀ c ∈ joinSep (",".toList) l, pyIsSpace c = false := by
  intro l
  induction l with
  | nil => intro _ c hc; simp [joinSep] at hc
  | cons a rest ih =>
    intro hall c hc
    cases rest with
    | nil => exact hall a (by simp) c hc
    | cons b rest2 =>
      have hjoin : joinSep (",".toList) (a :: b :: rest2)
          = a ++ ',' :: joinSep (",".toList) (b :: rest2) := by simp [joinSep]
      rw [hjoin] at hc
      rcases List.mem_append.mp hc with hc1 | hc2
      · exact hall a (by simp) c hc1
      · rcases List.mem_cons.mp hc2 with rfl | hc3
        · rfl
        · exact ih (fun x hx => hall x (by simp [hx])) c hc3


theorem tyStr_union_eq (ms : List TACLType) :
    tyStr (.union ms) =
      ("union[".toList) ++ joinSep (",".toList) (ms.map tyStr) ++ ("]".toList) := by
  simp only [tyStr]
  rw [List.attach_map_val]

theorem fragment_nonspace : ∀ {t : TACLType}, Fragment t →
    ∀ c ∈ tyStr t, pyIsSpace c = false := by
  intro t h
  induction h with
  | strF => intro c hc; simp only [tyStr] at hc; revert c hc; decide
  | intF => intro c hc; simp only [tyStr] at hc; revert c hc; decide
  | boolF => intro c hc; simp only [tyStr] at hc; revert c hc; decide
  | floatF => intro c hc; simp only [tyStr] at hc; revert c hc; decide
  | nullF => intro c hc; simp only [tyStr] at hc; revert c hc; decide
  | objectF => intro c hc; simp only [tyStr] at hc; revert c hc; decide
  | optionalF hsub ih =>
    intro c hc
    simp only [tyStr] at hc
    rcases List.mem_append.mp hc with h12 | h3
    · rcases List.mem_append.mp h12 with h1 | h2
      · exact (by decide : ∀ c ∈ ("optional[".toList), pyIsSpace c = false) c h1
      · exact ih c h2
    · exact (by decide : ∀ c ∈ ("]".toList), pyIsSpace c = false) c h3
  | listF hsub ih =>
    intro c hc
    simp only [tyStr] at hc
    rcases List.mem_append.mp hc with h12 | h3
    · rcases List.mem_append.mp h12 with h1 | h2
      · exact (by decide : ∀ c ∈ ("list[".toList), pyIsSpace c = false) c h1
      · exact ih c h2
    · exact (by decide : ∀ c ∈ ("]".toList), pyIsSpace c = false) c h3
  | dictF hk hv hck ihk ihv =>
    intro c hc
    simp only [tyStr] at hc
    rcases List.mem_append.mp hc with h1234 | h5
    · rcases List.mem_append.mp h1234 with h123 | h4
      · rcases List.mem_append.mp h123 with h12 | h3
        · rcases List.mem_append.mp h12 with h1 | h2
          · exact (by decide : ∀ c ∈ ("dict[".toList), pyIsSpace c = false) c h1
          · exact ihk c h2
        · exact (by decide : ∀ c ∈ (",".toList), pyIsSpace c = false) c h3
      · exact ihv c h4
    · exact (by decide : ∀ c ∈ ("]".toList), pyIsSpace c = false) c h5
  | unionF hne hall hcf ih =>
    intro c hc
    rw [tyStr_union_eq] at hc
    rcases List.mem_append.mp hc with h12 | h3
    · rcases List.mem_append.mp h12 with h1 | h2
      · exact (by decide : ∀ c ∈ ("union[".toList), pyIsSpace c = false) c h1
      · refine joinSep_all_nonspace _ ?_ c h2
        intro x hx
        obtain ⟨m, hm, rfl⟩ := List.mem_map.mp hx
        exact ih m hm
    · exact (by decide : ∀ c ∈ ("]".toList), pyIsSpace c = false) c h3
  | literalF hne hall =>
    intro c hc
    simp only [tyStr] at hc
    rcases List.mem_append.mp hc with h12 | h3
    · rcases List.mem_append.mp h12 with h1 | h2
      · exact (by decide : ∀ c ∈ ("literal[".toList), pyIsSpace c = false) c h1
      · refine joinSep_all_nonspace _ ?_ c h2
        intro x hx d hd
        have := List.all_eq_true.mp (hall x hx).2.2.2.2.2 d hd
        simpa using this
    · exact (by decide : ∀ c ∈ ("]".toList), pyIsSpace c = false) c h3
  | customF hident h1 h2 h3 h4 h5 h6 =>
    intro c hc
    simp only [tyStr] at hc
    exact wordch_not_space (ident_wordchars hident c hc)

theorem tyStr_strip {t : TACLType} (h : Fragment t) : pyStrip (tyStr t) = tyStr t :=
  strip_of_all_nonspace (fragment_nonspace h)

theorem tyStr_ne_nil : ∀ {t : TACLType}, Fragment t → tyStr t ≠ [] := by
  intro t h
  cases h with
  | strF => simp only [tyStr]; decide
  | intF => simp only [tyStr]; decide
  | boolF => simp only [tyStr]; decide
  | floatF => simp only [tyStr]; decide
  | nullF => simp only [tyStr]; decide
  | objectF => simp only [tyStr]; decide
  | optionalF hsub =>
    simp only [tyStr]
    intro hh
    exact absurd (List.append_eq_nil.mp hh).2 (by decide)
  | listF hsub =>
    simp only [tyStr]
    intro hh
    exact absurd (List.append_eq_nil.mp hh).2 (by decide)
  | dictF hk hv hck =>
    simp only [tyStr]
    intro hh
    exact absurd (List.append_eq_nil.mp hh).2 (by decide)
  | unionF hne hall hcf =>
    rw [tyStr_union_eq]
    intro hh
    exact absurd (List.append_eq_nil.mp hh).2 (by decide)
  | literalF hne hall =>
    simp only [tyStr]
    intro hh
    exact absurd (List.append_eq_nil.mp hh).2 (by decide)
  | customF hident h1 h2 h3 h4 h5 h6 =>
    simp only [tyStr]
    intro hh
    rw [hh] at hident
    simp [pyIsIdentifier] at hident


theorem splitLitVals_pass : ∀ {tok : Str}, (∀ c ∈ tok, c ≠ ',' ∧ c ≠ '"' ∧ c ≠ '\\') →
    ∀ (rest cur : Str),
      splitLitVals (tok ++ rest) false false cur = splitLitVals rest false false (cur ++ tok) := by
  intro tok
  induction tok with
  | nil => intro _ rest cur; simp
  | cons ch tl ih =>
    intro hall rest cur
    obtain ⟨h1, h2, h3⟩ := hall ch (by simp)
    have hrec := ih (fun c hc => hall c (by simp [hc])) rest (cur ++ [ch])
    simp only [List.cons_append, splitLitVals, h1, h2, h3, decide_False, Bool.false_and,
      Bool.and_false, if_false, Bool.not_false, Bool.and_true, List.append_eq]
    simp only [if_neg (by simp : ¬ (false = true)), List.append_nil]
    rw [List.append_cons cur ch tl]
    exact hrec

theorem splitLitVals_join : ∀ (toks : List Str), toks ≠ [] → (∀ tok ∈ toks, goodTok tok) →
    splitLitVals (joinSep (",".toList) toks) false false [] = toks := by
  intro toks
  induction toks with
  | nil => intro h _; exact absurd rfl h
  | cons tok rest ih =>
    intro _ hall
    obtain ⟨hne, hnc, hnq, hnb, hstr, hsp⟩ := hall tok (by simp)
    have hchars : ∀ c ∈ tok, c ≠ ',' ∧ c ≠ '"' ∧ c ≠ '\\' := by
      intro c hc
      refine ⟨?_, ?_, ?_⟩ <;> intro heq <;> subst heq
      · exact char_not_mem hnc hc
      · exact char_not_mem hnq hc
      · exact char_not_mem hnb hc
    cases rest with
    | nil =>
      have h2 : splitLitVals (tok ++ []) false false [] =
          splitLitVals [] false false ([] ++ tok) := splitLitVals_pass hchars [] []
      rw [List.append_nil] at h2
      show splitLitVals tok false false [] = [tok]
      rw [h2]
      simp only [List.nil_append, splitLitVals, hstr]
      rw [if_pos (by simpa using List.length_pos.mpr hne)]
    | cons tok2 rest2 =>
      have hj : joinSep (",".toList) (tok :: tok2 :: rest2)
          = tok ++ ',' :: joinSep (",".toList) (tok2 :: rest2) := by simp [joinSep]
      rw [hj, splitLitVals_pass hchars (',' :: joinSep (",".toList) (tok2 :: rest2)) []]
      simp only [List.nil_append, splitLitVals, hstr]
      rw [if_neg (by simp : ¬ (false = true))]
      rw [if_neg (by decide : ¬ ((',' : Char) = '\\'))]
      rw [if_neg (by decide : ¬ ((',' : Char) = '"'))]
      rw [if_pos (by simp), if_pos (by simpa using List.length_pos.mpr hne)]
      rw [ih (by simp) (fun x hx => hall x (by simp [hx]))]

theorem mapLoop_union (f : Nat) : ∀ (ms : List TACLType),
    (∀ m ∈ ms, pyStrip (tyStr m) = tyStr m ∧ tyStr m ≠ [] ∧
      parseTypeF f (tyStr m) = some (.ok m)) →
    mapLoopE (fun part =>
      let p := pyStrip part
      if p.length = 0 then some (.error ("Union type parts cannot be empty".toList))
      else parseTypeF f p) (ms.map tyStr) = some (.ok ms) := by
  intro ms
  induction ms with
  | nil => intro _; rfl
  | cons m rest ih =>
    intro hall
    obtain ⟨hstr, hne, hp⟩ := hall m (by simp)
    simp only [List.map_cons, mapLoopE, hstr]
    rw [if_neg (fun hh => hne (List.eq_nil_of_length_eq_zero hh))]
    rw [hp, ih (fun x hx => hall x (by simp [hx]))]

theorem unclosed_bracket_error {s : Str}
    (hstrip : pyStrip s = s)
    (hne : s ≠ [])
    (hbr : '[' ∈ s)
    (hno : pyIsIdentifier s = false)
    (h1 : (pyStartsWith ("optional[".toList) s && pyEndsWith ("]".toList) s) = false)
    (h2 : (pyStartsWith ("list[".toList) s && pyEndsWith ("]".toList) s) = false)
    (h3 : (pyStartsWith ("dict[".toList) s && pyEndsWith ("]".toList) s) = false)
    (h4 : (pyStartsWith ("literal[".toList) s && pyEndsWith ("]".toList) s) = false)
    (h5 : (pyStartsWith ("union[".toList) s && pyEndsWith ("]".toList) s) = false) :
    parse_type s = some (.error ("Invalid custom type name: ".toList ++ s)) := by
  have hp : ∀ x : Str, '[' ∉ x → ¬ (s = x) := fun x hx h => hx (h ▸ hbr)
  simp only [parse_type, parseTypeF, hstrip, h1, h2, h3, h4, h5]
  rw [if_neg (fun hh => hne (List.eq_nil_of_length_eq_zero hh))]
  rw [if_neg (by simp : ¬ (false = true)), if_neg (by simp : ¬ (false = true)),
    if_neg (by simp : ¬ (false = true)), if_neg (by simp : ¬ (false = true)),
    if_neg (by simp : ¬ (false = true))]
  rw [if_neg (hp _ (by decide)), if_neg (hp _ (by decide)), if_neg (hp _ (by decide)),
    if_neg (hp _ (by decide)), if_neg (hp _ (by decide)), if_neg (hp _ (by decide))]
  rw [if_pos (by simp [hno])]


theorem fragment_roundtrip : ∀ {t : TACLType}, Fragment t →
    ∀ fuel, (tyStr t).length < fuel → parseTypeF fuel (tyStr t) = some (.ok t) := by
  intro t h
  induction h with
  | strF =>
    intro fuel hf
    rw [show tyStr TACLType.string = "string".toList from by simp [tyStr]] at hf ⊢
    cases fuel with
    | zero => exact absurd hf (Nat.not_lt_zero _)
    | succ f => rfl
  | intF =>
    intro fuel hf
    rw [show tyStr TACLType.int = "int".toList from by simp [tyStr]] at hf ⊢
    cases fuel with
    | zero => exact absurd hf (Nat.not_lt_zero _)
    | succ f => rfl
  | boolF =>
    intro fuel hf
    rw [show tyStr TACLType.bool = "bool".toList from by simp [tyStr]] at hf ⊢
    cases fuel with
    | zero => exact absurd hf (Nat.not_lt_zero _)
    | succ f => rfl
  | floatF =>
    intro fuel hf
    rw [show tyStr TACLType.float = "float".toList from by simp [tyStr]] at hf ⊢
    cases fuel with
    | zero => exact absurd hf (Nat.not_lt_zero _)
    | succ f => rfl
  | nullF =>
    intro fuel hf
    rw [show tyStr TACLType.null = "null".toList from by simp [tyStr]] at hf ⊢
    cases fuel with
    | zero => exact absurd hf (Nat.not_lt_zero _)
    | succ f => rfl
  | objectF =>
    intro fuel hf
    rw [show tyStr TACLType.object = "object".toList from by simp [tyStr]] at hf ⊢
    cases fuel with
    | zero => exact absurd hf (Nat.not_lt_zero _)
    | succ f => rfl
  | @optionalF t1 hsub ih =>
    intro fuel hf
    cases fuel with
    | zero => exact absurd hf (Nat.not_lt_zero _)
    | succ f =>
      simp only [tyStr] at hf ⊢
      have hs : pyStrip (("optional[".toList) ++ tyStr t1 ++ ("]".toList))
          = ("optional[".toList) ++ tyStr t1 ++ ("]".toList) := by
        have := tyStr_strip (Fragment.optionalF hsub)
        simpa [tyStr] using this
      have hSne : (("optional[".toList) ++ tyStr t1 ++ ("]".toList) : Str) ≠ [] := by
        have := tyStr_ne_nil (Fragment.optionalF hsub)
        simpa [tyStr] using this
      have hstart : pyStartsWith ("optional[".toList)
          (("optional[".toList) ++ tyStr t1 ++ ("]".toList)) = true := by
        rw [List.append_assoc]
        exact starts_self_append _ _
      have hend : pyEndsWith ("]".toList)
          (("optional[".toList) ++ tyStr t1 ++ ("]".toList)) = true :=
        ends_concat_self ']' _
      have hdrop9 : (("optional[".toList) ++ tyStr t1 ++ ("]".toList) : Str).drop 9
          = tyStr t1 ++ ("]".toList) := by
        rw [List.append_assoc, show (9 : Nat) = (("optional[".toList : Str)).length from rfl,
          List.drop_left]
      have hflen : (tyStr t1).length < f := by
        have h9 : (("optional[".toList : Str)).length = 9 := rfl
        have h1 : (("]".toList : Str)).length = 1 := rfl
        simp only [List.length_append, h9, h1] at hf
        omega
      simp only [parseTypeF, hs]
      rw [if_neg (fun hh => hSne (List.eq_nil_of_length_eq_zero hh))]
      rw [if_pos (by rw [hstart, hend]; rfl)]
      rw [hdrop9, show (tyStr t1 ++ ("]".toList)).dropLast = tyStr t1 from List.dropLast_concat]
      rw [if_neg (fun hh => tyStr_ne_nil hsub (List.eq_nil_of_length_eq_zero hh))]
      rw [ih f hflen]
  | @listF t1 hsub ih =>
    intro fuel hf
    cases fuel with
    | zero => exact absurd hf (Nat.not_lt_zero _)
    | succ f =>
      simp only [tyStr] at hf ⊢
      have hs : pyStrip (("list[".toList) ++ tyStr t1 ++ ("]".toList))
          = ("list[".toList) ++ tyStr t1 ++ ("]".toList) := by
        have := tyStr_strip (Fragment.listF hsub)
        simpa [tyStr] using this
      have hSne : (("list[".toList) ++ tyStr t1 ++ ("]".toList) : Str) ≠ [] := by
        have := tyStr_ne_nil (Fragment.listF hsub)
        simpa [tyStr] using this
      have hstart : pyStartsWith ("list[".toList)
          (("list[".toList) ++ tyStr t1 ++ ("]".toList)) = true := by
        rw [List.append_assoc]
        exact starts_self_append _ _
      have hend : pyEndsWith ("]".toList)
          (("list[".toList) ++ tyStr t1 ++ ("]".toList)) = true :=
        ends_concat_self ']' _
      have hdrop5 : (("list[".toList) ++ tyStr t1 ++ ("]".toList) : Str).drop 5
          = tyStr t1 ++ ("]".toList) := by
        rw [List.append_assoc, show (5 : Nat) = (("list[".toList : Str)).length from rfl,
          List.drop_left]
      have hflen : (tyStr t1).length < f := by
        have h5 : (("list[".toList : Str)).length = 5 := rfl
        have h1 : (("]".toList : Str)).length = 1 := rfl
        simp only [List.length_append, h5, h1] at hf
        omega
      have hno1 : pyStartsWith ("optional[".toList)
          (("list[".toList) ++ tyStr t1 ++ ("]".toList)) = false := rfl
      simp only [parseTypeF, hs]
      rw [if_neg (fun hh => hSne (List.eq_nil_of_length_eq_zero hh))]
      rw [if_neg (by rw [hno1]; simp)]
      rw [if_pos (by rw [hstart, hend]; rfl)]
      rw [hdrop5, show (tyStr t1 ++ ("]".toList)).dropLast = tyStr t1 from List.dropLast_concat]
      rw [if_neg (fun hh => tyStr_ne_nil hsub (List.eq_nil_of_length_eq_zero hh))]
      rw [ih f hflen]
  | @dictF k v hk hv hck ihk ihv =>
    intro fuel hf
    cases fuel with
    | zero => exact absurd hf (Nat.not_lt_zero _)
    | succ f =>
      simp only [tyStr] at hf ⊢
      have hS : ("dict[".toList) ++ tyStr k ++ (",".toList) ++ tyStr v ++ ("]".toList)
          = ("dict[".toList) ++ ((tyStr k ++ (",".toList) ++ tyStr v) ++ ("]".toList)) := by
        simp [List.append_assoc]
      have hs : pyStrip (("dict[".toList) ++ tyStr k ++ (",".toList) ++ tyStr v ++ ("]".toList))
          = ("dict[".toList) ++ tyStr k ++ (",".toList) ++ tyStr v ++ ("]".toList) := by
        have := tyStr_strip (Fragment.dictF hk hv hck)
        simpa [tyStr] using this
      have hSne : (("dict[".toList) ++ tyStr k ++ (",".toList) ++ tyStr v ++ ("]".toList) : Str)
          ≠ [] := by
        have := tyStr_ne_nil (Fragment.dictF hk hv hck)
        simpa [tyStr] using this
      have hstart : pyStartsWith ("dict[".toList)
          (("dict[".toList) ++ tyStr k ++ (",".toList) ++ tyStr v ++ ("]".toList)) = true := by
        rw [hS]
        exact starts_self_append _ _
      have hend : pyEndsWith ("]".toList)
          (("dict[".toList) ++ tyStr k ++ (",".toList) ++ tyStr v ++ ("]".toList)) = true :=
        ends_concat_self ']' _
      have hdrop5 : (("dict[".toList) ++ tyStr k ++ (",".toList) ++ tyStr v ++ ("]".toList) :
          Str).drop 5 = (tyStr k ++ (",".toList) ++ tyStr v) ++ ("]".toList) := by
        rw [hS, show (5 : Nat) = (("dict[".toList : Str)).length from rfl, List.drop_left]
      have hkne := tyStr_ne_nil hk
      have hvne := tyStr_ne_nil hv
      have hkcm : ',' ∉ tyStr k := char_not_mem hck
      have hdi : tyStr k ++ (",".toList) ++ tyStr v = tyStr k ++ ',' :: tyStr v := by simp
      have hcont : pyContains (tyStr k ++ (",".toList) ++ tyStr v) ',' = true := by
        rw [hdi]
        exact char_mem_contains (List.mem_append.mpr (Or.inr (List.mem_cons_self _ _)))
      have hsplit : splitFirst ',' (tyStr k ++ (",".toList) ++ tyStr v)
          = some (tyStr k, tyStr v) := by
        rw [hdi]
        exact splitFirst_append hkcm (tyStr v)
      have hflen1 : (tyStr k).length < f := by
        have h5 : (("dict[".toList : Str)).length = 5 := rfl
        have h1 : (("]".toList : Str)).length = 1 := rfl
        have hc1 : ((",".toList : Str)).length = 1 := rfl
        simp only [List.length_append, h5, h1, hc1] at hf
        omega
      have hflen2 : (tyStr v).length < f := by
        have h5 : (("dict[".toList : Str)).length = 5 := rfl
        have h1 : (("]".toList : Str)).length = 1 := rfl
        have hc1 : ((",".toList : Str)).length = 1 := rfl
        simp only [List.length_append, h5, h1, hc1] at hf
        omega
      have hno1 : pyStartsWith ("optional[".toList)
          (("dict[".toList) ++ tyStr k ++ (",".toList) ++ tyStr v ++ ("]".toList)) = false := rfl
      have hno2 : pyStartsWith ("list[".toList)
          (("dict[".toList) ++ tyStr k ++ (",".toList) ++ tyStr v ++ ("]".toList)) = false := rfl
      simp only [parseTypeF, hs]
      rw [if_neg (fun hh => hSne (List.eq_nil_of_length_eq_zero hh))]
      rw [if_neg (by rw [hno1]; simp), if_neg (by rw [hno2]; simp)]
      rw [if_pos (by rw [hstart, hend]; rfl)]
      rw [hdrop5, show ((tyStr k ++ (",".toList) ++ tyStr v) ++ ("]".toList)).dropLast
        = tyStr k ++ (",".toList) ++ tyStr v from List.dropLast_concat]
      have hdine0 : ((tyStr k ++ (",".toList) ++ tyStr v) : Str) ≠ [] := by
        rw [hdi]
        intro hh
        rcases List.append_eq_nil.mp hh with ⟨h1, h2⟩
        exact List.cons_ne_nil _ _ h2
      rw [if_neg (fun hh => hdine0 (List.eq_nil_of_length_eq_zero hh))]
      rw [if_pos hcont]
      simp only [hsplit]
      rw [tyStr_strip hk, tyStr_strip hv]
      rw [if_neg (by simp [List.length_eq_zero, hkne, hvne])]
      rw [ihk f hflen1]
      simp only [ihv f hflen2]
  | @unionF ms hne hall hcf ih =>
    intro fuel hf
    cases fuel with
    | zero => exact absurd hf (Nat.not_lt_zero _)
    | succ f =>
      rw [tyStr_union_eq] at hf ⊢
      have hfrag : Fragment (TACLType.union ms) := Fragment.unionF hne hall hcf
      have hs : pyStrip (("union[".toList) ++ joinSep (",".toList) (ms.map tyStr) ++ ("]".toList))
          = ("union[".toList) ++ joinSep (",".toList) (ms.map tyStr) ++ ("]".toList) := by
        have := tyStr_strip hfrag
        rw [tyStr_union_eq] at this
        exact this
      have hSne : (("union[".toList) ++ joinSep (",".toList) (ms.map tyStr) ++ ("]".toList) : Str)
          ≠ [] := by
        have := tyStr_ne_nil hfrag
        rw [tyStr_union_eq] at this
        exact this
      have hstart : pyStartsWith ("union[".toList)
          (("union[".toList) ++ joinSep (",".toList) (ms.map tyStr) ++ ("]".toList)) = true := by
        rw [List.append_assoc]
        exact starts_self_append _ _
      have hend : pyEndsWith ("]".toList)
          (("union[".toList) ++ joinSep (",".toList) (ms.map tyStr) ++ ("]".toList)) = true :=
        ends_concat_self ']' _
      have hdrop6 : (("union[".toList) ++ joinSep (",".toList) (ms.map tyStr) ++ ("]".toList) :
          Str).drop 6 = joinSep (",".toList) (ms.map tyStr) ++ ("]".toList) := by
        rw [List.append_assoc, show (6 : Nat) = (("union[".toList : Str)).length from rfl,
          List.drop_left]
      obtain ⟨m0, ms2, rfl⟩ : ∃ m0 ms2, ms = m0 :: ms2 := by
        cases ms with
        | nil => exact absurd rfl hne
        | cons a b => exact ⟨a, b, rfl⟩
      have hm0len : (tyStr m0).length ≤ (joinSep (",".toList) ((m0 :: ms2).map tyStr)).length :=
        mem_joinSep_len _ (tyStr m0) (by simp)
      have hm0ne := tyStr_ne_nil (hall m0 (by simp))
      have hjoinne : joinSep (",".toList) ((m0 :: ms2).map tyStr) ≠ [] := by
        intro hh
        rw [hh] at hm0len
        simp at hm0len
        exact hm0ne hm0len
      have hparts : splitChar ',' (joinSep (",".toList) ((m0 :: ms2).map tyStr))
          = (m0 :: ms2).map tyStr := by
        refine splitChar_joinSep _ (by simp) ?_
        intro x hx
        obtain ⟨m, hm, rfl⟩ := List.mem_map.mp hx
        exact char_not_mem (hcf m hm)
      have hmembers : ∀ m ∈ (m0 :: ms2), pyStrip (tyStr m) = tyStr m ∧ tyStr m ≠ [] ∧
          parseTypeF f (tyStr m) = some (.ok m) := by
        intro m hm
        refine ⟨tyStr_strip (hall m hm), tyStr_ne_nil (hall m hm), ?_⟩
        refine ih m hm f ?_
        have hle := mem_joinSep_len ((m0 :: ms2).map tyStr) (tyStr m)
          (List.mem_map.mpr ⟨m, hm, rfl⟩)
        have h6 : (("union[".toList : Str)).length = 6 := rfl
        have h1 : (("]".toList : Str)).length = 1 := rfl
        simp only [List.length_append, h6, h1] at hf
        omega
      have hno1 : pyStartsWith ("optional[".toList)
          (("union[".toList) ++ joinSep (",".toList) ((m0 :: ms2).map tyStr) ++ ("]".toList))
          = false := rfl
      have hno2 : pyStartsWith ("list[".toList)
          (("union[".toList) ++ joinSep (",".toList) ((m0 :: ms2).map tyStr) ++ ("]".toList))
          = false := rfl
      have hno3 : pyStartsWith ("dict[".toList)
          (("union[".toList) ++ joinSep (",".toList) ((m0 :: ms2).map tyStr) ++ ("]".toList))
          = false := rfl
      have hno4 : pyStartsWith ("literal[".toList)
          (("union[".toList) ++ joinSep (",".toList) ((m0 :: ms2).map tyStr) ++ ("]".toList))
          = false := rfl
      simp only [parseTypeF, hs]
      rw [if_neg (fun hh => hSne (List.eq_nil_of_length_eq_zero hh))]
      rw [if_neg (by rw [hno1]; simp), if_neg (by rw [hno2]; simp), if_neg (by rw [hno3]; simp),
        if_neg (by rw [hno4]; simp)]
      rw [if_pos (by rw [hstart, hend]; rfl)]
      rw [hdrop6, show (joinSep (",".toList) ((m0 :: ms2).map tyStr) ++ ("]".toList)).dropLast
        = joinSep (",".toList) ((m0 :: ms2).map tyStr) from List.dropLast_concat]
      rw [if_neg (fun hh => hjoinne (List.eq_nil_of_length_eq_zero hh))]
      rw [hparts, mapLoop_union f (m0 :: ms2) hmembers]
      simp
  | @literalF toks hne hall =>
    intro fuel hf
    cases fuel with
    | zero => exact absurd hf (Nat.not_lt_zero _)
    | succ f =>
      simp only [tyStr] at hf ⊢
      have hfrag : Fragment (TACLType.literal toks) := Fragment.literalF hne hall
      have hs : pyStrip (("literal[".toList) ++ joinSep (",".toList) toks ++ ("]".toList))
          = ("literal[".toList) ++ joinSep (",".toList) toks ++ ("]".toList) := by
        have := tyStr_strip hfrag
        simpa [tyStr] using this
      have hSne : (("literal[".toList) ++ joinSep (",".toList) toks ++ ("]".toList) : Str)
          ≠ [] := by
        have := tyStr_ne_nil hfrag
        simpa [tyStr] using this
      have hstart : pyStartsWith ("literal[".toList)
          (("literal[".toList) ++ joinSep (",".toList) toks ++ ("]".toList)) = true := by
        rw [List.append_assoc]
        exact starts_self_append _ _
      have hend : pyEndsWith ("]".toList)
          (("literal[".toList) ++ joinSep (",".toList) toks ++ ("]".toList)) = true :=
        ends_concat_self ']' _
      have hdrop8 : (("literal[".toList) ++ joinSep (",".toList) toks ++ ("]".toList) :
          Str).drop 8 = joinSep (",".toList) toks ++ ("]".toList) := by
        rw [List.append_assoc, show (8 : Nat) = (("literal[".toList : Str)).length from rfl,
          List.drop_left]
      obtain ⟨t0, toks2, rfl⟩ : ∃ t0 toks2, toks = t0 :: toks2 := by
        cases toks with
        | nil => exact absurd rfl hne
        | cons a b => exact ⟨a, b, rfl⟩
      have ht0ne : t0 ≠ [] := (hall t0 (by simp)).1
      have ht0len : t0.length ≤ (joinSep (",".toList) (t0 :: toks2)).length :=
        mem_joinSep_len _ t0 (by simp)
      have hjoinne : joinSep (",".toList) (t0 :: toks2) ≠ [] := by
        intro hh
        rw [hh] at ht0len
        simp at ht0len
        exact ht0ne ht0len
      have hvals : splitLitVals (joinSep (",".toList) (t0 :: toks2)) false false []
          = t0 :: toks2 := splitLitVals_join _ (by simp) hall
      have hno1 : pyStartsWith ("optional[".toList)
          (("literal[".toList) ++ joinSep (",".toList) (t0 :: toks2) ++ ("]".toList))
          = false := rfl
      have hno2 : pyStartsWith ("list[".toList)
          (("literal[".toList) ++ joinSep (",".toList) (t0 :: toks2) ++ ("]".toList))
          = false := rfl
      have hno3 : pyStartsWith ("dict[".toList)
          (("literal[".toList) ++ joinSep (",".toList) (t0 :: toks2) ++ ("]".toList))
          = false := rfl
      simp only [parseTypeF, hs]
      rw [if_neg (fun hh => hSne (List.eq_nil_of_length_eq_zero hh))]
      rw [if_neg (by rw [hno1]; simp), if_neg (by rw [hno2]; simp), if_neg (by rw [hno3]; simp)]
      rw [if_pos (by rw [hstart, hend]; rfl)]
      rw [hdrop8, show (joinSep (",".toList) (t0 :: toks2) ++ ("]".toList)).dropLast
        = joinSep (",".toList) (t0 :: toks2) from List.dropLast_concat]
      rw [if_neg (fun hh => hjoinne (List.eq_nil_of_length_eq_zero hh))]
      rw [hvals]
      rw [if_neg (by simp)]
  | @customF name hident hp1 hp2 hp3 hp4 hp5 hp6 =>
    intro fuel hf
    cases fuel with
    | zero => exact absurd hf (Nat.not_lt_zero _)
    | succ f =>
      simp only [tyStr] at hf ⊢
      have hnb : '[' ∉ name := fun hm => by
        have := ident_wordchars hident '[' hm
        exact absurd this (by decide)
      have hso : ∀ p : Str, '[' ∈ p → pyStartsWith p name = false := by
        intro p hp
        cases hsp : pyStartsWith p name
        · rfl
        · exfalso
          obtain ⟨t2, ht2⟩ := starts_append hsp
          exact hnb (by rw [ht2]; exact List.mem_append.mpr (Or.inl hp))
      have hs : pyStrip name = name :=
        strip_of_all_nonspace (fun c hc => wordch_not_space (ident_wordchars hident c hc))
      have hnamene : name ≠ [] := by
        intro hh
        rw [hh] at hident
        simp [pyIsIdentifier] at hident
      simp only [parseTypeF, hs]
      rw [if_neg (fun hh => hnamene (List.eq_nil_of_length_eq_zero hh))]
      rw [if_neg (by rw [hso ("optional[".toList) (by decide)]; simp)]
      rw [if_neg (by rw [hso ("list[".toList) (by decide)]; simp)]
      rw [if_neg (by rw [hso ("dict[".toList) (by decide)]; simp)]
      rw [if_neg (by rw [hso ("literal[".toList) (by decide)]; simp)]
      rw [if_neg (by rw [hso ("union[".toList) (by decide)]; simp)]
      rw [if_neg hp1, if_neg hp2, if_neg hp3, if_neg hp4, if_neg hp5, if_neg hp6]
      rw [if_neg (by simp [hident])]


theorem andFalseL {a b : Bool} (h : a = false) : (a && b) = false := by rw [h]; simp

theorem andFalseR {a b : Bool} (h : b = false) : (a && b) = false := by rw [h]; simp

theorem ident_false_append {pre : Str} (h : '[' ∈ pre) :
    ∀ t, pyIsIdentifier (pre ++ t) = false := by
  intro t
  cases pre with
  | nil => simp at h
  | cons c rest =>
    simp only [List.cons_append, pyIsIdentifier]
    rcases List.mem_cons.mp h with hc | hrest
    · rw [← hc]
      simp [(by decide : isIdentStart '[' = false)]
    · rw [all_isWordCh_false (List.mem_append.mpr (Or.inl hrest))]
      simp

theorem fragment_spectype : ∀ {t : TACLType}, Fragment t → SpecType (tyStr t) t := by
  intro t h
  induction h with
  | strF => simp only [tyStr]; exact SpecType.strP
  | intF => simp only [tyStr]; exact SpecType.intP
  | boolF => simp only [tyStr]; exact SpecType.boolP
  | floatF => simp only [tyStr]; exact SpecType.floatP
  | nullF => simp only [tyStr]; exact SpecType.nullP
  | objectF => simp only [tyStr]; exact SpecType.objectP
  | @optionalF t1 hsub ih =>
    simp only [tyStr]
    exact SpecType.optionalP ih
  | @listF t1 hsub ih =>
    simp only [tyStr]
    exact SpecType.listP ih
  | @dictF k v hk hv hck ihk ihv =>
    simp only [tyStr]
    exact SpecType.dictTwoP ihk ihv
  | @unionF ms hne hall hcf ih =>
    rw [tyStr_union_eq]
    have h := SpecType.unionP (ms.map (fun m => (tyStr m, m)))
      (by simpa using hne)
      (by
        intro pr hpr
        obtain ⟨m, hm, rfl⟩ := List.mem_map.mp hpr
        exact ih m hm)
    have h1 : (ms.map (fun m => (tyStr m, m))).map Prod.fst = ms.map tyStr := by
      rw [List.map_map]
      rfl
    have h2 : (ms.map (fun m => (tyStr m, m))).map Prod.snd = ms := by
      rw [List.map_map]
      exact List.map_id ms
    rw [h1, h2] at h
    exact h
  | @literalF toks hne hall =>
    simp only [tyStr]
    exact SpecType.literalP toks hne (fun tok htok => (hall tok htok).1)
  | @customF name hident hp1 hp2 hp3 hp4 hp5 hp6 =>
    simp only [tyStr]
    exact SpecType.customP hident

/-- C5 (amended).  On the comma-safe fragment of the published grammar --
no comma inside a union member or a dict key position, literal tokens
that survive the quote-aware splitter, custom names that are identifiers
distinct from the primitive keywords -- the canonical grammar string of a
term is in the published grammar and `parse_type` parses it back to
exactly that term; union members may themselves be bracketed types, as in
`union[list[int], string]`; and a trimmed string opening a bracketed form
whose `]` is not at the exact end is rejected with a syntax error. -/
theorem c5_type_grammar :
    (∀ t : TACLType, Fragment t → SpecType (tyStr t) t) ∧
    (∀ t : TACLType, Fragment t → parse_type (tyStr t) = some (.ok t)) ∧
    (∀ s : Str, pyStrip s = s →
      (pyStartsWith ("optional[".toList) s = true ∨ pyStartsWith ("list[".toList) s = true ∨
       pyStartsWith ("dict[".toList) s = true ∨ pyStartsWith ("literal[".toList) s = true ∨
       pyStartsWith ("union[".toList) s = true) →
      pyEndsWith ("]".toList) s = false →
      parse_type s = some (.error ("Invalid custom type name: ".toList ++ s))) ∧
    parse_type ("union[list[int], string]".toList)
      = some (.ok (.union [.list .int, .string])) := by
  refine ⟨fun t h => fragment_spectype h,
    fun t h => fragment_roundtrip h ((tyStr t).length + 1) (Nat.lt_succ_self _), ?_, rfl⟩
  intro s hstrip hdisj hend
  rcases hdisj with hst | hst | hst | hst | hst
  · obtain ⟨t, rfl⟩ := starts_append hst
    exact unclosed_bracket_error hstrip
      (fun hh => absurd (List.append_eq_nil.mp hh).1 (by decide))
      (List.mem_append.mpr (Or.inl (by decide)))
      (ident_false_append (by decide) t)
      (andFalseR hend) (andFalseL rfl) (andFalseL rfl) (andFalseL rfl) (andFalseL rfl)
  · obtain ⟨t, rfl⟩ := starts_append hst
    exact unclosed_bracket_error hstrip
      (fun hh => absurd (List.append_eq_nil.mp hh).1 (by decide))
      (List.mem_append.mpr (Or.inl (by decide)))
      (ident_false_append (by decide) t)
      (andFalseL rfl) (andFalseR hend) (andFalseL rfl) (andFalseL rfl) (andFalseL rfl)
  · obtain ⟨t, rfl⟩ := starts_append hst
    exact unclosed_bracket_error hstrip
      (fun hh => absurd (List.append_eq_nil.mp hh).1 (by decide))
      (List.mem_append.mpr (Or.inl (by decide)))
      (ident_false_append (by decide) t)
      (andFalseL rfl) (andFalseL rfl) (andFalseR hend) (andFalseL rfl) (andFalseL rfl)
  · obtain ⟨t, rfl⟩ := starts_append hst
    exact unclosed_bracket_error hstrip
      (fun hh => absurd (List.append_eq_nil.mp hh).1 (by decide))
      (List.mem_append.mpr (Or.inl (by decide)))
      (ident_false_append (by decide) t)
      (andFalseL rfl) (andFalseL rfl) (andFalseL rfl) (andFalseR hend) (andFalseL rfl)
  · obtain ⟨t, rfl⟩ := starts_append hst
    exact unclosed_bracket_error hstrip
      (fun hh => absurd (List.append_eq_nil.mp hh).1 (by decide))
      (List.mem_append.mpr (Or.inl (by decide)))
      (ident_false_append (by decide) t)
      (andFalseL rfl) (andFalseL rfl) (andFalseL rfl) (andFalseL rfl) (andFalseR hend)

/-- Witness for C5: the amended roundtrip applied to `list[int]` (whose
grammar string parses back to the same term), and the end-bracket
conjunct applied to the unterminated `list[int`. -/
theorem c5_type_grammar_witness :
    parse_type (tyStr (TACLType.list TACLType.int))
      = some (.ok (TACLType.list TACLType.int)) ∧
    parse_type ("list[int".toList)
      = some (.error ("Invalid custom type name: ".toList ++ ("list[int".toList))) :=
  ⟨c5_type_grammar.2.1 (TACLType.list TACLType.int) (Fragment.listF Fragment.intF),
   c5_type_grammar.2.2.1 ("list[int".toList) rfl (Or.inr (Or.inl rfl)) rfl⟩

/-- Counterexample to C5 as stated: `union[dict[string,int],bool]` is
well-formed under the published grammar (a union whose first member is a
two-parameter dict), but `parse_type` splits the union body at every
comma, tries to parse the fragment `dict[string`, and fails with a
syntax error instead of returning the corresponding term. -/
theorem c5_counterexample :
    SpecType ("union[dict[string,int],bool]".toList)
      (.union [.dict .string .int, .bool]) ∧
    parse_type ("union[dict[string,int],bool]".toList)
      = some (.error ("Invalid custom type name: dict[string".toList)) := by
  constructor
  · exact SpecType.unionP
      [(("dict[string,int]".toList), TACLType.dict TACLType.string TACLType.int),
       (("bool".toList), TACLType.bool)]
      (by simp)
      (by
        intro pr hpr
        simp only [List.mem_cons, List.not_mem_nil, or_false] at hpr
        rcases hpr with rfl | rfl
        · exact SpecType.dictTwoP SpecType.strP SpecType.intP
        · exact SpecType.boolP)
  · rfl

end TACL
